import Mathlib

set_option maxHeartbeats 1000000
set_option maxRecDepth 100000

/-!
Verification development for the iZ-library (lane sieves over the residue
classes 6x ± 1, a vx6 block sieve, and a random-prime search).

The C sources are shallowly embedded: bitmaps become a size plus a
`Nat → Bool` function over bit indices, machine integers become `Nat`/`Int`
with explicit `% 2^64` where uint64 wraparound is observable, and GMP
arbitrary-precision arithmetic becomes exact integer arithmetic.
-/

namespace IZ

/-- Wraparound modulus of the C `uint64_t` type. -/
def U64 : Nat := 2 ^ 64

/-- Model of `BITMAP` (bitmap.c): a bit array of `size` bits.  The packed byte
storage is abstracted to the function `data`; all bits start at 0 because
`bitmap_create` uses `calloc`. -/
structure BITMAP where
  size : Nat
  data : Nat → Bool

/-- Model of `bitmap_create`: `n` bits, all zero. -/
def bitmap_create (n : Nat) : BITMAP := ⟨n, fun _ => false⟩

/-- Model of `bitmap_set_all`: `memset 0xFF` over `(size+7)/8` bytes sets every
bit below `8*((size+7)/8)`, including the slack bits of the last byte. -/
def bitmap_set_all (b : BITMAP) : BITMAP :=
  ⟨b.size, fun k => if k < 8 * ((b.size + 7) / 8) then true else b.data k⟩

/-- Model of `bitmap_get_bit`. -/
def bitmap_get_bit (b : BITMAP) (idx : Nat) : Bool := b.data idx

/-- Model of `bitmap_set_bit`. -/
def bitmap_set_bit (b : BITMAP) (idx : Nat) : BITMAP :=
  ⟨b.size, fun k => if k = idx then true else b.data k⟩

/-- Model of `bitmap_clear_bit`. -/
def bitmap_clear_bit (b : BITMAP) (idx : Nat) : BITMAP :=
  ⟨b.size, fun k => if k = idx then false else b.data k⟩

/-- Model of `bitmap_clear_mod_p`: the loop
`for (idx = start_idx; idx <= limit; idx += p) clear idx` clears exactly the
indices `k` with `start_idx ≤ k ≤ limit` and `p ∣ k - start_idx`. -/
def bitmap_clear_mod_p (b : BITMAP) (p start_idx limit : Nat) : BITMAP :=
  ⟨b.size, fun k =>
    if start_idx ≤ k ∧ k ≤ limit ∧ (k - start_idx) % p = 0 then false else b.data k⟩

/-- Model of `bitmap_clone` (bit-identical copy). -/
def bitmap_clone (b : BITMAP) : BITMAP := b

/-- Model of `bitmap_duplicate_segment`: replicate the pattern
`[start_idx, start_idx + vx_size)` so that `y` copies lie consecutively;
a no-op when the out-of-bounds guard fires.  The C loop copies each new block
from the original (untouched) first block. -/
def bitmap_duplicate_segment (b : BITMAP) (start_idx vx_size y : Nat) : BITMAP :=
  if start_idx + vx_size * y > b.size then b
  else ⟨b.size, fun k =>
    if start_idx ≤ k ∧ k < start_idx + vx_size * y then
      b.data (start_idx + (k - start_idx) % vx_size)
    else b.data k⟩

/-- The static table `s_primes` of iZ.c (small primes below 100). -/
def s_primes : List Nat :=
  [5, 7, 11, 13, 17, 19, 23, 29, 31, 37, 41, 43, 47, 53, 59, 61, 67, 71, 73, 79, 83, 89, 97]

/-- Model of `iZ`: the value `6x + i` for a lane tag `i ∈ {-1, +1}`. -/
def iZ (x : Nat) (i : Int) : Nat := if 0 < i then 6 * x + 1 else 6 * x - 1

/-- Model of `normalized_xp` (iZ.c): the canonical x-index of `p` on the lane
selected by `matrix_id` (`-1` for iZm5, `+1` for iZm7). -/
def normalized_xp (matrix_id : Int) (p : Nat) : Nat :=
  let x_p := (p + 1) / 6
  let p_id : Int := if p % 6 = 1 then 1 else -1
  if matrix_id < 0 then (if p_id < 0 then x_p else p - x_p)
  else (if p_id < 0 then p - x_p else x_p)

/-- Model of `solve_for_x` (iZ.c): `x = p - (vx*y - x_p) % p` computed in
uint64 arithmetic; the subtraction `vx*y - x_p` wraps modulo `2^64` when
`vx*y < x_p` (notably at `y = 0`). -/
def solve_for_x (matrix_id : Int) (p vx y : Nat) : Nat :=
  let x_p := normalized_xp matrix_id p
  let d := (vx * y % U64 + (U64 - x_p % U64)) % U64
  p - d % p

/-- Model of `solve_for_x_gmp` (iZ.c): the same formula computed with exact
GMP arithmetic; `mpz_mod_ui` returns a non-negative remainder, which is
`Int.emod` against a positive modulus. -/
def solve_for_x_gmp (matrix_id : Int) (p vx y : Nat) : Nat :=
  let x_p := normalized_xp matrix_id p
  let tmp : Int := ((vx : Int) * y - x_p) % p
  p - tmp.toNat

example : normalized_xp 1 23 = 19 := by decide
example : normalized_xp (-1) 23 = 4 := by decide
example : solve_for_x 1 23 1616615 0 = 13 := by decide
example : solve_for_x_gmp 1 23 1616615 0 = 19 := by decide

/-- Model of `construct_vx2` (iZ.c): the loop over `i ∈ [1, 35]` sets bit `i`
of x5 iff `(i-1) % 5 ≠ 0 ∧ (i+1) % 7 ≠ 0`, and bit `i` of x7 iff
`(i+1) % 5 ≠ 0 ∧ (i-1) % 7 ≠ 0`; distinct iterations touch distinct indices,
so the loop is this pointwise update. -/
def construct_vx2 (x5 x7 : BITMAP) : BITMAP × BITMAP :=
  (⟨x5.size, fun k =>
      if 1 ≤ k ∧ k ≤ 35 ∧ (k - 1) % 5 ≠ 0 ∧ (k + 1) % 7 ≠ 0 then true else x5.data k⟩,
   ⟨x7.size, fun k =>
      if 1 ≤ k ∧ k ≤ 35 ∧ (k + 1) % 5 ≠ 0 ∧ (k - 1) % 7 ≠ 0 then true else x7.data k⟩)

/-- Model of the `while (vx % s_primes[idx] == 0)` loop of
`construct_iZm_segment` (iZ.c), recursing over the tail of `s_primes` from
index 2.  Note the branch condition: `p % 6 > 1` means `p ≡ 5 (mod 6)`,
and that branch clears x5 starting at `x_p` and x7 at `p*x_p - x_p`. -/
def iZm_wheel_loop : List Nat → Nat → Nat → BITMAP → BITMAP → BITMAP × BITMAP
  | [], _, _, x5, x7 => (x5, x7)
  | p :: rest, vx, current_size, x5, x7 =>
    if vx % p = 0 then
      let x := (p + 1) / 6
      let x5d := bitmap_duplicate_segment x5 1 current_size p
      let x7d := bitmap_duplicate_segment x7 1 current_size p
      let cs := current_size * p
      if p % 6 > 1 then
        iZm_wheel_loop rest vx cs (bitmap_clear_mod_p x5d p x (cs + 1))
          (bitmap_clear_mod_p x7d p (p * x - x) (cs + 1))
      else
        iZm_wheel_loop rest vx cs (bitmap_clear_mod_p x5d p (p * x - x) (cs + 1))
          (bitmap_clear_mod_p x7d p x (cs + 1))
    else (x5, x7)

/-- Model of `construct_iZm_segment` (iZ.c). -/
def construct_iZm_segment (vx : Nat) (x5 x7 : BITMAP) : BITMAP × BITMAP :=
  let bp := construct_vx2 x5 x7
  iZm_wheel_loop (s_primes.drop 2) vx 35 bp.1 bp.2

/-- Version of the wheel loop following the words of the specification
(§4.3 step 2): "if p ∈ iZ+ (`p % 6 = 1`), clear x5 starting at x_p and x7
starting at p·x_p − x_p; if p ∈ iZ−, reverse".  Kept only to compare with the
source-derived `iZm_wheel_loop`. -/
def iZm_wheel_loop_specver : List Nat → Nat → Nat → BITMAP → BITMAP → BITMAP × BITMAP
  | [], _, _, x5, x7 => (x5, x7)
  | p :: rest, vx, current_size, x5, x7 =>
    if vx % p = 0 then
      let x := (p + 1) / 6
      let x5d := bitmap_duplicate_segment x5 1 current_size p
      let x7d := bitmap_duplicate_segment x7 1 current_size p
      let cs := current_size * p
      if p % 6 = 1 then
        iZm_wheel_loop_specver rest vx cs (bitmap_clear_mod_p x5d p x (cs + 1))
          (bitmap_clear_mod_p x7d p (p * x - x) (cs + 1))
      else
        iZm_wheel_loop_specver rest vx cs (bitmap_clear_mod_p x5d p (p * x - x) (cs + 1))
          (bitmap_clear_mod_p x7d p x (cs + 1))
    else (x5, x7)

/-- The specification-following variant of `construct_iZm_segment`. -/
def construct_iZm_segment_specver (vx : Nat) (x5 x7 : BITMAP) : BITMAP × BITMAP :=
  let bp := construct_vx2 x5 x7
  iZm_wheel_loop_specver (s_primes.drop 2) vx 35 bp.1 bp.2

/-- Model of the `while (vx * s_primes[i] < x_n/2 && i < vx_limit)` loop of
`compute_limited_vx` (iZ.c).  The loop runs at most `vx_limit - 2` times
(`i` starts at 2 and the guard requires `i < vx_limit`), so structural fuel
`vx_limit` never runs out before the guard fails. -/
def compute_limited_vx_go (x_n vx_limit : Nat) : Nat → Nat → Nat → Nat
  | 0, _, vx => vx
  | fuel + 1, i, vx =>
    if vx * s_primes.getD i 0 < x_n / 2 ∧ i < vx_limit then
      compute_limited_vx_go x_n vx_limit fuel (i + 1) (vx * s_primes.getD i 0)
    else vx

/-- Model of `compute_limited_vx` (iZ.c): starts from `vx = 35` at table
index `i = 2`. -/
def compute_limited_vx (x_n : Nat) (vx_limit : Nat) : Nat :=
  compute_limited_vx_go x_n vx_limit vx_limit 2 35

/-- First entries of the process-wide cache `cached_p_obj = sieve_iZ(vx6)`:
the primes below 100.  `gmp_compute_max_vx` reads the table only while the
accumulated primorial is below `2^bit_size`, so this prefix is enough for the
bit sizes instantiated below. -/
def cached_vx6_primes_prefix : List Nat := 2 :: 3 :: s_primes

/-- Structural helper for the binary length of a positive number: halving with
fuel; `fuel > log2 n` is enough, and `sizeinbase2` supplies `n + 1`. -/
def sizeinbase2_go : Nat → Nat → Nat
  | 0, _ => 0
  | fuel + 1, n => if n ≤ 1 then 1 else sizeinbase2_go fuel (n / 2) + 1

/-- Model of `mpz_sizeinbase(n, 2)`: the number of binary digits of `n`
(1 for `n ∈ {0, 1}`). -/
def sizeinbase2 (n : Nat) : Nat := sizeinbase2_go (n + 1) n

/-- Model of the `while (mpz_sizeinbase(vx,2) < bit_size)` loop of
`gmp_compute_max_vx` (iZ.c). -/
def gmp_compute_max_vx_go (bit_size i vx fuel : Nat) : Nat :=
  match fuel with
  | 0 => vx / cached_vx6_primes_prefix.getD i 0
  | fuel + 1 =>
    if sizeinbase2 vx < bit_size then
      gmp_compute_max_vx_go bit_size (i + 1)
        (vx * cached_vx6_primes_prefix.getD (i + 1) 0) fuel
    else vx / cached_vx6_primes_prefix.getD i 0

/-- Model of `gmp_compute_max_vx` (iZ.c): multiply primes from 5 upward while
the binary size is below `bit_size`, then divide by the last factor. -/
def gmp_compute_max_vx (bit_size : Nat) : Nat :=
  gmp_compute_max_vx_go bit_size 2 5 22

example : gmp_compute_max_vx 4 = 5 := by decide

/-- Model of the `while (a > 1)` loop of `modular_inverse` (iZ.c).  The extra
`m = 0` exit mirrors the division by zero the C code would reach only when
`gcd(a, m) ≠ 1` (undefined behaviour); no theorem below enters that case.
Each iteration replaces `m` by `a % m < m`, so structural fuel `m + 1`
(supplied by `modular_inverse`) never runs out before the loop exits. -/
def modular_inverse_loop : Nat → Nat → Nat → Int → Int → Int
  | 0, _, _, _, x1 => x1
  | fuel + 1, a, m, x0, x1 =>
    if a ≤ 1 then x1
    else if m = 0 then x1
    else modular_inverse_loop fuel m (a % m) (x1 - ((a / m : Nat) : Int) * x0) x0

/-- Model of `modular_inverse` (iZ.c): extended Euclid on `(a, m)` with
coefficients `x0 = 0, x1 = 1`, then normalisation of a negative result
by `+ m0`. -/
def modular_inverse (a m : Nat) : Int :=
  if m = 1 then 0
  else
    let x1 := modular_inverse_loop (m + 1) a m 0 1
    if x1 < 0 then x1 + m else x1

example : modular_inverse 5 23 = 14 := by decide

/-- Model of `solve_for_y` (iZ.c).  `-1` cast to `uint64_t` is `2^64 - 1`.
The subtraction `x_p - x` is uint64 and wraps when `x > x_p`; the wrapped
remainder is stored into a C `int` (faithful below `2^31`, which the
theorems' hypotheses guarantee, so the `delta < 0` fixup never fires), and
`(delta * vx_inv) % p` is modelled with `vx_inv.toNat` (equal to `vx_inv`
whenever the inverse is non-negative, which is proved below). -/
def solve_for_y (matrix_id : Int) (p vx x : Nat) : Nat :=
  if vx % p = 0 then U64 - 1
  else
    let x_p := normalized_xp matrix_id p
    if x % p = x_p then 0
    else
      let delta := (x_p % U64 + (U64 - x % U64)) % U64 % p
      let vx_inv := modular_inverse vx p
      delta * vx_inv.toNat % p

example : solve_for_y (-1) 23 5 10 = 0 := by decide
example : solve_for_y (-1) 23 5 2 = 5 := by decide

/-! ### Reference primality and the ascending prime list -/

/-- Executable trial-division primality: `n` is prime iff `2 ≤ n` and no
`d ∈ [2, n)` divides `n`. -/
def isPrimeB (n : Nat) : Bool :=
  decide (2 ≤ n) && (List.range' 2 (n - 2)).all (fun d => n % d != 0)

/-- The ascending list of all primes in `[2, n]` — the sequence a classic
reference sieve of Eratosthenes over `[2, n]` produces. -/
def primesUpTo (n : Nat) : List Nat := (List.range (n + 1)).filter isPrimeB

/-! ### Models of sieve_iZ and sieve_iZm (sieve_iZ.c) -/

/-- Fuel-based clone of Newton iteration used by `Nat.sqrt`; the guess
strictly decreases, so fuel equal to the initial guess is enough.  `Nat.sqrt`
itself is defined by well-founded recursion, which the kernel does not
unfold, so the executable models use this version (proved equal below). -/
def sqrt_iter (n : Nat) : Nat → Nat → Nat
  | 0, guess => guess
  | fuel + 1, guess =>
    let next := (guess + n / guess) / 2
    if next < guess then sqrt_iter n fuel next else guess

/-- Executable integer square root, equal to `Nat.sqrt`. -/
def nat_sqrt (n : Nat) : Nat := if n ≤ 1 then n else sqrt_iter n (n / 2) (n / 2)

theorem sqrt_iter_eq (n : Nat) :
    ∀ fuel g, g ≤ fuel → sqrt_iter n fuel g = Nat.sqrt.iter n g := by
  intro fuel
  induction fuel with
  | zero =>
    intro g hg
    interval_cases g
    unfold Nat.sqrt.iter
    simp [sqrt_iter]
  | succ fuel ih =>
    intro g hg
    unfold Nat.sqrt.iter
    simp only [sqrt_iter]
    split
    · rename_i h
      exact ih _ (by omega)
    · rfl

theorem nat_sqrt_eq (n : Nat) : nat_sqrt n = Nat.sqrt n := by
  rw [nat_sqrt, Nat.sqrt]
  split
  · rfl
  · exact sqrt_iter_eq n _ _ le_rfl

/-- State of the sieve loops: the two lane bitmaps and the collected list
(`PRIMES_OBJ.p_array`; capacity bookkeeping does not affect the values). -/
structure SieveSt where
  x5 : BITMAP
  x7 : BITMAP
  primes : List Nat

/-- One iteration of the main loop of `sieve_iZ` at index `x`: read the two
lane bits (x5 first), append the corresponding `6x ∓ 1`, and for root primes
(`z < n_sqrt`) clear both progressions up to `x_n`. -/
def sieve_iZ_step (n_sqrt x_n : Nat) (st : SieveSt) (x : Nat) : SieveSt :=
  let st1 :=
    if bitmap_get_bit st.x5 x then
      let z := iZ x (-1)
      let primes := st.primes ++ [z]
      if z < n_sqrt then
        { x5 := bitmap_clear_mod_p st.x5 z (z * x + x) x_n,
          x7 := bitmap_clear_mod_p st.x7 z (z * x - x) x_n,
          primes := primes }
      else { st with primes := primes }
    else st
  if bitmap_get_bit st1.x7 x then
    let z := iZ x 1
    let primes := st1.primes ++ [z]
    if z < n_sqrt then
      { x5 := bitmap_clear_mod_p st1.x5 z (z * x - x) x_n,
        x7 := bitmap_clear_mod_p st1.x7 z (z * x + x) x_n,
        primes := primes }
    else { st1 with primes := primes }
  else st1

/-- Model of `sieve_iZ` (sieve_iZ.c).  `n_sqrt = sqrt(n) + 1` is computed in C
with the double-precision `sqrt`, which is exactly `Nat.sqrt n` for every
`n ≤ 10^10` (`(double)n` is exact below `2^53` and `sqrt` is
correctly rounded, so the truncated result equals the integer square root). -/
def sieve_iZ (n : Nat) : List Nat :=
  let x_n := (n + 1) / 6 + 1
  let x5 := bitmap_set_all (bitmap_create (x_n + 1))
  let x7 := bitmap_set_all (bitmap_create (x_n + 1))
  let n_sqrt := nat_sqrt n + 1
  let st := (List.range' 1 (x_n - 1)).foldl (sieve_iZ_step n_sqrt x_n) ⟨x5, x7, [2, 3]⟩
  if n < st.primes.getLastD 0 then st.primes.dropLast else st.primes

/-- One iteration of the first-segment loop of `sieve_iZm` at index `x`:
like `sieve_iZ_step` but the root-prime test is `p*p/6 < vx` and the
clearing limit is `vx`. -/
def sieve_iZm_seg0_step (vx : Nat) (st : SieveSt) (x : Nat) : SieveSt :=
  let st1 :=
    if bitmap_get_bit st.x5 x then
      let p := iZ x (-1)
      let primes := st.primes ++ [p]
      if p * p / 6 < vx then
        { x5 := bitmap_clear_mod_p st.x5 p (p * x + x) vx,
          x7 := bitmap_clear_mod_p st.x7 p (p * x - x) vx,
          primes := primes }
      else { st with primes := primes }
    else st
  if bitmap_get_bit st1.x7 x then
    let p := iZ x 1
    let primes := st1.primes ++ [p]
    if p * p / 6 < vx then
      { x5 := bitmap_clear_mod_p st1.x5 p (p * x - x) vx,
        x7 := bitmap_clear_mod_p st1.x7 p (p * x + x) vx,
        primes := primes }
    else { st1 with primes := primes }
  else st1

/-- Model of the root-prime marking loop of a `sieve_iZm` segment `y ≥ 1`:
walk the collected primes from `start_i`, stop at the first `p` with
`p*p/6 > y*vx + limit`, and clear the progressions located by
`solve_for_x`. -/
def sieve_iZm_mark_loop (vx y limit : Nat) :
    List Nat → BITMAP → BITMAP → BITMAP × BITMAP
  | [], t5, t7 => (t5, t7)
  | p :: rest, t5, t7 =>
    if p * p / 6 > y * vx + limit then (t5, t7)
    else
      let xp5 := solve_for_x (-1) p vx y
      let xp7 := solve_for_x 1 p vx y
      sieve_iZm_mark_loop vx y limit rest
        (bitmap_clear_mod_p t5 p xp5 limit) (bitmap_clear_mod_p t7 p xp7 limit)

/-- Model of one `sieve_iZm` segment `y ≥ 1`: re-clone the wheel bitmaps,
set the per-segment `limit`, mark composites of the known root primes, and
collect surviving candidates (lane iZ− before iZ+ at each x). -/
def sieve_iZm_segment (x5 x7 : BITMAP) (vx x_n max_y start_i : Nat)
    (primes : List Nat) (y : Nat) : List Nat :=
  let limit := if y = max_y then x_n % vx else vx
  let tt := sieve_iZm_mark_loop vx y limit (primes.drop start_i)
    (bitmap_clone x5) (bitmap_clone x7)
  primes ++ (List.range' 1 limit).flatMap (fun x =>
    (if bitmap_get_bit tt.1 x then [iZ (x + y * vx) (-1)] else []) ++
    (if bitmap_get_bit tt.2 x then [iZ (x + y * vx) 1] else []))

/-- Model of the final `while (p_array[p_count-1] > n) p_count--` trimming. -/
def trimTail (l : List Nat) (n : Nat) : List Nat :=
  (l.reverse.dropWhile (fun v => n < v)).reverse

/-- Model of `sieve_iZm` (sieve_iZ.c).  The pre-seed loop appends the primes
of the local table dividing `vx` (stopping at the first non-divisor, bounded
by `vx_limit`), which is `takeWhile` on the table's first `vx_limit` entries. -/
def sieve_iZm (n : Nat) : List Nat :=
  let x_n := (n + 1) / 6 + 1
  let sp : List Nat := [5, 7, 11, 13, 17, 19, 23, 29, 31, 37, 41, 43, 47]
  let vx_limit := 6
  let vx := compute_limited_vx x_n vx_limit
  let divs := (sp.take vx_limit).takeWhile (fun p => vx % p == 0)
  let primes0 := [2, 3] ++ divs
  let start_i := 2 + divs.length
  let w := construct_iZm_segment vx (bitmap_create (vx + 10)) (bitmap_create (vx + 10))
  let st0 := (List.range' 2 (vx - 1)).foldl (sieve_iZm_seg0_step vx)
    ⟨bitmap_clone w.1, bitmap_clone w.2, primes0⟩
  let max_y := x_n / vx
  let primes := (List.range' 1 max_y).foldl
    (sieve_iZm_segment w.1 w.2 vx x_n max_y start_i) st0.primes
  trimTail primes n

/-! ### Model of the vx6 block sieve gap loop (vx6.c) -/

/-- The constant `vx6 = 5 * 7 * 11 * 13 * 17 * 19`. -/
def vx6 : Nat := 1616615

/-- State of the `vx6_sieve` gap loop: the running gap counter, the recorded
gaps (before the uint16 store), and the surviving candidates `(x, lane)` in
recording order. -/
structure VxSt where
  gap : Nat
  gaps : List Nat
  survs : List (Nat × Int)

/-- One iteration of the `vx6_sieve` candidate walk at index `x`: add 4 to the
gap counter, test the iZ− candidate, add 2, test the iZ+ candidate; each
surviving candidate records the accumulated gap and resets the counter.
The functions `s5, s7` abstract `bitmap_get_bit` on the pre-sieved block
bitmaps conjoined with the Miller–Rabin verdict when `is_large_limit` is set
(an external probabilistic call); the gap bookkeeping is identical for every
outcome. -/
def vx6_gap_step (s5 s7 : Nat → Bool) (st : VxSt) (x : Nat) : VxSt :=
  let g1 := st.gap + 4
  let st1 : VxSt :=
    if s5 x then ⟨0, st.gaps ++ [g1], st.survs ++ [(x, -1)]⟩
    else ⟨g1, st.gaps, st.survs⟩
  let g3 := st1.gap + 2
  if s7 x then ⟨0, st1.gaps ++ [g3], st1.survs ++ [(x, 1)]⟩
  else ⟨g3, st1.gaps, st1.survs⟩

/-- Model of the `for (x = 4; x <= vx6; x++)` walk of `vx6_sieve` with the gap
counter seeded at 18. -/
def vx6_gap_loop (s5 s7 : Nat → Bool) : VxSt :=
  (List.range' 4 (vx6 - 3)).foldl (vx6_gap_step s5 s7) ⟨18, [], []⟩

/-- The stored `p_gaps` array: `vx_obj->p_gaps` has element type `uint16_t`,
so each recorded gap is stored modulo `2^16`. -/
def vx6_p_gaps (s5 s7 : Nat → Bool) : List Nat :=
  (vx6_gap_loop s5 s7).gaps.map (· % 65536)

/-- Prefix sums from an anchor: `presums a [g₁, g₂, …] = [a+g₁, a+g₁+g₂, …]`. -/
def presums (anchor : Nat) : List Nat → List Nat
  | [] => []
  | g :: gs => (anchor + g) :: presums (anchor + g) gs

/-! ### Models of random_iZprime (random_iZprime.c) -/

/-- Model of the co-prime search loop of `set_random_base`: up to 9999 times,
step `p` by 6 and stop as soon as `gcd(vx, p) = 1`. -/
def set_random_base_gcd_loop (vx : Nat) : Nat → Nat → Nat
  | 0, p => p
  | fuel + 1, p =>
    let p1 := p + 6
    if Nat.gcd vx p1 = 1 then p1 else set_random_base_gcd_loop vx fuel p1

/-- Model of `set_random_base`: from the random draw `random_x ∈ [0, vx)`,
start at `iZ(random_x, matrix_id)`, walk to a co-prime position, then add
`vx` once. -/
def set_random_base (random_x : Nat) (matrix_id : Int) (vx : Nat) : Nat :=
  set_random_base_gcd_loop vx 9999 (iZ random_x matrix_id) + vx

/-- Model of the candidate loop of `search_p_in_iZm`: up to `attempts_limit =
1000000` times, add `vx` and test with the Miller–Rabin `oracle` (the outcome
of `mpz_probab_prime_p`, an external probabilistic call; it returns a nonzero
verdict on every actual prime).  Exhaustion leaves `p = 0`, upon which the C
code logs and restarts with a fresh random draw. -/
def search_p_in_iZm_loop (oracle : Nat → Bool) (vx : Nat) : Nat → Nat → Nat
  | 0, _ => 0
  | fuel + 1, tmp =>
    let tmp1 := tmp + vx
    if oracle tmp1 then tmp1 else search_p_in_iZm_loop oracle vx fuel tmp1

/-- Model of `search_p_in_iZm` for one random draw. -/
def search_p_in_iZm (oracle : Nat → Bool) (random_x : Nat) (matrix_id : Int)
    (vx : Nat) : Nat :=
  search_p_in_iZm_loop oracle vx 1000000 (set_random_base random_x matrix_id vx)

/-- Model of the single-worker path of `random_iZprime` (`cores_num < 2`):
compute `vx` for the bit size and run the search in-process. -/
def random_iZprime_single (oracle : Nat → Bool) (random_x : Nat) (p_id : Int)
    (bit_size : Nat) : Nat :=
  search_p_in_iZm oracle random_x p_id (gmp_compute_max_vx bit_size)

/-! ### Models of the serialized file formats (bitmap.c, primes_obj.c, vx6.c) -/

/-- `k`-byte little-endian encoding of `v`. -/
def le_bytes : Nat → Nat → List Nat
  | 0, _ => []
  | k + 1, v => v % 256 :: le_bytes k (v / 256)

/-- Little-endian decoding of a byte list. -/
def from_le_bytes : List Nat → Nat
  | [] => 0
  | b :: bs => b + 256 * from_le_bytes bs

/-- A stand-in hash function of the correct output length, used to state
closed counterexamples (the failures proved below are hash-independent). -/
def sha_stub : List Nat → List Nat := fun _ => List.replicate 32 0

/-- Byte-level model of a `BITMAP` as serialized: `size` plus the packed byte
array of `(size+7)/8` bytes. -/
structure BITMAPbytes where
  size : Nat
  data : List Nat

/-- Model of `bitmap_write_file`: `size` (a `size_t`, 8 bytes little-endian),
the packed data bytes, then the 32-byte hash of the data bytes.  `sha`
abstracts SHA-256. -/
def bitmap_write_file (sha : List Nat → List Nat) (b : BITMAPbytes) : List Nat :=
  le_bytes 8 b.size ++ b.data ++ sha b.data

/-- Model of `bitmap_read_file`: parse size, data, stored hash; fail on short
reads, on `bitmap_create(0)` (size 0), and on hash mismatch. -/
def bitmap_read_file (sha : List Nat → List Nat) (f : List Nat) : Option BITMAPbytes :=
  if f.length < 8 then none
  else
    let size := from_le_bytes (f.take 8)
    if size = 0 then none
    else
      let rest := f.drop 8
      let byte_size := (size + 7) / 8
      if rest.length < byte_size + 32 then none
      else
        let data := rest.take byte_size
        let stored := (rest.drop byte_size).take 32
        if stored = sha data then some ⟨size, data⟩ else none

/-- Decode `k` little-endian uint64 values from a byte list. -/
def decode64list : Nat → List Nat → List Nat
  | 0, _ => []
  | k + 1, bs => from_le_bytes (bs.take 8) :: decode64list k (bs.drop 8)

/-- Model of `primes_obj_write_file`: `p_count` (a C `int`, 4 bytes
little-endian for counts below `2^31`), the `p_count` uint64 entries, then the
32-byte hash of those payload bytes. -/
def primes_obj_write_file (sha : List Nat → List Nat) (p_array : List Nat) : List Nat :=
  let payload := p_array.flatMap (le_bytes 8)
  le_bytes 4 p_array.length ++ payload ++ sha payload

/-- Model of `primes_obj_read_file`: parse the count — `primes_obj_init`
rejects a non-positive count, so count 0 fails — then the entries and the
stored hash, recomputing and comparing the hash. -/
def primes_obj_read_file (sha : List Nat → List Nat) (f : List Nat) : Option (List Nat) :=
  if f.length < 4 then none
  else
    let cnt := from_le_bytes (f.take 4)
    if cnt = 0 then none
    else
      let rest := f.drop 4
      if rest.length < 8 * cnt + 32 then none
      else
        let payload := rest.take (8 * cnt)
        let stored := (rest.drop (8 * cnt)).take 32
        if stored = sha payload then some (decode64list cnt payload) else none

/-- Decode `k` little-endian uint16 values from a byte list. -/
def decode16list : Nat → List Nat → List Nat
  | 0, _ => []
  | k + 1, bs => from_le_bytes (bs.take 2) :: decode16list k (bs.drop 2)

/-- Byte-level model of a `VX_OBJ` as serialized: the `y` decimal string
(bytes, without the terminating NUL) and the `p_gaps` array (uint16 values). -/
structure VXbytes where
  y : List Nat
  p_gaps : List Nat

/-- Model of `vx6_write_file`: `strlen(y)+1` (8 bytes LE), the `y` bytes with
the terminating NUL, `p_count` (8 bytes LE), the uint16 gap bytes, then the
32-byte hash of the gap bytes. -/
def vx6_write_file (sha : List Nat → List Nat) (o : VXbytes) : List Nat :=
  let payload := o.p_gaps.flatMap (le_bytes 2)
  le_bytes 8 (o.y.length + 1) ++ (o.y ++ [0]) ++
    le_bytes 8 o.p_gaps.length ++ payload ++ sha payload

/-- Model of `vx6_read_file`.  The read `y` buffer is used as a C string, so
its value is the prefix before the first NUL.  For `p_count = 0`,
`hash_int_array` rejects the empty array and the integrity check compares
against an uninitialised buffer; we model that path as failure. -/
def vx6_read_file (sha : List Nat → List Nat) (f : List Nat) : Option VXbytes :=
  if f.length < 8 then none
  else
    let y_len := from_le_bytes (f.take 8)
    let rest := f.drop 8
    if rest.length < y_len + 8 then none
    else
      let ybuf := rest.take y_len
      let rest2 := rest.drop y_len
      let cnt := from_le_bytes (rest2.take 8)
      let rest3 := rest2.drop 8
      if cnt = 0 then none
      else if rest3.length < 2 * cnt + 32 then none
      else
        let payload := rest3.take (2 * cnt)
        let stored := (rest3.drop (2 * cnt)).take 32
        if stored = sha payload then
          some ⟨ybuf.takeWhile (fun b => b != 0), decode16list cnt payload⟩
        else none

/-! ### Basic facts about `normalized_xp` and `solve_for_x` -/

theorem normalized_xp_pos (matrix_id : Int) (p : Nat) (hp : 5 ≤ p) :
    1 ≤ normalized_xp matrix_id p := by
  by_cases h1 : p % 6 = 1 <;> by_cases hm : matrix_id < 0 <;>
    simp [normalized_xp, h1, hm] <;> omega

theorem normalized_xp_lt (matrix_id : Int) (p : Nat) (hp : 5 ≤ p) :
    normalized_xp matrix_id p < p := by
  by_cases h1 : p % 6 = 1 <;> by_cases hm : matrix_id < 0 <;>
    simp [normalized_xp, h1, hm] <;> omega

/-- With no wraparound (`x_p ≤ vx*y < 2^64`), the uint64 expression of
`solve_for_x` computes the exact difference `vx*y - x_p`. -/
theorem solve_for_x_eq (matrix_id : Int) (p vx y : Nat) (hp : 5 ≤ p)
    (hpU : p < U64) (hxy : normalized_xp matrix_id p ≤ vx * y)
    (hyU : vx * y < U64) :
    solve_for_x matrix_id p vx y = p - (vx * y - normalized_xp matrix_id p) % p := by
  have hxplt : normalized_xp matrix_id p < p := normalized_xp_lt matrix_id p hp
  have h1 : vx * y % U64 = vx * y := Nat.mod_eq_of_lt hyU
  have h2 : normalized_xp matrix_id p % U64 = normalized_xp matrix_id p :=
    Nat.mod_eq_of_lt (by omega)
  simp only [solve_for_x]
  rw [h1, h2]
  have h3 : vx * y + (U64 - normalized_xp matrix_id p) =
      (vx * y - normalized_xp matrix_id p) + U64 := by
    have : (0:Nat) < U64 := by decide
    omega
  have h4 : (vx * y - normalized_xp matrix_id p) % U64 =
      vx * y - normalized_xp matrix_id p :=
    Nat.mod_eq_of_lt (by omega)
  rw [h3, Nat.add_mod_right, h4]

/-- Claim C2 (amended): for a lane in {−1, +1}, a prime `p ≥ 5` (below
`2^64`), `vx` coprime to `p`, and `y` such that `x_p ≤ vx·y < 2^64` — so the
64-bit subtraction `vx·y − x_p` does not wrap — the value
`x = solve_for_x(lane, p, vx, y)` satisfies `0 < x ≤ p` and
`(x + vx·y) mod p = normalized_xp(lane, p)`.  (As frozen the claim also
covered `vx·y < x_p`, where the wraparound breaks the congruence, and
`p ∈ {2,3}`, where `normalized_xp` can return `p` itself.) -/
theorem C2_solve_for_x_congruence (matrix_id : Int) (p vx y : Nat)
    (hlane : matrix_id = -1 ∨ matrix_id = 1) (hprime : Nat.Prime p)
    (hp : 5 ≤ p) (hpU : p < U64) (hgcd : Nat.gcd vx p = 1)
    (hxy : normalized_xp matrix_id p ≤ vx * y) (hyU : vx * y < U64) :
    0 < solve_for_x matrix_id p vx y ∧ solve_for_x matrix_id p vx y ≤ p ∧
      (solve_for_x matrix_id p vx y + vx * y) % p = normalized_xp matrix_id p := by
  have hxplt : normalized_xp matrix_id p < p := normalized_xp_lt matrix_id p hp
  rw [solve_for_x_eq matrix_id p vx y hp hpU hxy hyU]
  set xp := normalized_xp matrix_id p with hxp
  have hppos : 0 < p := by omega
  have hr : (vx * y - xp) % p < p := Nat.mod_lt _ hppos
  refine ⟨by omega, by omega, ?_⟩
  have hdm := Nat.div_add_mod (vx * y - xp) p
  have hsum : p - (vx * y - xp) % p + vx * y = p * (1 + (vx * y - xp) / p) + xp := by
    have hmul : p * (1 + (vx * y - xp) / p) = p + p * ((vx * y - xp) / p) := by ring
    rw [hmul]
    omega
  rw [hsum, Nat.mul_add_mod, Nat.mod_eq_of_lt hxplt]

/-- Witness for C2 at lane +1, p = 23, vx = vx6, y = 1. -/
theorem C2_solve_for_x_congruence_witness :
    Nat.Prime 23 ∧ Nat.gcd 1616615 23 = 1 ∧
      normalized_xp 1 23 ≤ 1616615 * 1 ∧ 1616615 * 1 < U64 ∧
      (0 < solve_for_x 1 23 1616615 1 ∧ solve_for_x 1 23 1616615 1 ≤ 23 ∧
        (solve_for_x 1 23 1616615 1 + 1616615 * 1) % 23 = normalized_xp 1 23) :=
  ⟨by norm_num, by decide, by decide, by decide,
    C2_solve_for_x_congruence 1 23 1616615 1 (Or.inr rfl) (by norm_num)
      (by norm_num) (by decide) (by decide) (by decide) (by decide)⟩

/-- Claim C2 counterexample: at lane +1, p = 23 (prime, coprime to
vx6 = 1616615), y = 0, all hypotheses of the claim hold but the claimed
congruence `(x + vx·y) mod p = normalized_xp(lane, p)` fails: the uint64
subtraction `vx·y − x_p` wraps, giving `x = 13` with `13 mod 23 ≠ 19`. -/
theorem C2_solve_for_x_counterexample :
    Nat.gcd 1616615 23 = 1 ∧
      ¬ ((solve_for_x 1 23 1616615 0 + 1616615 * 0) % 23 = normalized_xp 1 23) := by
  constructor
  · decide
  · decide

/-- Claim C3 counterexample: neither `solve_for_x(+1, 23, 1616615, 0)` nor
`normalized_xp(+1, 23)` equals 4. -/
theorem C3_counterexample :
    ¬ (solve_for_x 1 23 1616615 0 = 4 ∧ normalized_xp 1 23 = 4) := by
  decide

/-- Claim C3 (amended): `normalized_xp(+1, 23) = 19` (23 ≡ 5 (mod 6) lies on
iZ−, so the iZ+ index is `p − x_p = 19`), the uint64 `solve_for_x` returns 13
at `y = 0` because `vx·y − x_p` wraps, the exact-arithmetic
`solve_for_x_gmp(+1, 23, 1616615, 0)` does return `19 = normalized_xp(+1,23)`,
and the value 4 of the frozen claim is `normalized_xp(−1, 23)`, the index of
23 on its own lane. -/
theorem C3_values :
    solve_for_x 1 23 1616615 0 = 13 ∧ normalized_xp 1 23 = 19 ∧
      solve_for_x_gmp 1 23 1616615 0 = 19 ∧ normalized_xp (-1) 23 = 4 := by
  decide

/-! ### Claim C4: branch assignment in construct_iZm_segment -/

/-- Claim C4 counterexample: following the claim's branch assignment (p ≡ 1
(mod 6) clears x5 from `x_p`) yields a different wheel than the code at
`vx = 5005 = 5·7·11·13`: at index 15 (the prime 89 = 6·15−1) the code keeps
the x5 bit while the claim's assignment would have 13 clear it. -/
theorem C4_counterexample :
    (construct_iZm_segment 5005 (bitmap_create 5015) (bitmap_create 5015)).1.data 15 = true ∧
      (construct_iZm_segment_specver 5005 (bitmap_create 5015) (bitmap_create 5015)).1.data 15 =
        false := by
  constructor
  · decide
  · decide

/-- Claim C4 (amended): in `construct_iZm_segment`, for each small prime `p`
dividing `vx` beyond 7, with `x_p = (p+1)/6`: if `p ≡ 5 (mod 6)` (`p` in iZ−,
the condition `p % 6 > 1` of the code) the `clear_mod_p` clearing with step
`p` starts in x5 at `x_p` — whose progression consists exactly of the indices
`k` with `p ∣ 6k−1` — and in x7 at `p·x_p − x_p`, whose progression carries
indices with `p ∣ 6k+1`; if `p ≡ 1 (mod 6)` (`p` in iZ+) the assignment is
reversed (x5 cleared from `p·x_p − x_p`, hitting indices with `p ∣ 6k−1`, and
x7 from `x_p`, exactly the indices with `p ∣ 6k+1`). -/
theorem C4_wheel_branch_assignment (p vx cur : Nat) (rest : List Nat)
    (b5 b7 : BITMAP) (hp : 11 ≤ p) (hdvd : vx % p = 0) :
    (p % 6 = 5 →
      iZm_wheel_loop (p :: rest) vx cur b5 b7 =
        iZm_wheel_loop rest vx (cur * p)
          (bitmap_clear_mod_p (bitmap_duplicate_segment b5 1 cur p) p
            ((p + 1) / 6) (cur * p + 1))
          (bitmap_clear_mod_p (bitmap_duplicate_segment b7 1 cur p) p
            (p * ((p + 1) / 6) - (p + 1) / 6) (cur * p + 1)) ∧
      (∀ k, 1 ≤ k → ((∃ j, k = (p + 1) / 6 + j * p) ↔ p ∣ 6 * k - 1)) ∧
      (∀ k, (∃ j, k = (p * ((p + 1) / 6) - (p + 1) / 6) + j * p) → p ∣ 6 * k + 1)) ∧
    (p % 6 = 1 →
      iZm_wheel_loop (p :: rest) vx cur b5 b7 =
        iZm_wheel_loop rest vx (cur * p)
          (bitmap_clear_mod_p (bitmap_duplicate_segment b5 1 cur p) p
            (p * ((p + 1) / 6) - (p + 1) / 6) (cur * p + 1))
          (bitmap_clear_mod_p (bitmap_duplicate_segment b7 1 cur p) p
            ((p + 1) / 6) (cur * p + 1)) ∧
      (∀ k, ((∃ j, k = (p + 1) / 6 + j * p) ↔ p ∣ 6 * k + 1)) ∧
      (∀ k, (∃ j, k = (p * ((p + 1) / 6) - (p + 1) / 6) + j * p) → p ∣ 6 * k - 1)) := by
  constructor
  · intro h5
    have hx : 6 * ((p + 1) / 6) = p + 1 := by omega
    refine ⟨?_, ?_, ?_⟩
    · simp only [iZm_wheel_loop, hdvd, h5, if_true]
      norm_num
    · intro k hk
      constructor
      · rintro ⟨j, rfl⟩
        refine ⟨1 + 6 * j, ?_⟩
        have hr : p * (1 + 6 * j) = p + 6 * (j * p) := by ring
        omega
      · rintro ⟨c, hc⟩
        have hmod : (p * c) % 6 = 5 * (c % 6) % 6 := by
          rw [Nat.mul_mod, h5]
        have hc6 : c % 6 = 1 := by omega
        refine ⟨c / 6, ?_⟩
        have hcdm : c = 6 * (c / 6) + 1 := by omega
        have hr : p * c = 6 * (p * (c / 6)) + p := by
          conv_lhs => rw [hcdm]
          ring
        have hcomm : c / 6 * p = p * (c / 6) := Nat.mul_comm _ _
        omega
    · rintro k ⟨j, rfl⟩
      refine ⟨p + 6 * j, ?_⟩
      have h1 : p * (p + 6 * j) = p * p + 6 * (j * p) := by ring
      have h2 : 6 * (p * ((p + 1) / 6)) = p * p + p := by
        have : 6 * (p * ((p + 1) / 6)) = p * (6 * ((p + 1) / 6)) := by ring
        rw [this, hx]; ring
      have h3 : (p + 1) / 6 ≤ p * ((p + 1) / 6) := Nat.le_mul_of_pos_left _ (by omega)
      omega
  · intro h1
    have hx : 6 * ((p + 1) / 6) = p - 1 := by omega
    refine ⟨?_, ?_, ?_⟩
    · simp only [iZm_wheel_loop, hdvd, h1, if_true]
      norm_num
    · intro k
      constructor
      · rintro ⟨j, rfl⟩
        refine ⟨1 + 6 * j, ?_⟩
        have hr : p * (1 + 6 * j) = p + 6 * (j * p) := by ring
        omega
      · rintro ⟨c, hc⟩
        have hmod : (p * c) % 6 = 1 * (c % 6) % 6 := by
          rw [Nat.mul_mod, h1]
        have hc6 : c % 6 = 1 := by omega
        refine ⟨c / 6, ?_⟩
        have hcdm : c = 6 * (c / 6) + 1 := by omega
        have hr : p * c = 6 * (p * (c / 6)) + p := by
          conv_lhs => rw [hcdm]
          ring
        have hcomm : c / 6 * p = p * (c / 6) := Nat.mul_comm _ _
        omega
    · rintro k ⟨j, rfl⟩
      refine ⟨p - 2 + 6 * j, ?_⟩
      have hxle : (p + 1) / 6 ≤ p * ((p + 1) / 6) := Nat.le_mul_of_pos_left _ (by omega)
      have e2 : 6 * (p * ((p + 1) / 6)) = p * (p - 1) := by
        have e2a : (6 : Nat) * (p * ((p + 1) / 6)) = p * (6 * ((p + 1) / 6)) := by ring
        rw [e2a, hx]
      have hB : p * (p - 1) + p = p * p := by
        have hB1 : p * (p - 1) + p * 1 = p * ((p - 1) + 1) := by ring
        rw [Nat.mul_one] at hB1
        rw [hB1, Nat.sub_add_cancel (show 1 ≤ p by omega)]
      have hC : p * (p - 2 + 6 * j) + p * 2 = p * (p + 6 * j) := by
        have hC1 : p * (p - 2 + 6 * j) + p * 2 = p * ((p - 2 + 6 * j) + 2) := by ring
        rw [hC1]
        congr 1
        omega
      have hD : p * (p + 6 * j) = p * p + 6 * (j * p) := by ring
      omega

/-- Witness for C4 at `p = 11`, `vx = 385`, `cur = 35`. -/
theorem C4_wheel_branch_assignment_witness :
    11 ≤ 11 ∧ 385 % 11 = 0 ∧
      (11 % 6 = 5 →
        iZm_wheel_loop [11] 385 35 (bitmap_create 396) (bitmap_create 396) =
          iZm_wheel_loop [] 385 (35 * 11)
            (bitmap_clear_mod_p
              (bitmap_duplicate_segment (bitmap_create 396) 1 35 11) 11
              ((11 + 1) / 6) (35 * 11 + 1))
            (bitmap_clear_mod_p
              (bitmap_duplicate_segment (bitmap_create 396) 1 35 11) 11
              (11 * ((11 + 1) / 6) - (11 + 1) / 6) (35 * 11 + 1)) ∧
        (∀ k, 1 ≤ k → ((∃ j, k = (11 + 1) / 6 + j * 11) ↔ 11 ∣ 6 * k - 1)) ∧
        (∀ k, (∃ j, k = (11 * ((11 + 1) / 6) - (11 + 1) / 6) + j * 11) →
          11 ∣ 6 * k + 1)) :=
  ⟨le_rfl, by decide,
    (C4_wheel_branch_assignment 11 385 35 [] (bitmap_create 396) (bitmap_create 396)
      (by decide) (by decide)).1⟩

/-! ### Correctness of `modular_inverse` (extended Euclid) -/

/-- Loop invariant for `modular_inverse_loop` on original inputs `(A, M)`:
the coefficients track `x1·A ≡ a` and `x0·A ≡ m (mod M)`, alternate in sign,
and satisfy the determinant identity `x0·a − x1·m = ±M`, which bounds them. -/
theorem modular_inverse_loop_invariant :
    ∀ (fuel a m : Nat) (x0 x1 : Int) (A M : Nat), m < fuel → 1 ≤ a →
      Nat.gcd a m = 1 → 2 ≤ M →
      Int.ModEq M (x1 * A) a →
      Int.ModEq M (x0 * A) m →
      x0 * x1 ≤ 0 →
      (x0 * a - x1 * m = (M : Int) ∨ x0 * a - x1 * m = -(M : Int)) →
      2 * |x1| ≤ (M : Int) →
      Int.ModEq M (modular_inverse_loop fuel a m x0 x1 * A) 1 ∧
        2 * |modular_inverse_loop fuel a m x0 x1| ≤ (M : Int) := by
  intro fuel
  induction fuel with
  | zero => intro a m x0 x1 A M hm; omega
  | succ fuel ih =>
    intro a m x0 x1 A M hm ha hgcd hM h1 h2 h3 h4 h5
    simp only [modular_inverse_loop]
    by_cases ha1 : a ≤ 1
    · rw [if_pos ha1]
      have : a = 1 := by omega
      subst this
      exact ⟨by simpa using h1, h5⟩
    · rw [if_neg ha1]
      by_cases hm0 : m = 0
      · exfalso
        subst hm0
        rw [Nat.gcd_zero_right] at hgcd
        omega
      · rw [if_neg hm0]
        have hmpos : 0 < m := by omega
        have ha2 : 2 ≤ a := by omega
        -- the quotient, as an integer
        set q : Int := ((a / m : Nat) : Int) with hq
        have hqnn : 0 ≤ q := by
          rw [hq]
          exact_mod_cast Nat.zero_le _
        have hamod : ((a % m : Nat) : Int) = (a : Int) - (m : Int) * q := by
          rw [hq]
          have hdm : ((m * (a / m) + a % m : Nat) : Int) = (a : Int) :=
            congrArg (fun n : Nat => (n : Int)) (Nat.div_add_mod a m)
          rw [Nat.cast_add, Nat.cast_mul] at hdm
          linarith
        -- |x0| * a ≤ M, hence the new second coefficient is bounded
        have hbound : |x0| * (a : Int) ≤ (M : Int) := by
          rcases le_or_lt x0 0 with hx0 | hx0
          · have habs : |x0| = -x0 := abs_of_nonpos hx0
            have hx1nn : 0 ≤ x1 * (m : Int) ∨ x0 = 0 := by
              rcases lt_or_eq_of_le hx0 with hlt | heq
              · left
                have : 0 ≤ x1 := by nlinarith
                positivity
              · right; omega
            rcases hx1nn with hx1m | rfl
            · rcases h4 with h4 | h4
              · nlinarith
              · nlinarith
            · simp
          · have habs : |x0| = x0 := abs_of_pos hx0
            have hx1 : x1 ≤ 0 := by nlinarith
            have hx1m : x1 * (m : Int) ≤ 0 := by
              have : (0:Int) ≤ m := by positivity
              exact mul_nonpos_of_nonpos_of_nonneg hx1 this
            rcases h4 with h4 | h4
            · nlinarith
            · nlinarith
        refine ih m (a % m) (x1 - q * x0) x0 A M ?_ ?_ ?_ hM ?_ ?_ ?_ ?_ ?_
        · exact lt_of_lt_of_le (Nat.mod_lt a hmpos) (by omega)
        · omega
        · have hc : Nat.gcd m (a % m) = Nat.gcd (a % m) m := Nat.gcd_comm _ _
          rw [hc, ← Nat.gcd_rec m a, Nat.gcd_comm m a]
          exact hgcd
        · exact h2
        · have hstep : Int.ModEq M (x1 * A - q * (x0 * A)) ((a : Int) - q * m) :=
            h1.sub (h2.mul_left q)
          have hl : (x1 - q * x0) * (A : Int) = x1 * A - q * (x0 * A) := by ring
          have hrr : (a : Int) - q * m = ((a % m : Nat) : Int) := by
            rw [hamod]; ring
          rw [hl, ← hrr]
          exact hstep
        · have hsq : 0 ≤ q * (x0 * x0) := mul_nonneg hqnn (mul_self_nonneg x0)
          nlinarith
        · have hnew : (x1 - q * x0) * (m : Int) - x0 * ((a % m : Nat) : Int) =
              -(x0 * a - x1 * m) := by
            rw [hamod]; ring
          rcases h4 with h4 | h4
          · right; rw [hnew, h4]
          · left; rw [hnew, h4]; ring
        · calc 2 * |x0| ≤ |x0| * (a : Int) := by nlinarith [abs_nonneg x0]
            _ ≤ (M : Int) := hbound

/-- Correctness of `modular_inverse(a, m)` for coprime inputs: the result is
the canonical representative of `a⁻¹` in `[0, m)`. -/
theorem modular_inverse_spec (a m : Nat) (hm : 2 ≤ m) (ha : 1 ≤ a)
    (hgcd : Nat.gcd a m = 1) :
    0 ≤ modular_inverse a m ∧ modular_inverse a m < (m : Int) ∧
      Int.ModEq m (modular_inverse a m * a) 1 := by
  have hm1 : ¬ m = 1 := by omega
  have hinv := modular_inverse_loop_invariant (m + 1) a m 0 1 a m
    (by omega) ha hgcd hm (by simpa using Int.ModEq.refl (a : Int))
    (by unfold Int.ModEq; simp [Int.emod_self])
    (by simp)
    (by right; simp)
    (by rw [abs_one]; push_cast; omega)
  set r := modular_inverse_loop (m + 1) a m 0 1 with hr
  obtain ⟨hmod, hbnd⟩ := hinv
  unfold modular_inverse
  rw [if_neg hm1]
  simp only [← hr]
  by_cases hneg : r < 0
  · rw [if_pos hneg]
    have habs : |r| = -r := abs_of_neg hneg
    refine ⟨by omega, by omega, ?_⟩
    have hexp : (r + m) * (a : Int) = r * a + a * m := by ring
    have hzero : Int.ModEq m ((a : Int) * m) 0 :=
      Int.modEq_zero_iff_dvd.mpr ⟨a, by ring⟩
    calc (r + m) * (a : Int) = r * a + a * m := hexp
      _ ≡ 1 + 0 [ZMOD (m : Int)] := hmod.add hzero
      _ = 1 := by ring
  · rw [if_neg hneg]
    have habs : |r| = r := abs_of_nonneg (by omega)
    exact ⟨by omega, by omega, hmod⟩

/-- Nat-level reading of the inverse: `(a * inv.toNat) % m = 1`. -/
theorem modular_inverse_toNat_mul (a m : Nat) (hm : 2 ≤ m) (ha : 1 ≤ a)
    (hgcd : Nat.gcd a m = 1) :
    a * (modular_inverse a m).toNat % m = 1 := by
  obtain ⟨hnn, hlt, hmod⟩ := modular_inverse_spec a m hm ha hgcd
  have hcast : ((modular_inverse a m).toNat : Int) = modular_inverse a m :=
    Int.toNat_of_nonneg hnn
  have : Int.ModEq m ((a * (modular_inverse a m).toNat : Nat) : Int) 1 := by
    push_cast
    rw [hcast]
    calc (a : Int) * modular_inverse a m = modular_inverse a m * a := by ring
      _ ≡ 1 [ZMOD (m : Int)] := hmod
  unfold Int.ModEq at this
  have h1 : ((1 : Int) % m) = 1 := Int.emod_eq_of_lt (by omega) (by push_cast; omega)
  rw [h1] at this
  have h2 : ((a * (modular_inverse a m).toNat : Nat) : Int) % (m : Int) =
      ((a * (modular_inverse a m).toNat % m : Nat) : Int) := by
    push_cast
    rfl
  rw [h2] at this
  exact_mod_cast this

/-- Exactness of the uint64 subtraction pattern when no wraparound occurs. -/
theorem u64_sub_mod (a b : Nat) (hb : b ≤ a) (ha : a < U64) :
    (a % U64 + (U64 - b % U64)) % U64 = a - b := by
  have hpos : (0:Nat) < U64 := by decide
  have h1 : a % U64 = a := Nat.mod_eq_of_lt ha
  have h2 : b % U64 = b := Nat.mod_eq_of_lt (by omega)
  rw [h1, h2]
  have h3 : a + (U64 - b) = (a - b) + U64 := by omega
  rw [h3, Nat.add_mod_right, Nat.mod_eq_of_lt (by omega)]

/-- Claim C8 (amended): `solve_for_y(lane, p, vx, x)` returns `-1` cast to
uint64 exactly when `vx % p = 0` (for prime `p`, exactly when `p ∣ vx`, i.e.
`gcd(vx,p) ≠ 1`); it returns 0 whenever `x mod p` already equals
`normalized_xp(lane, p)`; and — provided `x ≤ x_p` so that the uint64
difference `x_p - x` does not wrap, with `p, vx` small enough that the C
`int` arithmetic does not overflow — it returns the smallest `y ≥ 0` with
`(x + vx·y) ≡ normalized_xp(lane, p) (mod p)`, computed via the modular
inverse of `vx` mod `p` in `[0, p)`.  (As frozen the claim asserted the
smallest-solution property for every `x`; for `x > x_p` the wrapped
subtraction makes the result wrong, see the counterexample.) -/
theorem C8_solve_for_y_least (matrix_id : Int) (p vx x : Nat)
    (hlane : matrix_id = -1 ∨ matrix_id = 1) (hp : Nat.Prime p) (hp5 : 5 ≤ p)
    (hpint : p ≤ 46340) (hvxint : vx < 2 ^ 31)
    (hx : x ≤ normalized_xp matrix_id p) :
    (solve_for_y matrix_id p vx x = U64 - 1 ↔ vx % p = 0) ∧
    (x % p = normalized_xp matrix_id p → vx % p ≠ 0 →
      solve_for_y matrix_id p vx x = 0) ∧
    (vx % p ≠ 0 →
      (x + vx * solve_for_y matrix_id p vx x) % p = normalized_xp matrix_id p ∧
      ∀ z < solve_for_y matrix_id p vx x,
        (x + vx * z) % p ≠ normalized_xp matrix_id p) := by
  have hxp1 : 1 ≤ normalized_xp matrix_id p := normalized_xp_pos matrix_id p hp5
  have hxplt : normalized_xp matrix_id p < p := normalized_xp_lt matrix_id p hp5
  have hppos : 0 < p := by omega
  by_cases hdvd : vx % p = 0
  · have hval : solve_for_y matrix_id p vx x = U64 - 1 := by
      simp only [solve_for_y]
      rw [if_pos hdvd]
    exact ⟨⟨fun _ => hdvd, fun _ => hval⟩, fun _ hc => absurd hdvd hc,
      fun hc => absurd hdvd hc⟩
  · have hvx1 : 1 ≤ vx := by
      rcases Nat.eq_zero_or_pos vx with h | h
      · exact absurd (by simp [h]) hdvd
      · exact h
    have hgcd : Nat.gcd vx p = 1 := by
      have hnd : ¬ p ∣ vx := by
        intro hdd
        exact hdvd ((Nat.mod_eq_zero_of_dvd hdd))
      exact ((hp.coprime_iff_not_dvd).mpr hnd).symm
    by_cases h0 : x % p = normalized_xp matrix_id p
    · have hval : solve_for_y matrix_id p vx x = 0 := by
        simp only [solve_for_y]
        rw [if_neg hdvd, if_pos h0]
      refine ⟨⟨fun he => ?_, fun hc => absurd hc hdvd⟩, fun _ _ => hval,
        fun _ => ⟨by simpa [hval] using h0, fun z hz => by omega⟩⟩
      rw [hval] at he
      have : (0:Nat) ≠ U64 - 1 := by decide
      exact absurd he this
    · have hpU : p < U64 := by
        have h46 : (46340:Nat) < U64 := by decide
        omega
      have hU := u64_sub_mod (normalized_xp matrix_id p) x hx (by omega)
      have hval : solve_for_y matrix_id p vx x =
          (normalized_xp matrix_id p - x) % p * (modular_inverse vx p).toNat % p := by
        simp only [solve_for_y]
        rw [if_neg hdvd, if_neg h0, hU]
      have hinv := modular_inverse_toNat_mul vx p (by omega) hvx1 hgcd
      set w := (modular_inverse vx p).toNat with hw
      set xp := normalized_xp matrix_id p with hxp
      have hvw1 : Nat.ModEq p (vx * w) 1 := by
        unfold Nat.ModEq
        rw [hinv, Nat.mod_eq_of_lt (by omega)]
      have hylt : (xp - x) % p * w % p < p := Nat.mod_lt _ hppos
      have hcong : (x + vx * ((xp - x) % p * w % p)) % p = xp := by
        have m1 : Nat.ModEq p ((xp - x) % p * w % p) ((xp - x) * w) := by
          calc (xp - x) % p * w % p
              ≡ (xp - x) % p * w [MOD p] := Nat.mod_modEq _ _
            _ ≡ (xp - x) * w [MOD p] := Nat.ModEq.mul_right w (Nat.mod_modEq _ _)
        have m2 : Nat.ModEq p (vx * ((xp - x) * w)) (xp - x) := by
          have e1 : vx * ((xp - x) * w) = (xp - x) * (vx * w) := by ring
          rw [e1]
          calc (xp - x) * (vx * w) ≡ (xp - x) * 1 [MOD p] :=
              Nat.ModEq.mul_left _ hvw1
            _ = xp - x := Nat.mul_one _
        have m3 : Nat.ModEq p (x + vx * ((xp - x) % p * w % p)) (x + (xp - x)) :=
          Nat.ModEq.add_left x ((Nat.ModEq.mul_left vx m1).trans m2)
        have hxx : x + (xp - x) = xp := by omega
        rw [hxx] at m3
        unfold Nat.ModEq at m3
        rw [Nat.mod_eq_of_lt hxplt] at m3
        exact m3
      rw [hval]
      refine ⟨⟨fun he => ?_, fun hc => absurd hc hdvd⟩, fun hc => absurd hc h0,
        fun _ => ⟨hcong, ?_⟩⟩
      · have h46 : (46341:Nat) < U64 - 1 := by decide
        omega
      · intro z hz hzc
        have hvz : Nat.ModEq p (x + vx * z)
            (x + vx * ((xp - x) % p * w % p)) := by
          unfold Nat.ModEq
          rw [hzc, hcong]
        have hvz2 : Nat.ModEq p (vx * z) (vx * ((xp - x) % p * w % p)) :=
          Nat.ModEq.add_left_cancel' x hvz
        have hzy : Nat.ModEq p z ((xp - x) % p * w % p) := by
          have h1 := Nat.ModEq.mul_left w hvz2
          have e1 : w * (vx * z) = vx * w * z := by ring
          have e2 : w * (vx * ((xp - x) % p * w % p)) =
              vx * w * ((xp - x) % p * w % p) := by ring
          rw [e1, e2] at h1
          calc z = 1 * z := (Nat.one_mul z).symm
            _ ≡ vx * w * z [MOD p] := (Nat.ModEq.mul_right z hvw1).symm
            _ ≡ vx * w * ((xp - x) % p * w % p) [MOD p] := h1
            _ ≡ 1 * ((xp - x) % p * w % p) [MOD p] :=
              Nat.ModEq.mul_right _ hvw1
            _ = (xp - x) % p * w % p := Nat.one_mul _
        unfold Nat.ModEq at hzy
        rw [Nat.mod_eq_of_lt (by omega), Nat.mod_eq_of_lt (by omega)] at hzy
        omega

/-- Witness for C8 at lane −1, p = 23, vx = 5, x = 2 (so `x ≤ x_p = 4`). -/
theorem C8_solve_for_y_least_witness :
    Nat.Prime 23 ∧ (2 : Nat) ≤ normalized_xp (-1) 23 ∧
      ((solve_for_y (-1) 23 5 2 = U64 - 1 ↔ 5 % 23 = 0) ∧
       (2 % 23 = normalized_xp (-1) 23 → 5 % 23 ≠ 0 → solve_for_y (-1) 23 5 2 = 0) ∧
       (5 % 23 ≠ 0 →
         (2 + 5 * solve_for_y (-1) 23 5 2) % 23 = normalized_xp (-1) 23 ∧
         ∀ z < solve_for_y (-1) 23 5 2, (2 + 5 * z) % 23 ≠ normalized_xp (-1) 23)) :=
  ⟨by norm_num, by decide,
    C8_solve_for_y_least (-1) 23 5 2 (Or.inl rfl) (by norm_num) (by norm_num)
      (by norm_num) (by norm_num) (by decide)⟩

/-- Claim C8 counterexample: for lane −1, p = 23 (prime, `gcd(5,23)=1`),
vx = 5, x = 10 (> x_p = 4, so the uint64 `x_p - x` wraps), the function
returns 0, yet `(10 + 5·0) mod 23 = 10 ≠ 4`, while `y = 8` does satisfy the
congruence — so the returned value is not the smallest solution. -/
theorem C8_counterexample :
    Nat.gcd 5 23 = 1 ∧ solve_for_y (-1) 23 5 10 = 0 ∧
      (10 + 5 * 0) % 23 ≠ normalized_xp (-1) 23 ∧
      (10 + 5 * 8) % 23 = normalized_xp (-1) 23 := by
  refine ⟨by decide, by decide, by decide, by decide⟩

/-! ### Claim C6: gap bookkeeping of the vx6 block sieve -/

theorem iZ_neg_one (x : Nat) : iZ x (-1) = 6 * x - 1 := by norm_num [iZ]

theorem iZ_one (x : Nat) : iZ x 1 = 6 * x + 1 := by norm_num [iZ]

theorem presums_append (anchor : Nat) (gs : List Nat) (g : Nat) :
    presums anchor (gs ++ [g]) = presums anchor gs ++ [anchor + gs.sum + g] := by
  induction gs generalizing anchor with
  | nil => simp [presums]
  | cons a t ih => simp [presums, ih, Nat.add_assoc]

/-- Invariant of the vx6 gap walk: the prefix sums of the recorded gaps from
the anchor list exactly the values of the recorded survivors, and the anchor
plus all recorded gaps plus the running counter always points 5 short of the
iZ− value at the next index. -/
theorem vx6_fold_inv (y : Nat) (s5 s7 : Nat → Bool) :
    ∀ (len x0 : Nat) (st : VxSt) (anchor : Nat), 1 ≤ x0 →
      presums anchor st.gaps = st.survs.map (fun s => iZ (vx6 * y + s.1) s.2) →
      anchor + st.gaps.sum + st.gap = 6 * (vx6 * y + x0) - 5 →
      presums anchor ((List.range' x0 len).foldl (vx6_gap_step s5 s7) st).gaps =
        ((List.range' x0 len).foldl (vx6_gap_step s5 s7) st).survs.map
          (fun s => iZ (vx6 * y + s.1) s.2) := by
  intro len
  induction len with
  | zero => intro x0 st anchor hx0 h1 h2; simpa using h1
  | succ len ih =>
    intro x0 st anchor hx0 h1 h2
    rw [List.range'_succ, List.foldl_cons]
    have hx6 : 6 ≤ 6 * (vx6 * y + x0) := by omega
    rcases h5 : s5 x0 with h5v | h5v
    all_goals rcases h7 : s7 x0 with h7v | h7v
    · -- neither lane survives: only the counter moves
      apply ih (x0 + 1) _ anchor (by omega)
      · simpa [vx6_gap_step, h5, h7] using h1
      · simp only [vx6_gap_step, h5, h7, Bool.false_eq_true, if_false]
        omega
    · -- only iZ+ survives
      apply ih (x0 + 1) _ anchor (by omega)
      · simp only [vx6_gap_step, h5, h7, Bool.false_eq_true, if_false, if_true]
        rw [presums_append, h1, List.map_append]
        congr 1
        simp only [List.map_cons, List.map_nil, iZ_one]
        congr 1
        omega
      · simp only [vx6_gap_step, h5, h7, Bool.false_eq_true, if_false, if_true]
        simp only [List.sum_append, List.sum_cons, List.sum_nil]
        omega
    · -- only iZ− survives
      apply ih (x0 + 1) _ anchor (by omega)
      · simp only [vx6_gap_step, h5, h7, Bool.false_eq_true, if_false, if_true]
        rw [presums_append, h1, List.map_append]
        congr 1
        simp only [List.map_cons, List.map_nil, iZ_neg_one]
        congr 1
        omega
      · simp only [vx6_gap_step, h5, h7, Bool.false_eq_true, if_false, if_true]
        simp only [List.sum_append, List.sum_cons, List.sum_nil]
        omega
    · -- both lanes survive
      apply ih (x0 + 1) _ anchor (by omega)
      · simp only [vx6_gap_step, h5, h7, if_true]
        rw [presums_append, presums_append, h1, List.map_append, List.map_append]
        congr 1
        · congr 1
          simp only [List.map_cons, List.map_nil, iZ_neg_one]
          congr 1
          omega
        · simp only [List.map_cons, List.map_nil, iZ_one, List.sum_append,
            List.sum_cons, List.sum_nil]
          congr 1
          omega
      · simp only [vx6_gap_step, h5, h7, if_true]
        simp only [List.sum_append, List.sum_cons, List.sum_nil]
        omega

/-- Claim C6: in `vx6_sieve` the gap counter starts at 18, is incremented by
4 before the x5 test and by 2 between the x5 and x7 tests at each
`x ∈ [4, vx6]`, and the accumulated gap is recorded (as a uint16) and reset
at each surviving candidate; consequently — whenever every recorded gap fits
in 16 bits, so that the uint16 store is lossless — the anchor
`iZ(vx6·y, +1) = 6·vx6·y + 1` plus the sum of `p_gaps[0..k]` equals the value
`6·(vx6·y + x) ± 1` of the (k+1)-th surviving candidate, with iZ− preceding
iZ+ at the same x.  The survivor predicates `s5, s7` abstract the pre-sieved
block bitmaps conjoined with the Miller–Rabin verdicts. -/
theorem C6_vx6_gap_reconstruction (y : Nat) (s5 s7 : Nat → Bool)
    (hfit : ∀ g ∈ (vx6_gap_loop s5 s7).gaps, g < 65536) :
    presums (6 * (vx6 * y) + 1) (vx6_p_gaps s5 s7) =
      (vx6_gap_loop s5 s7).survs.map (fun s => iZ (vx6 * y + s.1) s.2) := by
  have hmap : vx6_p_gaps s5 s7 = (vx6_gap_loop s5 s7).gaps := by
    unfold vx6_p_gaps
    have h : ∀ g ∈ (vx6_gap_loop s5 s7).gaps, g % 65536 = g :=
      fun g hg => Nat.mod_eq_of_lt (hfit g hg)
    rw [List.map_congr_left h, List.map_id']
  rw [hmap]
  unfold vx6_gap_loop
  apply vx6_fold_inv y s5 s7 (vx6 - 3) 4 ⟨18, [], []⟩ (6 * (vx6 * y) + 1)
    (by omega)
  · simp [presums]
  · simp only [List.sum_nil]
    omega

/-- All gaps recorded under all-true survivor predicates are at most 22
(18 + 4 for the very first record, then 4 or 2). -/
theorem vx6_gap_loop_const_bound :
    ∀ (len x0 : Nat) (st : VxSt), st.gap ≤ 18 → (∀ g ∈ st.gaps, g ≤ 22) →
      ((List.range' x0 len).foldl (vx6_gap_step (fun _ => true) (fun _ => true)) st).gap ≤ 18 ∧
      ∀ g ∈ ((List.range' x0 len).foldl
          (vx6_gap_step (fun _ => true) (fun _ => true)) st).gaps, g ≤ 22 := by
  intro len
  induction len with
  | zero => intro x0 st h1 h2; simpa using ⟨h1, h2⟩
  | succ len ih =>
    intro x0 st h1 h2
    rw [List.range'_succ, List.foldl_cons]
    apply ih
    · simp [vx6_gap_step]
    · simp only [vx6_gap_step, if_true]
      intro g hg
      simp only [List.mem_append, List.mem_singleton] at hg
      rcases hg with (hg | hg) | hg
      · exact h2 g hg
      · omega
      · omega

/-- Witness for C6: with all-true survivor predicates every recorded gap is
below 2^16, and the reconstruction identity holds at `y = 0`. -/
theorem C6_vx6_gap_reconstruction_witness :
    (∀ g ∈ (vx6_gap_loop (fun _ => true) (fun _ => true)).gaps, g < 65536) ∧
      presums (6 * (vx6 * 0) + 1) (vx6_p_gaps (fun _ => true) (fun _ => true)) =
        (vx6_gap_loop (fun _ => true) (fun _ => true)).survs.map
          (fun s => iZ (vx6 * 0 + s.1) s.2) := by
  have hb := vx6_gap_loop_const_bound (vx6 - 3) 4 ⟨18, [], []⟩ (by norm_num)
    (by intro g hg; simp at hg)
  have hfit : ∀ g ∈ (vx6_gap_loop (fun _ => true) (fun _ => true)).gaps, g < 65536 := by
    intro g hg
    have := hb.2 g hg
    omega
  exact ⟨hfit, C6_vx6_gap_reconstruction 0 _ _ hfit⟩

/-! ### Claim C7: the random_iZprime walk leaves its lane -/

theorem set_random_base_gcd_loop_first (vx p fuel : Nat) (hf : 0 < fuel)
    (h : Nat.gcd vx (p + 6) = 1) : set_random_base_gcd_loop vx fuel p = p + 6 := by
  cases fuel with
  | zero => omega
  | succ fuel => simp [set_random_base_gcd_loop, h]

theorem search_p_in_iZm_loop_first (oracle : Nat → Bool) (vx fuel tmp : Nat)
    (hf : 0 < fuel) (h : oracle (tmp + vx) = true) :
    search_p_in_iZm_loop oracle vx fuel tmp = tmp + vx := by
  cases fuel with
  | zero => omega
  | succ fuel => simp [search_p_in_iZm_loop, h]

/-- Claim C7 (code bug): `search_p_in_iZm` steps candidates by `vx` although
its own comment says "increment y" — staying on the lane `6x + lane` would
require stepping by `6·vx` — and `vx` (a primorial of 5, 7, 11, …) is
coprime to 6, so the walk cycles through all residues mod 6.  Concrete
failing run: lane +1, bit_size 4 (so `vx = 5`), random draw `x = 1`: the
base is `iZ(1,+1) = 7 → 13` (first coprime step) `→ 18` (+vx), and the first
tested candidate is `18 + 5 = 23`, a prime, which every sound Miller–Rabin
oracle accepts — the function returns 23 with `23 mod 6 = 5`, while the
claim requires `p mod 6 = (6 + lane) mod 6 = 1`. -/
theorem C7_lane_violation :
    gmp_compute_max_vx 4 = 5 ∧
      (∀ oracle : Nat → Bool, oracle 23 = true →
        random_iZprime_single oracle 1 1 4 = 23) ∧
      Nat.Prime 23 ∧ 23 % 6 = 5 ∧ (6 + 1) % 6 = 1 := by
  refine ⟨by decide, ?_, by norm_num, by decide, by decide⟩
  intro oracle ho
  unfold random_iZprime_single search_p_in_iZm
  have hvx : gmp_compute_max_vx 4 = 5 := by decide
  rw [hvx]
  have hbase : set_random_base 1 1 5 = 18 := by
    unfold set_random_base
    have h7 : iZ 1 1 = 7 := by decide
    rw [h7, set_random_base_gcd_loop_first 5 7 9999 (by norm_num) (by decide)]
  rw [hbase]
  exact search_p_in_iZm_loop_first oracle 5 1000000 18 (by norm_num)
    (by simpa using ho)

/-- Witness for C7's oracle-parametrised run, with the oracle that accepts
exactly 23. -/
theorem C7_lane_violation_witness :
    (fun n : Nat => decide (n = 23)) 23 = true ∧
      random_iZprime_single (fun n : Nat => decide (n = 23)) 1 1 4 = 23 :=
  ⟨by decide, C7_lane_violation.2.1 (fun n : Nat => decide (n = 23)) (by decide)⟩

/-! ### Claim C9: file-format round trips -/

theorem le_bytes_length (k : Nat) : ∀ v, (le_bytes k v).length = k := by
  induction k with
  | zero => intro v; rfl
  | succ k ih => intro v; simp [le_bytes, ih]

theorem from_le_bytes_le_bytes (k : Nat) : ∀ v, v < 256 ^ k →
    from_le_bytes (le_bytes k v) = v := by
  induction k with
  | zero =>
    intro v h
    simp only [pow_zero, Nat.lt_one_iff] at h
    simp [le_bytes, from_le_bytes, h]
  | succ k ih =>
    intro v h
    have hdiv : v / 256 < 256 ^ k := by
      rw [Nat.div_lt_iff_lt_mul (by norm_num)]
      calc v < 256 ^ (k + 1) := h
        _ = 256 ^ k * 256 := by ring
    simp only [le_bytes, from_le_bytes, ih (v / 256) hdiv]
    omega

theorem flatMap_le_bytes_length (k : Nat) (l : List Nat) :
    (l.flatMap (le_bytes k)).length = k * l.length := by
  induction l with
  | nil => simp
  | cons a t ih => simp [ih, le_bytes_length]; ring

theorem decode64list_encode : ∀ (l : List Nat), (∀ v ∈ l, v < 2 ^ 64) →
    decode64list l.length (l.flatMap (le_bytes 8)) = l := by
  intro l
  induction l with
  | nil => intro _; rfl
  | cons v t ih =>
    intro h
    have hv : v < 256 ^ 8 := by
      have := h v (List.mem_cons_self v t)
      norm_num
      omega
    simp only [List.flatMap_cons, List.length_cons, decode64list]
    rw [List.take_left' (le_bytes_length 8 v), List.drop_left' (le_bytes_length 8 v),
      from_le_bytes_le_bytes 8 v hv, ih (fun w hw => h w (List.mem_cons_of_mem v hw))]

theorem decode16list_encode : ∀ (l : List Nat), (∀ v ∈ l, v < 2 ^ 16) →
    decode16list l.length (l.flatMap (le_bytes 2)) = l := by
  intro l
  induction l with
  | nil => intro _; rfl
  | cons v t ih =>
    intro h
    have hv : v < 256 ^ 2 := by
      have := h v (List.mem_cons_self v t)
      norm_num
      omega
    simp only [List.flatMap_cons, List.length_cons, decode16list]
    rw [List.take_left' (le_bytes_length 2 v), List.drop_left' (le_bytes_length 2 v),
      from_le_bytes_le_bytes 2 v hv, ih (fun w hw => h w (List.mem_cons_of_mem v hw))]

theorem takeWhile_append_zero : ∀ (y : List Nat), (∀ b ∈ y, b ≠ 0) →
    (y ++ [0]).takeWhile (fun b => b != 0) = y := by
  intro y
  induction y with
  | nil => intro _; rfl
  | cons b t ih =>
    intro h
    have hb : b ≠ 0 := h b (List.mem_cons_self b t)
    simp only [List.cons_append, List.takeWhile_cons]
    have : (b != 0) = true := by simpa using hb
    rw [this, if_pos rfl, ih (fun w hw => h w (List.mem_cons_of_mem b hw))]

theorem sha_take (sha : List Nat → List Nat) (hsha : ∀ l, (sha l).length = 32)
    (l : List Nat) : (sha l).take 32 = sha l := by
  conv_lhs => rw [← hsha l]
  exact List.take_length (sha l)

/-- Claim C9 (amended): the write-then-read round trip is the identity for
every bitmap (size ≥ 1, as enforced by `bitmap_create`), for every PrimeList
with at least one entry, and for every VxBlock with at least one gap; the
serialized tuples are (size, packed bytes, hash), (count, entries, hash) and
(y string, count, gaps, hash), with the reader recomputing and checking
the hash.  (As frozen the claim also covered empty PrimeLists, where the
reader fails because `primes_obj_init(0)` rejects a zero capacity; the empty
VxBlock similarly fails in `hash_int_array`.)  The hash function is
abstract with output length 32 — the round trip holds for any such
function, in particular SHA-256. -/
theorem C9_file_roundtrips (sha : List Nat → List Nat)
    (hsha : ∀ l, (sha l).length = 32) :
    (∀ b : BITMAPbytes, 0 < b.size → b.size < 2 ^ 64 →
      b.data.length = (b.size + 7) / 8 →
      bitmap_read_file sha (bitmap_write_file sha b) = some b) ∧
    (∀ l : List Nat, 1 ≤ l.length → l.length < 2 ^ 31 → (∀ v ∈ l, v < 2 ^ 64) →
      primes_obj_read_file sha (primes_obj_write_file sha l) = some l) ∧
    (∀ o : VXbytes, 1 ≤ o.p_gaps.length → o.p_gaps.length < 2 ^ 64 →
      o.y.length + 1 < 2 ^ 64 → (∀ g ∈ o.p_gaps, g < 2 ^ 16) →
      (∀ b ∈ o.y, b ≠ 0) →
      vx6_read_file sha (vx6_write_file sha o) = some o) := by
  have h2564 : (256 : Nat) ^ 8 = 2 ^ 64 := by norm_num
  have h2532 : (256 : Nat) ^ 4 = 2 ^ 32 := by norm_num
  refine ⟨?_, ?_, ?_⟩
  · rintro ⟨size, data⟩ hpos hsz hdata
    simp only at hpos hsz hdata
    have hlen8 : (le_bytes 8 size).length = 8 := le_bytes_length 8 size
    set f := bitmap_write_file sha ⟨size, data⟩ with hf
    have hfeq : f = le_bytes 8 size ++ (data ++ sha data) := by
      rw [hf]
      unfold bitmap_write_file
      simp [List.append_assoc]
    have hflen : f.length = 40 + data.length := by
      rw [hfeq]
      simp [hlen8, hsha]
      omega
    have htake : f.take 8 = le_bytes 8 size := by
      rw [hfeq]
      exact List.take_left' hlen8
    have hdrop : f.drop 8 = data ++ sha data := by
      rw [hfeq]
      exact List.drop_left' hlen8
    have hrest : (data ++ sha data).length = data.length + 32 := by
      simp [hsha]
    have ht2 : (data ++ sha data).take ((size + 7) / 8) = data :=
      List.take_left' hdata
    have hd2 : (data ++ sha data).drop ((size + 7) / 8) = sha data :=
      List.drop_left' hdata
    simp only [bitmap_read_file]
    rw [htake, hdrop, from_le_bytes_le_bytes 8 size (by omega)]
    rw [if_neg (by omega), if_neg (by omega), hrest,
      if_neg (by rw [← hdata]; omega), ht2, hd2, sha_take sha hsha, if_pos rfl]
  · intro l hlen hcnt hval
    have hlen4 : (le_bytes 4 l.length).length = 4 := le_bytes_length 4 l.length
    have hpay : (l.flatMap (le_bytes 8)).length = 8 * l.length :=
      flatMap_le_bytes_length 8 l
    set payload := l.flatMap (le_bytes 8) with hpayload
    set f := primes_obj_write_file sha l with hf
    have hfeq : f = le_bytes 4 l.length ++ (payload ++ sha payload) := by
      rw [hf]
      unfold primes_obj_write_file
      simp [List.append_assoc, hpayload]
    have hflen : f.length = 36 + 8 * l.length := by
      rw [hfeq]
      simp [hlen4, hsha, hpay]
      omega
    have htake : f.take 4 = le_bytes 4 l.length := by
      rw [hfeq]
      exact List.take_left' hlen4
    have hdrop : f.drop 4 = payload ++ sha payload := by
      rw [hfeq]
      exact List.drop_left' hlen4
    have hrest : (payload ++ sha payload).length = 8 * l.length + 32 := by
      simp [hsha, hpay]
    have ht2 : (payload ++ sha payload).take (8 * l.length) = payload :=
      List.take_left' hpay
    have hd2 : (payload ++ sha payload).drop (8 * l.length) = sha payload :=
      List.drop_left' hpay
    simp only [primes_obj_read_file]
    rw [htake, hdrop, from_le_bytes_le_bytes 4 l.length (by omega)]
    rw [if_neg (by omega), if_neg (by omega), hrest, if_neg (by omega),
      ht2, hd2, sha_take sha hsha, if_pos rfl, hpayload]
    rw [decode64list_encode l hval]
  · rintro ⟨y, gaps⟩ hg1 hgU hyU hgap hy0
    simp only at hg1 hgU hyU hgap hy0
    have hA : (le_bytes 8 (y.length + 1)).length = 8 := le_bytes_length 8 _
    have hB : (y ++ [0]).length = y.length + 1 := by simp
    have hC : (le_bytes 8 gaps.length).length = 8 := le_bytes_length 8 _
    have hpay : (gaps.flatMap (le_bytes 2)).length = 2 * gaps.length :=
      flatMap_le_bytes_length 2 gaps
    set payload := gaps.flatMap (le_bytes 2) with hpayload
    set f := vx6_write_file sha ⟨y, gaps⟩ with hf
    have hfeq : f = le_bytes 8 (y.length + 1) ++
        ((y ++ [0]) ++ (le_bytes 8 gaps.length ++ (payload ++ sha payload))) := by
      rw [hf]
      unfold vx6_write_file
      simp [List.append_assoc, hpayload]
    have htake : f.take 8 = le_bytes 8 (y.length + 1) := by
      rw [hfeq]
      exact List.take_left' hA
    have hdrop : f.drop 8 =
        (y ++ [0]) ++ (le_bytes 8 gaps.length ++ (payload ++ sha payload)) := by
      rw [hfeq]
      exact List.drop_left' hA
    have hflen : f.length = 8 + (y.length + 1) + 8 + 2 * gaps.length + 32 := by
      rw [hfeq]
      simp [hA, hB, hC, hsha, hpay]
      omega
    have hrestlen :
        ((y ++ [0]) ++ (le_bytes 8 gaps.length ++ (payload ++ sha payload))).length =
          (y.length + 1) + 8 + 2 * gaps.length + 32 := by
      simp [hB, hC, hsha, hpay]
      omega
    have hybuf :
        ((y ++ [0]) ++ (le_bytes 8 gaps.length ++ (payload ++ sha payload))).take
          (y.length + 1) = y ++ [0] :=
      List.take_left' hB
    have hrest2 :
        ((y ++ [0]) ++ (le_bytes 8 gaps.length ++ (payload ++ sha payload))).drop
          (y.length + 1) = le_bytes 8 gaps.length ++ (payload ++ sha payload) :=
      List.drop_left' hB
    have hcnt : (le_bytes 8 gaps.length ++ (payload ++ sha payload)).take 8 =
        le_bytes 8 gaps.length := List.take_left' hC
    have hrest3 : (le_bytes 8 gaps.length ++ (payload ++ sha payload)).drop 8 =
        payload ++ sha payload := List.drop_left' hC
    have hrest3len : (payload ++ sha payload).length = 2 * gaps.length + 32 := by
      simp [hsha, hpay]
    have ht2 : (payload ++ sha payload).take (2 * gaps.length) = payload :=
      List.take_left' hpay
    have hd2 : (payload ++ sha payload).drop (2 * gaps.length) = sha payload :=
      List.drop_left' hpay
    simp only [vx6_read_file]
    rw [htake, hdrop, from_le_bytes_le_bytes 8 (y.length + 1) (by omega)]
    rw [if_neg (by omega), hrestlen, if_neg (by omega), hybuf, hrest2, hcnt,
      hrest3, from_le_bytes_le_bytes 8 gaps.length (by omega),
      if_neg (by omega), hrest3len, if_neg (by omega), ht2, hd2,
      sha_take sha hsha, if_pos rfl, hpayload]
    rw [decode16list_encode gaps hgap, takeWhile_append_zero y hy0]

/-- Witness for C9 at concrete inputs: a 3-bit bitmap with one data byte, the
PrimeList `[2, 3]`, and a VxBlock with `y = "7"` and gaps `[22, 2]`, all
with the length-32 stub hash. -/
theorem C9_file_roundtrips_witness :
    bitmap_read_file sha_stub (bitmap_write_file sha_stub ⟨3, [5]⟩) = some ⟨3, [5]⟩ ∧
      primes_obj_read_file sha_stub (primes_obj_write_file sha_stub [2, 3]) =
        some [2, 3] ∧
      vx6_read_file sha_stub (vx6_write_file sha_stub ⟨[55], [22, 2]⟩) =
        some ⟨[55], [22, 2]⟩ := by
  have h := C9_file_roundtrips sha_stub (fun l => by simp [sha_stub])
  exact ⟨h.1 ⟨3, [5]⟩ (by norm_num) (by norm_num) (by norm_num),
    h.2.1 [2, 3] (by norm_num) (by norm_num) (by decide),
    h.2.2 ⟨[55], [22, 2]⟩ (by norm_num) (by norm_num) (by norm_num) (by decide)
      (by decide)⟩

/-- Claim C9 counterexample: the empty PrimeList does not round-trip — the
writer emits a file with count 0, and the reader fails because
`primes_obj_init(0)` rejects a non-positive capacity. -/
theorem C9_counterexample :
    primes_obj_read_file sha_stub (primes_obj_write_file sha_stub []) = none := by
  decide

/-! ### Progressions of lane multiples of a prime

For a prime `p = 6x_p ∓ 1` the arithmetic progression with step `p` started
by the wheel (and by the sieves) consists exactly of the lane indices whose
value `6k ∓ 1` is divisible by `p`; on the opposite lane the progression
starts at `p·x_p − x_p`, and the class members below that start have a
cofactor `6m − 1 < p`. -/

theorem prog_shape (p s k : Nat) (hs : 1 ≤ s) :
    (∃ j, k = s + j * p) ↔ s ≤ k ∧ (k - s) % p = 0 := by
  constructor
  · rintro ⟨j, rfl⟩
    refine ⟨by omega, ?_⟩
    have h1 : s + j * p - s = j * p := by omega
    rw [h1, Nat.mul_mod_left]
  · rintro ⟨hle, hmod⟩
    refine ⟨(k - s) / p, ?_⟩
    have hdm := Nat.div_add_mod (k - s) p
    have hcomm : (k - s) / p * p = p * ((k - s) / p) := Nat.mul_comm _ _
    omega

theorem dvd_prog_same5 (p k : Nat) (hp : 11 ≤ p) (h5 : p % 6 = 5) (hk : 1 ≤ k) :
    (∃ j, k = (p + 1) / 6 + j * p) ↔ p ∣ 6 * k - 1 := by
  have hx : 6 * ((p + 1) / 6) = p + 1 := by omega
  constructor
  · rintro ⟨j, rfl⟩
    refine ⟨1 + 6 * j, ?_⟩
    have hr : p * (1 + 6 * j) = p + 6 * (j * p) := by ring
    omega
  · rintro ⟨c, hc⟩
    have hmod : (p * c) % 6 = 5 * (c % 6) % 6 := by rw [Nat.mul_mod, h5]
    have hc6 : c % 6 = 1 := by omega
    refine ⟨c / 6, ?_⟩
    have hcdm : c = 6 * (c / 6) + 1 := by omega
    have hr : p * c = 6 * (p * (c / 6)) + p := by
      conv_lhs => rw [hcdm]
      ring
    have hcomm : c / 6 * p = p * (c / 6) := Nat.mul_comm _ _
    omega

theorem dvd_prog_same1 (p k : Nat) (hp : 11 ≤ p) (h1 : p % 6 = 1) :
    (∃ j, k = (p + 1) / 6 + j * p) ↔ p ∣ 6 * k + 1 := by
  have hx : 6 * ((p + 1) / 6) = p - 1 := by omega
  constructor
  · rintro ⟨j, rfl⟩
    refine ⟨1 + 6 * j, ?_⟩
    have hr : p * (1 + 6 * j) = p + 6 * (j * p) := by ring
    omega
  · rintro ⟨c, hc⟩
    have hmod : (p * c) % 6 = 1 * (c % 6) % 6 := by rw [Nat.mul_mod, h1]
    have hc6 : c % 6 = 1 := by omega
    refine ⟨c / 6, ?_⟩
    have hcdm : c = 6 * (c / 6) + 1 := by omega
    have hr : p * c = 6 * (p * (c / 6)) + p := by
      conv_lhs => rw [hcdm]
      ring
    have hcomm : c / 6 * p = p * (c / 6) := Nat.mul_comm _ _
    omega

theorem prog_dvd_other5 (p k : Nat) (hp : 11 ≤ p) (h5 : p % 6 = 5)
    (h : ∃ j, k = p * ((p + 1) / 6) - (p + 1) / 6 + j * p) : p ∣ 6 * k + 1 := by
  obtain ⟨j, rfl⟩ := h
  have hx : 6 * ((p + 1) / 6) = p + 1 := by omega
  refine ⟨p + 6 * j, ?_⟩
  have h1 : p * (p + 6 * j) = p * p + 6 * (j * p) := by ring
  have h2 : 6 * (p * ((p + 1) / 6)) = p * p + p := by
    have h2a : 6 * (p * ((p + 1) / 6)) = p * (6 * ((p + 1) / 6)) := by ring
    rw [h2a, hx]
    ring
  have h3 : (p + 1) / 6 ≤ p * ((p + 1) / 6) := Nat.le_mul_of_pos_left _ (by omega)
  omega

theorem prog_dvd_other1 (p k : Nat) (hp : 11 ≤ p) (h1 : p % 6 = 1)
    (h : ∃ j, k = p * ((p + 1) / 6) - (p + 1) / 6 + j * p) : p ∣ 6 * k - 1 := by
  obtain ⟨j, rfl⟩ := h
  have hx : 6 * ((p + 1) / 6) = p - 1 := by omega
  refine ⟨p - 2 + 6 * j, ?_⟩
  have hxle : (p + 1) / 6 ≤ p * ((p + 1) / 6) := Nat.le_mul_of_pos_left _ (by omega)
  have e2 : 6 * (p * ((p + 1) / 6)) = p * (p - 1) := by
    have e2a : (6 : Nat) * (p * ((p + 1) / 6)) = p * (6 * ((p + 1) / 6)) := by ring
    rw [e2a, hx]
  have hB : p * (p - 1) + p = p * p := by
    have hB1 : p * (p - 1) + p * 1 = p * ((p - 1) + 1) := by ring
    rw [Nat.mul_one] at hB1
    rw [hB1, Nat.sub_add_cancel (show 1 ≤ p by omega)]
  have hC : p * (p - 2 + 6 * j) + p * 2 = p * (p + 6 * j) := by
    have hC1 : p * (p - 2 + 6 * j) + p * 2 = p * ((p - 2 + 6 * j) + 2) := by ring
    rw [hC1]
    congr 1
    omega
  have hD : p * (p + 6 * j) = p * p + 6 * (j * p) := by ring
  omega

theorem dvd_other_cases5 (p k : Nat) (hp : 11 ≤ p) (h5 : p % 6 = 5) (hk : 1 ≤ k)
    (hdvd : p ∣ 6 * k + 1) :
    (∃ j, k = p * ((p + 1) / 6) - (p + 1) / 6 + j * p) ∨
      ∃ m, 1 ≤ m ∧ m < (p + 1) / 6 ∧ m * p = k + (p + 1) / 6 := by
  have hx : 6 * ((p + 1) / 6) = p + 1 := by omega
  obtain ⟨c, hc⟩ := hdvd
  have hmod : (p * c) % 6 = 5 * (c % 6) % 6 := by rw [Nat.mul_mod, h5]
  have hc6 : c % 6 = 5 := by omega
  set m := (c + 1) / 6 with hm
  have hcm : c + 1 = 6 * m := by omega
  have hm1 : 1 ≤ m := by omega
  have hkey : m * p = k + (p + 1) / 6 := by
    have e1 : p * c + p = p * (c + 1) := by ring
    rw [hcm] at e1
    have e2 : p * (6 * m) = 6 * (m * p) := by ring
    omega
  by_cases hmx : m < (p + 1) / 6
  · right
    exact ⟨m, hm1, hmx, hkey⟩
  · left
    refine ⟨m - (p + 1) / 6, ?_⟩
    have e3 : (m - (p + 1) / 6) * p = m * p - (p + 1) / 6 * p := Nat.sub_mul _ _ _
    have e4 : p * ((p + 1) / 6) = (p + 1) / 6 * p := Nat.mul_comm _ _
    have e5 : (p + 1) / 6 * p ≤ m * p := Nat.mul_le_mul_right p (by omega)
    have e6 : (p + 1) / 6 ≤ (p + 1) / 6 * p := Nat.le_mul_of_pos_right _ (by omega)
    omega

theorem dvd_other_cases1 (p k : Nat) (hp : 11 ≤ p) (h1 : p % 6 = 1) (hk : 1 ≤ k)
    (hdvd : p ∣ 6 * k - 1) :
    (∃ j, k = p * ((p + 1) / 6) - (p + 1) / 6 + j * p) ∨
      ∃ m, 1 ≤ m ∧ m < (p + 1) / 6 ∧ m * p = k + (p + 1) / 6 := by
  have hx : 6 * ((p + 1) / 6) = p - 1 := by omega
  obtain ⟨c, hc⟩ := hdvd
  have hmod : (p * c) % 6 = 1 * (c % 6) % 6 := by rw [Nat.mul_mod, h1]
  have hc6 : c % 6 = 5 := by omega
  set m := (c + 1) / 6 with hm
  have hcm : c + 1 = 6 * m := by omega
  have hm1 : 1 ≤ m := by omega
  have hkey : m * p = k + (p + 1) / 6 := by
    have e1 : p * c + p = p * (c + 1) := by ring
    rw [hcm] at e1
    have e2 : p * (6 * m) = 6 * (m * p) := by ring
    omega
  by_cases hmx : m < (p + 1) / 6
  · right
    exact ⟨m, hm1, hmx, hkey⟩
  · left
    refine ⟨m - (p + 1) / 6, ?_⟩
    have e3 : (m - (p + 1) / 6) * p = m * p - (p + 1) / 6 * p := Nat.sub_mul _ _ _
    have e4 : p * ((p + 1) / 6) = (p + 1) / 6 * p := Nat.mul_comm _ _
    have e5 : (p + 1) / 6 * p ≤ m * p := Nat.mul_le_mul_right p (by omega)
    have e6 : (p + 1) / 6 ≤ (p + 1) / 6 * p := Nat.le_mul_of_pos_right _ (by omega)
    omega

/-- The below-start members of the opposite-lane class have a small cofactor:
from `m * p = k + x_p` with `1 ≤ m < x_p` the value `6k ± 1` (lane opposite
to `p`) equals `p * (6m - 1)`. -/
theorem member_cofactor (p k m X v : Nat) (hp : 11 ≤ p) (hm1 : 1 ≤ m)
    (hmx : m < X) (hkey : m * p = k + X) (hX : 6 * X = p + 1 ∨ 6 * X = p - 1)
    (hv : (6 * X = p + 1 → v = 6 * k + 1) ∧ (6 * X = p - 1 → v = 6 * k - 1))
    (hk : 1 ≤ k) : v = p * (6 * m - 1) := by
  have e1 : p * (6 * m - 1) + p = p * (6 * m) := by
    have e : p * (6 * m - 1) + p * 1 = p * ((6 * m - 1) + 1) := by ring
    rw [Nat.mul_one] at e
    rw [e]
    congr 1
    omega
  have e2 : p * (6 * m) = 6 * (m * p) := by ring
  rcases hX with hX | hX
  · have hvv := hv.1 hX
    omega
  · have hvv := hv.2 hX
    omega

theorem dvd_period5 (q N k : Nat) (hq : q ∣ N) (hk : 1 ≤ k) :
    (q ∣ 6 * (1 + (k - 1) % N) - 1 ↔ q ∣ 6 * k - 1) := by
  have hdm := Nat.div_add_mod (k - 1) N
  have e1 : 6 * k - 1 = 6 * (N * ((k - 1) / N)) + (6 * ((k - 1) % N) + 5) := by
    omega
  have e2 : 6 * (1 + (k - 1) % N) - 1 = 6 * ((k - 1) % N) + 5 := by omega
  rw [e1, e2]
  have hdvd : q ∣ 6 * (N * ((k - 1) / N)) := by
    obtain ⟨d, hd⟩ := hq
    exact ⟨6 * d * ((k - 1) / N), by rw [hd]; ring⟩
  exact (Nat.dvd_add_right hdvd).symm

theorem dvd_period7 (q N k : Nat) (hq : q ∣ N) (hk : 1 ≤ k) :
    (q ∣ 6 * (1 + (k - 1) % N) + 1 ↔ q ∣ 6 * k + 1) := by
  have hdm := Nat.div_add_mod (k - 1) N
  have e1 : 6 * k + 1 = 6 * (N * ((k - 1) / N)) + (6 * ((k - 1) % N) + 7) := by
    omega
  have e2 : 6 * (1 + (k - 1) % N) + 1 = 6 * ((k - 1) % N) + 7 := by omega
  rw [e1, e2]
  have hdvd : q ∣ 6 * (N * ((k - 1) / N)) := by
    obtain ⟨d, hd⟩ := hq
    exact ⟨6 * d * ((k - 1) / N), by rw [hd]; ring⟩
  exact (Nat.dvd_add_right hdvd).symm

/-! ### The wheel invariant of construct_iZm_segment -/

/-- Invariant of the x5 lane after processing the wheel primes `P`: a bit is
set iff its index is in `[1, N]` and `6k - 1` escapes every prime of `P`. -/
def wheel_inv5 (P : List Nat) (N : Nat) (b : BITMAP) : Prop :=
  ∀ k, b.data k = true ↔ 1 ≤ k ∧ k ≤ N ∧ ∀ q ∈ P, ¬ q ∣ 6 * k - 1

/-- Invariant of the x7 lane after processing the wheel primes `P`. -/
def wheel_inv7 (P : List Nat) (N : Nat) (b : BITMAP) : Prop :=
  ∀ k, b.data k = true ↔ 1 ≤ k ∧ k ≤ N ∧ ∀ q ∈ P, ¬ q ∣ 6 * k + 1

/-- One `bitmap_duplicate_segment` + `bitmap_clear_mod_p` pass of the wheel
loop, on one lane with value function `val`, turns the period-`N` pattern for
the primes `P` into the period-`N*p` pattern for `P` plus `p`, provided the
cleared progression consists exactly of the indices whose value `p` divides
(up to indices whose value a prime of `P` already divides). -/
theorem wheel_lane_step (p N : Nat) (b : BITMAP) (P : List Nat) (val : Nat → Nat)
    (start : Nat)
    (hN : 1 ≤ N) (hp : 1 ≤ p)
    (hsize : N * p + 1 ≤ b.size)
    (hperiod : ∀ q ∈ P, ∀ k, 1 ≤ k → (q ∣ val (1 + (k - 1) % N) ↔ q ∣ val k))
    (hinv : ∀ k, b.data k = true ↔ 1 ≤ k ∧ k ≤ N ∧ ∀ q ∈ P, ¬ q ∣ val k)
    (hfwd : ∀ k, 1 ≤ k → k ≤ N * p → start ≤ k → (k - start) % p = 0 → p ∣ val k)
    (hbwd : ∀ k, 1 ≤ k → k ≤ N * p → p ∣ val k →
      (start ≤ k ∧ (k - start) % p = 0) ∨ ∃ q ∈ P, q ∣ val k) :
    ∀ k, (bitmap_clear_mod_p (bitmap_duplicate_segment b 1 N p) p start (N * p + 1)).data k
        = true ↔ 1 ≤ k ∧ k ≤ N * p ∧ (∀ q ∈ P, ¬ q ∣ val k) ∧ ¬ p ∣ val k := by
  intro k
  have hguard : ¬ (1 + N * p > b.size) := by omega
  have hdata : (bitmap_clear_mod_p (bitmap_duplicate_segment b 1 N p) p start (N * p + 1)).data k
      = if start ≤ k ∧ k ≤ N * p + 1 ∧ (k - start) % p = 0 then false
        else if 1 ≤ k ∧ k < 1 + N * p then b.data (1 + (k - 1) % N) else b.data k := by
    simp only [bitmap_clear_mod_p, bitmap_duplicate_segment]
    rw [if_neg hguard]
  rw [hdata]
  by_cases hcl : start ≤ k ∧ k ≤ N * p + 1 ∧ (k - start) % p = 0
  · rw [if_pos hcl]
    simp only [Bool.false_eq_true, false_iff]
    rintro ⟨hk1, hkN, hqall, hpnot⟩
    exact hpnot (hfwd k hk1 hkN hcl.1 hcl.2.2)
  · rw [if_neg hcl]
    by_cases hk : 1 ≤ k ∧ k < 1 + N * p
    · rw [if_pos hk]
      have hb1 : 1 ≤ 1 + (k - 1) % N := by omega
      have hbN : 1 + (k - 1) % N ≤ N := by
        have := Nat.mod_lt (k - 1) (show 0 < N by omega)
        omega
      rw [hinv (1 + (k - 1) % N)]
      constructor
      · rintro ⟨_, _, hq⟩
        have hqk : ∀ q ∈ P, ¬ q ∣ val k := by
          intro q hqP hdq
          exact hq q hqP ((hperiod q hqP k hk.1).mpr hdq)
        refine ⟨hk.1, by omega, hqk, ?_⟩
        intro hpk
        rcases hbwd k hk.1 (by omega) hpk with ⟨h1, h2⟩ | ⟨q, hqP, hqd⟩
        · exact hcl ⟨h1, by omega, h2⟩
        · exact hqk q hqP hqd
      · rintro ⟨hk1, hkN, hq, hpn⟩
        refine ⟨hb1, hbN, ?_⟩
        intro q hqP hdq
        exact hq q hqP ((hperiod q hqP k hk1).mp hdq)
    · rw [if_neg hk]
      rw [hinv k]
      constructor
      · rintro ⟨h1, h2, _⟩
        exfalso
        have : N ≤ N * p := Nat.le_mul_of_pos_right N hp
        omega
      · rintro ⟨h1, h2, _, _⟩
        exfalso
        omega

/-- The wheel-loop body for a prime `p ≡ 5 (mod 6)` (branch `p % 6 > 1` of
`construct_iZm_segment`): x5 is cleared from `x_p` (same lane as `p`) and x7
from `p*x_p - x_p` (opposite lane), extending both wheel invariants. -/
theorem wheel_step5 (p N : Nat) (b5 b7 : BITMAP) (P : List Nat)
    (hpr : Nat.Prime p) (hp11 : 11 ≤ p) (hp5 : p % 6 = 5) (hN : 35 ≤ N)
    (hqN : ∀ q ∈ P, q ∣ N)
    (hcomp : ∀ r, Nat.Prime r → 5 ≤ r → r < p → r ∈ P)
    (hsize5 : N * p + 1 ≤ b5.size) (hsize7 : N * p + 1 ≤ b7.size)
    (hinv5 : wheel_inv5 P N b5) (hinv7 : wheel_inv7 P N b7) :
    wheel_inv5 (P ++ [p]) (N * p)
      (bitmap_clear_mod_p (bitmap_duplicate_segment b5 1 N p) p ((p + 1) / 6) (N * p + 1)) ∧
    wheel_inv7 (P ++ [p]) (N * p)
      (bitmap_clear_mod_p (bitmap_duplicate_segment b7 1 N p) p
        (p * ((p + 1) / 6) - (p + 1) / 6) (N * p + 1)) := by
  have hx6 : 6 * ((p + 1) / 6) = p + 1 := by omega
  constructor
  · have hstep := wheel_lane_step p N b5 P (fun k => 6 * k - 1) ((p + 1) / 6)
      (by omega) (by omega) hsize5
      (fun q hq k hk => dvd_period5 q N k (hqN q hq) hk)
      hinv5
      (fun k hk1 hkN hs hm =>
        (dvd_prog_same5 p k hp11 hp5 hk1).mp ((prog_shape p ((p + 1) / 6) k (by omega)).mpr ⟨hs, hm⟩))
      (fun k hk1 hkN hd =>
        Or.inl ((prog_shape p ((p + 1) / 6) k (by omega)).mp ((dvd_prog_same5 p k hp11 hp5 hk1).mpr hd)))
    intro k
    rw [hstep k]
    simp only [List.forall_mem_append, List.forall_mem_singleton]
  · have hst1 : 1 ≤ p * ((p + 1) / 6) - (p + 1) / 6 := by
      have h2 : 2 ≤ (p + 1) / 6 := by omega
      have h3 : 11 * ((p + 1) / 6) ≤ p * ((p + 1) / 6) := Nat.mul_le_mul_right _ hp11
      omega
    have hstep := wheel_lane_step p N b7 P (fun k => 6 * k + 1)
      (p * ((p + 1) / 6) - (p + 1) / 6)
      (by omega) (by omega) hsize7
      (fun q hq k hk => dvd_period7 q N k (hqN q hq) hk)
      hinv7
      (fun k hk1 hkN hs hm =>
        prog_dvd_other5 p k hp11 hp5 ((prog_shape p _ k hst1).mpr ⟨hs, hm⟩))
      (fun k hk1 hkN hd => by
        rcases dvd_other_cases5 p k hp11 hp5 hk1 hd with hprog | ⟨m, hm1, hmx, hkey⟩
        · exact Or.inl ((prog_shape p _ k hst1).mp hprog)
        · right
          have hveq : 6 * k + 1 = p * (6 * m - 1) :=
            member_cofactor p k m ((p + 1) / 6) (6 * k + 1) hp11 hm1 hmx hkey
              (Or.inl hx6) ⟨fun _ => rfl, fun h => by omega⟩ hk1
          set r := Nat.minFac (6 * m - 1) with hr
          have hc1 : 6 * m - 1 ≠ 1 := by omega
          have hrp : Nat.Prime r := Nat.minFac_prime hc1
          have hrc : r ∣ 6 * m - 1 := Nat.minFac_dvd _
          have hrd : r ∣ 6 * k + 1 := by
            refine Dvd.dvd.trans hrc ⟨p, ?_⟩
            rw [hveq]; ring
          have hr2 : r ≠ 2 := by
            intro h
            rw [h] at hrc
            omega
          have hr3 : r ≠ 3 := by
            intro h
            rw [h] at hrc
            omega
          have hr4 : r ≠ 4 := by
            intro h
            rw [h] at hrp
            exact absurd hrp (by norm_num)
          have hr5 : 5 ≤ r := by
            have := hrp.two_le
            omega
          have hrlt : r < p := by
            have hle : r ≤ 6 * m - 1 := Nat.minFac_le (by omega)
            omega
          exact ⟨r, hcomp r hrp hr5 hrlt, hrd⟩)
    intro k
    rw [hstep k]
    simp only [List.forall_mem_append, List.forall_mem_singleton]

/-- The wheel-loop body for a prime `p ≡ 1 (mod 6)` (the `else` branch of
`construct_iZm_segment`): x5 is cleared from `p*x_p - x_p` (opposite lane)
and x7 from `x_p` (same lane as `p`). -/
theorem wheel_step1 (p N : Nat) (b5 b7 : BITMAP) (P : List Nat)
    (hpr : Nat.Prime p) (hp11 : 11 ≤ p) (hp1 : p % 6 = 1) (hN : 35 ≤ N)
    (hqN : ∀ q ∈ P, q ∣ N)
    (hcomp : ∀ r, Nat.Prime r → 5 ≤ r → r < p → r ∈ P)
    (hsize5 : N * p + 1 ≤ b5.size) (hsize7 : N * p + 1 ≤ b7.size)
    (hinv5 : wheel_inv5 P N b5) (hinv7 : wheel_inv7 P N b7) :
    wheel_inv5 (P ++ [p]) (N * p)
      (bitmap_clear_mod_p (bitmap_duplicate_segment b5 1 N p) p
        (p * ((p + 1) / 6) - (p + 1) / 6) (N * p + 1)) ∧
    wheel_inv7 (P ++ [p]) (N * p)
      (bitmap_clear_mod_p (bitmap_duplicate_segment b7 1 N p) p ((p + 1) / 6) (N * p + 1)) := by
  have hx6 : 6 * ((p + 1) / 6) = p - 1 := by omega
  constructor
  · have hst1 : 1 ≤ p * ((p + 1) / 6) - (p + 1) / 6 := by
      have h2 : 2 ≤ (p + 1) / 6 := by omega
      have h3 : 11 * ((p + 1) / 6) ≤ p * ((p + 1) / 6) := Nat.mul_le_mul_right _ hp11
      omega
    have hstep := wheel_lane_step p N b5 P (fun k => 6 * k - 1)
      (p * ((p + 1) / 6) - (p + 1) / 6)
      (by omega) (by omega) hsize5
      (fun q hq k hk => dvd_period5 q N k (hqN q hq) hk)
      hinv5
      (fun k hk1 hkN hs hm =>
        prog_dvd_other1 p k hp11 hp1 ((prog_shape p _ k hst1).mpr ⟨hs, hm⟩))
      (fun k hk1 hkN hd => by
        rcases dvd_other_cases1 p k hp11 hp1 hk1 hd with hprog | ⟨m, hm1, hmx, hkey⟩
        · exact Or.inl ((prog_shape p _ k hst1).mp hprog)
        · right
          have hveq : 6 * k - 1 = p * (6 * m - 1) :=
            member_cofactor p k m ((p + 1) / 6) (6 * k - 1) hp11 hm1 hmx hkey
              (Or.inr hx6) ⟨fun h => by omega, fun _ => rfl⟩ hk1
          set r := Nat.minFac (6 * m - 1) with hr
          have hc1 : 6 * m - 1 ≠ 1 := by omega
          have hrp : Nat.Prime r := Nat.minFac_prime hc1
          have hrc : r ∣ 6 * m - 1 := Nat.minFac_dvd _
          have hrd : r ∣ 6 * k - 1 := by
            refine Dvd.dvd.trans hrc ⟨p, ?_⟩
            rw [hveq]; ring
          have hr2 : r ≠ 2 := by
            intro h
            rw [h] at hrc
            omega
          have hr3 : r ≠ 3 := by
            intro h
            rw [h] at hrc
            omega
          have hr4 : r ≠ 4 := by
            intro h
            rw [h] at hrp
            exact absurd hrp (by norm_num)
          have hr5 : 5 ≤ r := by
            have := hrp.two_le
            omega
          have hrlt : r < p := by
            have hle : r ≤ 6 * m - 1 := Nat.minFac_le (by omega)
            omega
          exact ⟨r, hcomp r hrp hr5 hrlt, hrd⟩)
    intro k
    rw [hstep k]
    simp only [List.forall_mem_append, List.forall_mem_singleton]
  · have hstep := wheel_lane_step p N b7 P (fun k => 6 * k + 1) ((p + 1) / 6)
      (by omega) (by omega) hsize7
      (fun q hq k hk => dvd_period7 q N k (hqN q hq) hk)
      hinv7
      (fun k hk1 hkN hs hm =>
        (dvd_prog_same1 p k hp11 hp1).mp ((prog_shape p ((p + 1) / 6) k (by omega)).mpr ⟨hs, hm⟩))
      (fun k hk1 hkN hd =>
        Or.inl ((prog_shape p ((p + 1) / 6) k (by omega)).mp ((dvd_prog_same1 p k hp11 hp1).mpr hd)))
    intro k
    rw [hstep k]
    simp only [List.forall_mem_append, List.forall_mem_singleton]

/-- `isPrimeB` is trial division up to `n - 1`; it decides primality. -/
theorem isPrimeB_iff (n : Nat) : isPrimeB n = true ↔ Nat.Prime n := by
  unfold isPrimeB
  rw [Bool.and_eq_true, decide_eq_true_eq, List.all_eq_true]
  constructor
  · rintro ⟨h2, hall⟩
    rw [Nat.prime_def_lt']
    refine ⟨h2, fun m hm hmn hdvd => ?_⟩
    have hmem : m ∈ List.range' 2 (n - 2) := by
      rw [List.mem_range']
      exact ⟨m - 2, by omega, by omega⟩
    have := hall m hmem
    rw [bne_iff_ne] at this
    exact this (Nat.mod_eq_zero_of_dvd hdvd)
  · intro hp
    refine ⟨hp.two_le, fun d hd => ?_⟩
    rw [List.mem_range'] at hd
    obtain ⟨i, hi, rfl⟩ := hd
    rw [bne_iff_ne]
    intro hmod
    have hdvd : 2 + 1 * i ∣ n := Nat.dvd_of_mod_eq_zero hmod
    rw [Nat.prime_def_lt'] at hp
    exact hp.2 _ (by omega) (by omega) hdvd

/-! Concrete facts about the `s_primes` table, all checked by evaluation. -/

theorem s_primes_facts : ∀ j < 23, 2 ≤ j → isPrimeB (s_primes.getD j 0) = true ∧
    11 ≤ s_primes.getD j 0 ∧ s_primes.getD j 0 ≤ 97 := by decide

theorem s_primes_len : s_primes.length = 23 := by decide

theorem s_primes_take_div : ∀ j < 23, ∀ m < 23, 2 ≤ j → j < m →
    (s_primes.take m).prod % s_primes.getD j 0 = 0 := by decide

theorem s_primes_take_nodiv : ∀ m < 23, 2 ≤ m →
    (s_primes.take m).prod % s_primes.getD m 0 ≠ 0 := by decide

theorem s_primes_take_mono : ∀ j < 23, ∀ m < 23, j ≤ m →
    (s_primes.take j).prod ≤ (s_primes.take m).prod := by decide

theorem s_primes_take_35 : ∀ j < 23, 2 ≤ j → 35 ≤ (s_primes.take j).prod := by decide

set_option synthInstance.maxSize 2000 in
set_option synthInstance.maxHeartbeats 1000000 in
theorem s_primes_complete : ∀ j < 23, 2 ≤ j → ∀ r < 97, isPrimeB r = true →
    5 ≤ r → r < s_primes.getD j 0 → (s_primes.take j).contains r = true := by decide

theorem bitmap_duplicate_segment_size (b : BITMAP) (s N y : Nat) :
    (bitmap_duplicate_segment b s N y).size = b.size := by
  unfold bitmap_duplicate_segment
  split <;> rfl

/-- The wheel loop of `construct_iZm_segment`, entered at index `j` of
`s_primes` with the invariants for the prefix of length `j` holding, ends
with the invariants for the prefix of length `m`, where
`vx = (s_primes.take m).prod` is the primorial being built. -/
theorem iZm_wheel_loop_spec (m : Nat) (hm2 : 2 ≤ m) (hm : m ≤ 22) :
    ∀ (d j : Nat), j + d = m → 2 ≤ j →
    ∀ b5 b7 : BITMAP,
      (s_primes.take m).prod + 1 ≤ b5.size →
      (s_primes.take m).prod + 1 ≤ b7.size →
      wheel_inv5 (s_primes.take j) (s_primes.take j).prod b5 →
      wheel_inv7 (s_primes.take j) (s_primes.take j).prod b7 →
      wheel_inv5 (s_primes.take m) (s_primes.take m).prod
        (iZm_wheel_loop (s_primes.drop j) (s_primes.take m).prod (s_primes.take j).prod b5 b7).1 ∧
      wheel_inv7 (s_primes.take m) (s_primes.take m).prod
        (iZm_wheel_loop (s_primes.drop j) (s_primes.take m).prod (s_primes.take j).prod b5 b7).2 := by
  intro d
  induction d with
  | zero =>
    intro j hjm hj2 b5 b7 hsz5 hsz7 hinv5 hinv7
    have hj : j = m := by omega
    subst hj
    have hjl : j < s_primes.length := by rw [s_primes_len]; omega
    have hgetd : s_primes.getD j 0 = s_primes[j] := List.getD_eq_getElem s_primes 0 hjl
    have hnd : (s_primes.take j).prod % s_primes[j] ≠ 0 := by
      have := s_primes_take_nodiv j (by omega) hj2
      rwa [hgetd] at this
    rw [List.drop_eq_getElem_cons hjl]
    simp only [iZm_wheel_loop]
    rw [if_neg hnd]
    exact ⟨hinv5, hinv7⟩
  | succ d ih =>
    intro j hjm hj2 b5 b7 hsz5 hsz7 hinv5 hinv7
    have hjl : j < s_primes.length := by rw [s_primes_len]; omega
    have hgetd : s_primes.getD j 0 = s_primes[j] := List.getD_eq_getElem s_primes 0 hjl
    obtain ⟨hprim, hp11, hp97⟩ := s_primes_facts j (by rw [s_primes_len] at hjl; omega) hj2
    rw [hgetd] at hprim hp11 hp97
    have hpp : Nat.Prime s_primes[j] := (isPrimeB_iff _).mp hprim
    have hp6 : s_primes[j] % 6 = 1 ∨ s_primes[j] % 6 = 5 := by
      have h2 : s_primes[j] % 2 ≠ 0 := by
        intro h
        have hdvd : 2 ∣ s_primes[j] := Nat.dvd_of_mod_eq_zero h
        have := (Nat.prime_dvd_prime_iff_eq Nat.prime_two hpp).mp hdvd
        omega
      have h3 : s_primes[j] % 3 ≠ 0 := by
        intro h
        have hdvd : 3 ∣ s_primes[j] := Nat.dvd_of_mod_eq_zero h
        have := (Nat.prime_dvd_prime_iff_eq Nat.prime_three hpp).mp hdvd
        omega
      omega
    have hdvd0 : (s_primes.take m).prod % s_primes[j] = 0 := by
      have := s_primes_take_div j (by rw [s_primes_len] at hjl; omega) m (by omega) hj2 (by omega)
      rwa [hgetd] at this
    have hN35 : 35 ≤ (s_primes.take j).prod :=
      s_primes_take_35 j (by rw [s_primes_len] at hjl; omega) hj2
    have hqN : ∀ q ∈ s_primes.take j, q ∣ (s_primes.take j).prod := fun q hq => List.dvd_prod hq
    have hcomp : ∀ r, Nat.Prime r → 5 ≤ r → r < s_primes[j] → r ∈ s_primes.take j := by
      intro r hrp hr5 hrlt
      have hr97 : r < 97 := by omega
      have := s_primes_complete j (by rw [s_primes_len] at hjl; omega) hj2 r hr97
        ((isPrimeB_iff r).mpr hrp) hr5 (by rw [hgetd]; omega)
      exact List.elem_iff.mp this
    have hprodsucc : (s_primes.take (j + 1)).prod = (s_primes.take j).prod * s_primes[j] :=
      List.prod_take_succ s_primes j hjl
    have hmono : (s_primes.take (j + 1)).prod ≤ (s_primes.take m).prod :=
      s_primes_take_mono (j + 1) (by rw [s_primes_len] at hjl; omega) m (by omega) (by omega)
    have hsz5' : (s_primes.take j).prod * s_primes[j] + 1 ≤ b5.size := by omega
    have hsz7' : (s_primes.take j).prod * s_primes[j] + 1 ≤ b7.size := by omega
    have htake : s_primes.take (j + 1) = s_primes.take j ++ [s_primes[j]] := by
      rw [← List.take_concat_get s_primes j hjl, List.concat_eq_append]
    rw [List.drop_eq_getElem_cons hjl]
    simp only [iZm_wheel_loop]
    rw [if_pos hdvd0]
    rcases hp6 with h1 | h5
    · rw [if_neg (by omega : ¬ s_primes[j] % 6 > 1)]
      have hstep := wheel_step1 s_primes[j] ((s_primes.take j).prod) b5 b7 (s_primes.take j)
        hpp hp11 h1 hN35 hqN hcomp hsz5' hsz7' hinv5 hinv7
      rw [← htake, ← hprodsucc] at hstep
      rw [← hprodsucc]
      exact ih (j + 1) (by omega) (by omega) _ _
        (by simpa [bitmap_clear_mod_p, bitmap_duplicate_segment_size] using hsz5)
        (by simpa [bitmap_clear_mod_p, bitmap_duplicate_segment_size] using hsz7)
        hstep.1 hstep.2
    · rw [if_pos (by omega : s_primes[j] % 6 > 1)]
      have hstep := wheel_step5 s_primes[j] ((s_primes.take j).prod) b5 b7 (s_primes.take j)
        hpp hp11 h5 hN35 hqN hcomp hsz5' hsz7' hinv5 hinv7
      rw [← htake, ← hprodsucc] at hstep
      rw [← hprodsucc]
      exact ih (j + 1) (by omega) (by omega) _ _
        (by simpa [bitmap_clear_mod_p, bitmap_duplicate_segment_size] using hsz5)
        (by simpa [bitmap_clear_mod_p, bitmap_duplicate_segment_size] using hsz7)
        hstep.1 hstep.2


theorem construct_vx2_inv (x5 x7 : BITMAP) (h5 : ∀ k, x5.data k = false)
    (h7 : ∀ k, x7.data k = false) :
    wheel_inv5 (s_primes.take 2) (s_primes.take 2).prod (construct_vx2 x5 x7).1 ∧
    wheel_inv7 (s_primes.take 2) (s_primes.take 2).prod (construct_vx2 x5 x7).2 := by
  constructor
  · intro k
    show (if 1 ≤ k ∧ k ≤ 35 ∧ (k - 1) % 5 ≠ 0 ∧ (k + 1) % 7 ≠ 0 then true else x5.data k)
        = true ↔ _
    rw [h5 k]
    simp only [show s_primes.take 2 = [5, 7] from rfl, List.forall_mem_cons,
      List.forall_mem_nil, and_true, List.prod_cons, List.prod_nil]
    by_cases hC : 1 ≤ k ∧ k ≤ 35 ∧ (k - 1) % 5 ≠ 0 ∧ (k + 1) % 7 ≠ 0
    · rw [if_pos hC]
      simp only [true_iff]
      obtain ⟨h1, h2, h3, h4⟩ := hC
      refine ⟨h1, by omega, ?_, ?_, ?_⟩
      · show ¬ (5 : Nat) ∣ 6 * k - 1
        omega
      · show ¬ (7 : Nat) ∣ 6 * k - 1
        omega
      · intro x hx
        exact absurd hx (List.not_mem_nil x)
    · rw [if_neg hC]
      simp only [Bool.false_eq_true, false_iff]
      rintro ⟨h1, h2, hd5, hd7, -⟩
      have hd5' : ¬ (5 : Nat) ∣ 6 * k - 1 := hd5
      have hd7' : ¬ (7 : Nat) ∣ 6 * k - 1 := hd7
      exact hC ⟨h1, by omega, by omega, by omega⟩
  · intro k
    show (if 1 ≤ k ∧ k ≤ 35 ∧ (k + 1) % 5 ≠ 0 ∧ (k - 1) % 7 ≠ 0 then true else x7.data k)
        = true ↔ _
    rw [h7 k]
    simp only [show s_primes.take 2 = [5, 7] from rfl, List.forall_mem_cons,
      List.forall_mem_nil, and_true, List.prod_cons, List.prod_nil]
    by_cases hC : 1 ≤ k ∧ k ≤ 35 ∧ (k + 1) % 5 ≠ 0 ∧ (k - 1) % 7 ≠ 0
    · rw [if_pos hC]
      simp only [true_iff]
      obtain ⟨h1, h2, h3, h4⟩ := hC
      refine ⟨h1, by omega, ?_, ?_, ?_⟩
      · show ¬ (5 : Nat) ∣ 6 * k + 1
        omega
      · show ¬ (7 : Nat) ∣ 6 * k + 1
        omega
      · intro x hx
        exact absurd hx (List.not_mem_nil x)
    · rw [if_neg hC]
      simp only [Bool.false_eq_true, false_iff]
      rintro ⟨h1, h2, hd5, hd7, -⟩
      have hd5' : ¬ (5 : Nat) ∣ 6 * k + 1 := hd5
      have hd7' : ¬ (7 : Nat) ∣ 6 * k + 1 := hd7
      exact hC ⟨h1, by omega, by omega, by omega⟩

theorem construct_iZm_segment_inv (m : Nat) (hm2 : 2 ≤ m) (hm : m ≤ 22) (S5 S7 : Nat)
    (hs5 : (s_primes.take m).prod + 1 ≤ S5) (hs7 : (s_primes.take m).prod + 1 ≤ S7) :
    wheel_inv5 (s_primes.take m) (s_primes.take m).prod
      (construct_iZm_segment (s_primes.take m).prod (bitmap_create S5) (bitmap_create S7)).1 ∧
    wheel_inv7 (s_primes.take m) (s_primes.take m).prod
      (construct_iZm_segment (s_primes.take m).prod (bitmap_create S5) (bitmap_create S7)).2 := by
  have hbase := construct_vx2_inv (bitmap_create S5) (bitmap_create S7)
    (fun _ => rfl) (fun _ => rfl)
  show wheel_inv5 _ _ (iZm_wheel_loop (s_primes.drop 2) (s_primes.take m).prod 35
      (construct_vx2 (bitmap_create S5) (bitmap_create S7)).1
      (construct_vx2 (bitmap_create S5) (bitmap_create S7)).2).1 ∧
    wheel_inv7 _ _ (iZm_wheel_loop (s_primes.drop 2) (s_primes.take m).prod 35
      (construct_vx2 (bitmap_create S5) (bitmap_create S7)).1
      (construct_vx2 (bitmap_create S5) (bitmap_create S7)).2).2
  rw [show (35 : Nat) = (s_primes.take 2).prod from rfl]
  exact iZm_wheel_loop_spec m hm2 hm (m - 2) 2 (by omega) (by omega) _ _ hs5 hs7
    hbase.1 hbase.2


theorem s_primes_all_prime : ∀ p ∈ s_primes, isPrimeB p = true := by decide

/-- Claim C5 (corrected): the cross-check of the wheel pattern built by
`construct_iZm_segment` for a primorial `vx` of the small primes starting
at 5 holds PER LANE, not for the union of lanes: bit `k` of x5 is set iff
`1 ≤ k ≤ vx` and no prime dividing `vx` divides `6k - 1`, and bit `k` of x7
is set iff `1 ≤ k ≤ vx` and no prime dividing `vx` divides `6k + 1`.  The
union version asserted by the specification is refuted by
`C5_counterexample`. -/
theorem C5_wheel_per_lane (m : Nat) (hm2 : 2 ≤ m) (hm : m ≤ 22) (S5 S7 : Nat)
    (hs5 : (s_primes.take m).prod + 1 ≤ S5) (hs7 : (s_primes.take m).prod + 1 ≤ S7) :
    ∀ k,
      (bitmap_get_bit
          (construct_iZm_segment (s_primes.take m).prod (bitmap_create S5) (bitmap_create S7)).1 k
          = true ↔
        1 ≤ k ∧ k ≤ (s_primes.take m).prod ∧
          ∀ q, Nat.Prime q → q ∣ (s_primes.take m).prod → ¬ q ∣ 6 * k - 1) ∧
      (bitmap_get_bit
          (construct_iZm_segment (s_primes.take m).prod (bitmap_create S5) (bitmap_create S7)).2 k
          = true ↔
        1 ≤ k ∧ k ≤ (s_primes.take m).prod ∧
          ∀ q, Nat.Prime q → q ∣ (s_primes.take m).prod → ¬ q ∣ 6 * k + 1) := by
  obtain ⟨hi5, hi7⟩ := construct_iZm_segment_inv m hm2 hm S5 S7 hs5 hs7
  have hbridge : ∀ v : Nat, (∀ q ∈ s_primes.take m, ¬ q ∣ v) ↔
      (∀ q, Nat.Prime q → q ∣ (s_primes.take m).prod → ¬ q ∣ v) := by
    intro v
    constructor
    · intro h q hq hqd
      obtain ⟨a, haM, hqa⟩ := (Prime.dvd_prod_iff hq.prime).mp hqd
      have hap : Nat.Prime a :=
        (isPrimeB_iff a).mp (s_primes_all_prime a (List.mem_of_mem_take haM))
      have hqe : q = a := (Nat.prime_dvd_prime_iff_eq hq hap).mp hqa
      rw [hqe]
      exact h a haM
    · intro h q hq
      have hqp : Nat.Prime q :=
        (isPrimeB_iff q).mp (s_primes_all_prime q (List.mem_of_mem_take hq))
      exact h q hqp (List.dvd_prod hq)
  intro k
  constructor
  · show (construct_iZm_segment (s_primes.take m).prod (bitmap_create S5)
        (bitmap_create S7)).1.data k = true ↔ _
    rw [hi5 k]
    constructor
    · rintro ⟨h1, h2, h3⟩
      exact ⟨h1, h2, (hbridge _).mp h3⟩
    · rintro ⟨h1, h2, h3⟩
      exact ⟨h1, h2, (hbridge _).mpr h3⟩
  · show (construct_iZm_segment (s_primes.take m).prod (bitmap_create S5)
        (bitmap_create S7)).2.data k = true ↔ _
    rw [hi7 k]
    constructor
    · rintro ⟨h1, h2, h3⟩
      exact ⟨h1, h2, (hbridge _).mp h3⟩
    · rintro ⟨h1, h2, h3⟩
      exact ⟨h1, h2, (hbridge _).mpr h3⟩

/-- Witness for the corrected C5 at `m = 2` (`vx = 35`, buffers of 45 bits as
in `sieve_iZm`), index `k = 3`: the x5 bit is set and indeed no prime
dividing 35 divides `6·3 - 1 = 17`. -/
theorem C5_wheel_per_lane_witness :
    2 ≤ 2 ∧ 2 ≤ 22 ∧ (s_primes.take 2).prod + 1 ≤ 45 ∧
      (1 ≤ 3 ∧ 3 ≤ (s_primes.take 2).prod ∧
        ∀ q, Nat.Prime q → q ∣ (s_primes.take 2).prod → ¬ q ∣ 6 * 3 - 1) :=
  ⟨by decide, by decide, by decide,
    ((C5_wheel_per_lane 2 (by decide) (by decide) 45 45 (by decide) (by decide) 3).1).mp
      (by decide)⟩

/-- Claim C5 counterexample against the union phrasing: for `vx = 35` the
x7 bit at index 6 is set (`6·6 + 1 = 37` is coprime to 35), so 6 is in the
union of set bits, yet the prime 5 divides both `vx = 35` and
`6·6 - 1 = 35` — the union is NOT the claimed set
`{x : neither 6x-1 nor 6x+1 is divisible by any prime dividing vx}`. -/
theorem C5_counterexample :
    (bitmap_get_bit (construct_iZm_segment 35 (bitmap_create 45) (bitmap_create 45)).1 6 = true ∨
      bitmap_get_bit (construct_iZm_segment 35 (bitmap_create 45) (bitmap_create 45)).2 6 = true) ∧
      Nat.Prime 5 ∧ 5 ∣ 35 ∧ 5 ∣ 6 * 6 - 1 := by
  refine ⟨by decide, ?_, by decide, by decide⟩
  norm_num


/-! ### Survival machinery for the sieves -/

def zIdx (z : Nat) : Nat := (z + 1) / 6

def cmin (z : Nat) : Nat := if z % 6 = 1 then z - 2 else z

/-- `z` clears the lane value `v`: `v` is a multiple of `z` at or beyond the
first value the progressions of `z` touch. -/
def clears (z v : Nat) : Prop := z ∣ v ∧ z * cmin z ≤ v

/-- The value `v` is still alive before step `c` of a sieve whose root test
is `root`: no prime `z` passing the root test at an index below `c` clears
it. -/
def aliveG (root : Nat → Prop) (c v : Nat) : Prop :=
  ¬ ∃ z, Nat.Prime z ∧ root z ∧ zIdx z < c ∧ clears z v

/-- Final survival: `v` is prime, or its least factor fails the root test. -/
def survG (root : Nat → Prop) (v : Nat) : Prop := Nat.Prime v ∨ ¬ root (Nat.minFac v)

instance survG_dec (root : Nat → Prop) [DecidablePred root] (v : Nat) :
    Decidable (survG root v) :=
  decidable_of_iff (isPrimeB v = true ∨ ¬ root (Nat.minFac v))
    (by unfold survG; rw [isPrimeB_iff])

theorem prime_ge5_mod6 (z : Nat) (hz : Nat.Prime z) (h5 : 5 ≤ z) :
    z % 6 = 1 ∨ z % 6 = 5 := by
  have h2 : z % 2 ≠ 0 := by
    intro h
    have hdvd : 2 ∣ z := Nat.dvd_of_mod_eq_zero h
    have := (Nat.prime_dvd_prime_iff_eq Nat.prime_two hz).mp hdvd
    omega
  have h3 : z % 3 ≠ 0 := by
    intro h
    have hdvd : 3 ∣ z := Nat.dvd_of_mod_eq_zero h
    have := (Nat.prime_dvd_prime_iff_eq Nat.prime_three hz).mp hdvd
    omega
  omega

theorem lane_prime_factor (v q : Nat) (hv6 : v % 6 = 5 ∨ v % 6 = 1)
    (hq : Nat.Prime q) (hqd : q ∣ v) : 5 ≤ q := by
  have h2 : q ≠ 2 := by
    rintro rfl
    obtain ⟨c, hc⟩ := hqd
    omega
  have h3 : q ≠ 3 := by
    rintro rfl
    obtain ⟨c, hc⟩ := hqd
    omega
  have h4 : q ≠ 4 := by
    rintro rfl
    exact absurd hq (by norm_num)
  have := hq.two_le
  omega

theorem aliveG_iff (root : Nat → Prop) (hmono : ∀ a b, a ≤ b → root b → root a)
    (x v : Nat) (hx : 1 ≤ x) (hv : v + 1 = 6 * x ∨ v = 6 * x + 1) :
    aliveG root x v ↔ survG root v := by
  have hv6 : v % 6 = 5 ∨ v % 6 = 1 := by omega
  have hv5 : 5 ≤ v := by omega
  have hvIdx : zIdx v = x := by unfold zIdx; omega
  constructor
  · intro halive
    by_contra hns
    rw [survG] at hns
    push_neg at hns
    obtain ⟨hnp, hroot⟩ := hns
    have hqp : Nat.Prime (Nat.minFac v) := Nat.minFac_prime (by omega)
    have hqd : Nat.minFac v ∣ v := Nat.minFac_dvd v
    have hq5 : 5 ≤ Nat.minFac v := lane_prime_factor v _ hv6 hqp hqd
    have hqsq : Nat.minFac v * Nat.minFac v ≤ v := by
      have h := Nat.minFac_sq_le_self (by omega) hnp
      rw [pow_two] at h
      exact h
    have hclears : clears (Nat.minFac v) v := by
      refine ⟨hqd, ?_⟩
      have h1 : Nat.minFac v * cmin (Nat.minFac v) ≤ Nat.minFac v * Nat.minFac v :=
        Nat.mul_le_mul_left _ (by unfold cmin; split <;> omega)
      omega
    have hqx : zIdx (Nat.minFac v) < x := by
      unfold zIdx
      have h5q : 5 * Nat.minFac v ≤ Nat.minFac v * Nat.minFac v :=
        Nat.mul_le_mul_right _ hq5
      omega
    exact halive ⟨Nat.minFac v, hqp, hroot, hqx, hclears⟩
  · intro hs hex
    obtain ⟨z, hzp, hzr, hzx, hcl⟩ := hex
    obtain ⟨hzd, hzb⟩ := hcl
    rcases hs with hvp | hnr
    · have hzv : z = v := (Nat.prime_dvd_prime_iff_eq hzp hvp).mp hzd
      rw [hzv, hvIdx] at hzx
      omega
    · have hle : Nat.minFac v ≤ z := Nat.minFac_le_of_dvd hzp.two_le hzd
      exact hnr (hmono _ _ hle hzr)

/-! Sieve progressions: the indices cleared by `bitmap_clear_mod_p` starting
at `z*x ± x` with step `z` are exactly the indices whose lane value `z`
clears. -/

theorem sieve_prog_own5 (z x k : Nat) (hx : 1 ≤ x) (hz : z + 1 = 6 * x) :
    (∃ j, k = z * x + x + j * z) ↔ z ∣ 6 * k - 1 ∧ z * (z + 2) ≤ 6 * k - 1 := by
  have hz5 : 5 ≤ z := by omega
  constructor
  · rintro ⟨j, rfl⟩
    have e1 : z * (z + 2 + 6 * j) = z * z + 2 * z + 6 * (j * z) := by ring
    have e2 : 6 * (z * x) = z * (6 * x) := by ring
    have e3 : z * (6 * x) = z * (z + 1) := by rw [hz]
    have e4 : z * (z + 1) = z * z + z := by ring
    have e5 : z * (z + 2) = z * z + 2 * z := by ring
    refine ⟨⟨z + 2 + 6 * j, by omega⟩, by omega⟩
  · rintro ⟨⟨c, hc⟩, hbound⟩
    have hzm : z % 6 = 5 := by omega
    have hmod : (z * c) % 6 = 5 * (c % 6) % 6 := by rw [Nat.mul_mod, hzm]
    have hpos : 0 < z * (z + 2) := Nat.mul_pos (by omega) (by omega)
    have hc6 : c % 6 = 1 := by omega
    rw [hc] at hbound
    have hcz : z + 2 ≤ c := Nat.le_of_mul_le_mul_left hbound (by omega)
    refine ⟨(c - 1) / 6 - x, ?_⟩
    set t := (c - 1) / 6 with ht
    have hct : c = 6 * t + 1 := by omega
    have htx : x ≤ t := by omega
    have e1 : z * c = 6 * (z * t) + z := by
      rw [hct]; ring
    have e2 : (t - x) * z = t * z - x * z := Nat.sub_mul _ _ _
    have e3 : x * z ≤ t * z := Nat.mul_le_mul_right _ htx
    have e4 : z * x = x * z := Nat.mul_comm _ _
    have e5 : z * t = t * z := Nat.mul_comm _ _
    omega

theorem sieve_prog_other5 (z x k : Nat) (hx : 1 ≤ x) (hz : z + 1 = 6 * x) :
    (∃ j, k = z * x - x + j * z) ↔ z ∣ 6 * k + 1 ∧ z * z ≤ 6 * k + 1 := by
  have hz5 : 5 ≤ z := by omega
  have hxz : x ≤ z * x := Nat.le_mul_of_pos_left _ (by omega)
  constructor
  · rintro ⟨j, rfl⟩
    have e1 : z * (z + 6 * j) = z * z + 6 * (j * z) := by ring
    have e2 : 6 * (z * x) = z * (6 * x) := by ring
    have e3 : z * (6 * x) = z * (z + 1) := by rw [hz]
    have e4 : z * (z + 1) = z * z + z := by ring
    refine ⟨⟨z + 6 * j, by omega⟩, by omega⟩
  · rintro ⟨⟨c, hc⟩, hbound⟩
    have hzm : z % 6 = 5 := by omega
    have hmod : (z * c) % 6 = 5 * (c % 6) % 6 := by rw [Nat.mul_mod, hzm]
    have hpos : 0 < z * z := Nat.mul_pos (by omega) (by omega)
    have hc6 : c % 6 = 5 := by omega
    rw [hc] at hbound
    have hcz : z ≤ c := Nat.le_of_mul_le_mul_left hbound (by omega)
    refine ⟨(c + 1) / 6 - x, ?_⟩
    set t := (c + 1) / 6 with ht
    have hct : c + 1 = 6 * t := by omega
    have htx : x ≤ t := by omega
    have e1 : z * c + z = 6 * (z * t) := by
      have : z * c + z = z * (c + 1) := by ring
      rw [this, hct]; ring
    have e2 : (t - x) * z = t * z - x * z := Nat.sub_mul _ _ _
    have e3 : x * z ≤ t * z := Nat.mul_le_mul_right _ htx
    have e4 : z * x = x * z := Nat.mul_comm _ _
    have e5 : z * t = t * z := Nat.mul_comm _ _
    omega

theorem sieve_prog_own7 (z x k : Nat) (hx : 1 ≤ x) (hz : z = 6 * x + 1) :
    (∃ j, k = z * x + x + j * z) ↔ z ∣ 6 * k + 1 ∧ z * z ≤ 6 * k + 1 := by
  have hz5 : 5 ≤ z := by omega
  constructor
  · rintro ⟨j, rfl⟩
    have e1 : z * (z + 6 * j) = z * z + 6 * (j * z) := by ring
    have e2 : 6 * (z * x) = z * (6 * x) := by ring
    have e3 : z * (6 * x) = z * (z - 1) := by rw [show 6 * x = z - 1 by omega]
    have e4 : z * (z - 1) + z = z * z := by
      have h : z * (z - 1) + z * 1 = z * ((z - 1) + 1) := by ring
      rw [Nat.mul_one] at h
      rw [h, Nat.sub_add_cancel (by omega)]
    refine ⟨⟨z + 6 * j, by omega⟩, by omega⟩
  · rintro ⟨⟨c, hc⟩, hbound⟩
    have hzm : z % 6 = 1 := by omega
    have hmod : (z * c) % 6 = 1 * (c % 6) % 6 := by rw [Nat.mul_mod, hzm]
    have hpos : 0 < z * z := Nat.mul_pos (by omega) (by omega)
    have hc6 : c % 6 = 1 := by omega
    rw [hc] at hbound
    have hcz : z ≤ c := Nat.le_of_mul_le_mul_left hbound (by omega)
    refine ⟨(c - 1) / 6 - x, ?_⟩
    set t := (c - 1) / 6 with ht
    have hct : c = 6 * t + 1 := by omega
    have htx : x ≤ t := by omega
    have e1 : z * c = 6 * (z * t) + z := by
      rw [hct]; ring
    have e2 : (t - x) * z = t * z - x * z := Nat.sub_mul _ _ _
    have e3 : x * z ≤ t * z := Nat.mul_le_mul_right _ htx
    have e4 : z * x = x * z := Nat.mul_comm _ _
    have e5 : z * t = t * z := Nat.mul_comm _ _
    omega

theorem sieve_prog_other7 (z x k : Nat) (hx : 1 ≤ x) (hz : z = 6 * x + 1) :
    (∃ j, k = z * x - x + j * z) ↔ z ∣ 6 * k - 1 ∧ z * (z - 2) ≤ 6 * k - 1 := by
  have hz5 : 5 ≤ z := by omega
  have hxz : x ≤ z * x := Nat.le_mul_of_pos_left _ (by omega)
  constructor
  · rintro ⟨j, rfl⟩
    have e1 : z * (z - 2 + 6 * j) = z * (z - 2) + 6 * (j * z) := by ring
    have e2 : 6 * (z * x) = z * (6 * x) := by ring
    have e3 : z * (6 * x) = z * (z - 1) := by rw [show 6 * x = z - 1 by omega]
    have e4 : z * (z - 1) + z = z * z := by
      have h : z * (z - 1) + z * 1 = z * ((z - 1) + 1) := by ring
      rw [Nat.mul_one] at h
      rw [h, Nat.sub_add_cancel (by omega)]
    have e5 : z * (z - 2) + 2 * z = z * z := by
      have h : z * (z - 2) + 2 * z = z * ((z - 2) + 2) := by ring
      rw [h, Nat.sub_add_cancel (by omega : 2 ≤ z)]
    refine ⟨⟨z - 2 + 6 * j, by omega⟩, by omega⟩
  · rintro ⟨⟨c, hc⟩, hbound⟩
    have hzm : z % 6 = 1 := by omega
    have hmod : (z * c) % 6 = 1 * (c % 6) % 6 := by rw [Nat.mul_mod, hzm]
    have hpos : 0 < z * (z - 2) := Nat.mul_pos (by omega) (by omega)
    have hc6 : c % 6 = 5 := by omega
    rw [hc] at hbound
    have hcz : z - 2 ≤ c := Nat.le_of_mul_le_mul_left hbound (by omega)
    refine ⟨(c + 1) / 6 - x, ?_⟩
    set t := (c + 1) / 6 with ht
    have hct : c + 1 = 6 * t := by omega
    have htx : x ≤ t := by omega
    have e1 : z * c + z = 6 * (z * t) := by
      have h : z * c + z = z * (c + 1) := by ring
      rw [h, hct]; ring
    have e2 : (t - x) * z = t * z - x * z := Nat.sub_mul _ _ _
    have e3 : x * z ≤ t * z := Nat.mul_le_mul_right _ htx
    have e4 : z * x = x * z := Nat.mul_comm _ _
    have e5 : z * t = t * z := Nat.mul_comm _ _
    omega


theorem sorted_mem_eq (l₁ l₂ : List Nat) (h₁ : List.Sorted (· < ·) l₁)
    (h₂ : List.Sorted (· < ·) l₂) (hm : ∀ a, a ∈ l₁ ↔ a ∈ l₂) : l₁ = l₂ :=
  List.eq_of_perm_of_sorted ((List.perm_ext_iff_of_nodup h₁.nodup h₂.nodup).mpr hm) h₁ h₂

theorem sorted_flatMap (f : Nat → List Nat) (lo : Nat) :
    ∀ len, (∀ x, List.Sorted (· < ·) (f x)) →
    (∀ a b, lo ≤ a → a < b → b < lo + len → ∀ u ∈ f a, ∀ v ∈ f b, u < v) →
    List.Sorted (· < ·) ((List.range' lo len).flatMap f) := by
  intro len
  induction len with
  | zero => intro _ _; simp
  | succ len ih =>
    intro hchunk hsep
    rw [List.range'_concat, List.flatMap_append]
    show List.Pairwise _ _
    rw [List.pairwise_append]
    refine ⟨ih hchunk (fun a b ha hab hb => hsep a b ha hab (by omega)), ?_, ?_⟩
    · simp only [List.flatMap_cons, List.flatMap_nil, List.append_nil]
      exact hchunk _
    · intro u hu v hv
      simp only [List.flatMap_cons, List.flatMap_nil, List.append_nil] at hv
      rw [List.mem_flatMap] at hu
      obtain ⟨a, ha, hua⟩ := hu
      rw [List.mem_range'] at ha
      obtain ⟨i, hi, rfl⟩ := ha
      exact hsep _ _ (by omega) (by omega) (by omega) u hua v hv

theorem primesUpTo_mem (n v : Nat) : v ∈ primesUpTo n ↔ Nat.Prime v ∧ v ≤ n := by
  unfold primesUpTo
  rw [List.mem_filter, List.mem_range, isPrimeB_iff]
  constructor
  · rintro ⟨h1, h2⟩
    exact ⟨h2, by omega⟩
  · rintro ⟨h1, h2⟩
    exact ⟨by omega, h1⟩

theorem primesUpTo_sorted (n : Nat) : List.Sorted (· < ·) (primesUpTo n) :=
  List.Pairwise.filter _ (List.pairwise_lt_range _)

theorem dropWhile_all (p : Nat → Bool) (l₁ l₂ : List Nat) (h : ∀ a ∈ l₁, p a = true) :
    (l₁ ++ l₂).dropWhile p = l₂.dropWhile p := by
  induction l₁ with
  | nil => rfl
  | cons a t ih =>
    rw [List.cons_append, List.dropWhile_cons]
    rw [h a (by simp)]
    exact ih (fun b hb => h b (by simp [hb]))

theorem trimTail_spec (P Q : List Nat) (n : Nat) (hQ : ∀ q ∈ Q, n < q)
    (hPne : P ≠ []) (hPle : ∀ a ∈ P, a ≤ n) : trimTail (P ++ Q) n = P := by
  unfold trimTail
  rw [List.reverse_append, dropWhile_all _ _ _
    (fun a ha => by
      rw [List.mem_reverse] at ha
      simpa using hQ a ha)]
  rcases hrev : P.reverse with _ | ⟨a, t⟩
  · exact absurd (by simpa using congrArg List.reverse hrev) hPne
  · have haP : a ∈ P := by
      rw [← List.mem_reverse, hrev]
      simp
    have : ¬ n < a := by
      have := hPle a haP
      omega
    rw [List.dropWhile_cons, if_neg (by simp [this])]
    rw [← hrev, List.reverse_reverse]

theorem getLastD_mem (P : List Nat) (hP : P ≠ []) : P.getLastD 0 ∈ P := by
  rw [List.getLastD_eq_getLast?, List.getLast?_eq_getLast P hP, Option.getD_some]
  exact List.getLast_mem hP

/-- The list the main loop of `sieve_iZ` (and the first segment of
`sieve_iZm`) collects after the steps `x ∈ [1, X]`: at each index both lane
values, `6x - 1` first, each kept iff it survives. -/
def survBody (root : Nat → Prop) [DecidablePred root] (X : Nat) : List Nat :=
  (List.range' 1 X).flatMap fun x =>
    (if survG root (6 * x - 1) then [6 * x - 1] else []) ++
    (if survG root (6 * x + 1) then [6 * x + 1] else [])

theorem survBody_concat (root : Nat → Prop) [DecidablePred root] (X : Nat) :
    survBody root (X + 1) = survBody root X ++
      ((if survG root (6 * (X + 1) - 1) then [6 * (X + 1) - 1] else []) ++
       (if survG root (6 * (X + 1) + 1) then [6 * (X + 1) + 1] else [])) := by
  unfold survBody
  rw [List.range'_concat, List.flatMap_append]
  simp [Nat.add_comm 1 X]

theorem survBody_mem (root : Nat → Prop) [DecidablePred root] (X v : Nat) :
    v ∈ survBody root X ↔
      ∃ x, 1 ≤ x ∧ x ≤ X ∧ (v + 1 = 6 * x ∨ v = 6 * x + 1) ∧ survG root v := by
  unfold survBody
  rw [List.mem_flatMap]
  constructor
  · rintro ⟨x, hx, hv⟩
    rw [List.mem_range'] at hx
    obtain ⟨i, hi, rfl⟩ := hx
    rw [List.mem_append] at hv
    rcases hv with hv | hv <;> rcases Decidable.em (survG root (6 * (1 + i) - 1)) with h5 | h5 <;>
      rcases Decidable.em (survG root (6 * (1 + i) + 1)) with h7 | h7 <;>
      simp [h5, h7] at hv <;>
      · subst hv
        exact ⟨1 + i, by omega, by omega, by omega, by assumption⟩
  · rintro ⟨x, hx1, hxX, hv, hs⟩
    refine ⟨x, by rw [List.mem_range']; exact ⟨x - 1, by omega, by omega⟩, ?_⟩
    rw [List.mem_append]
    rcases hv with hv | hv
    · left
      have hveq : v = 6 * x - 1 := by omega
      rw [if_pos (hveq ▸ hs), hveq]
      simp
    · right
      have hveq : v = 6 * x + 1 := by omega
      rw [if_pos (hveq ▸ hs), hveq]
      simp

theorem survBody_sorted (root : Nat → Prop) [DecidablePred root] (X : Nat) :
    List.Sorted (· < ·) (survBody root X) := by
  unfold survBody
  apply sorted_flatMap
  · intro x
    rcases Decidable.em (survG root (6 * x - 1)) with h5 | h5 <;>
      rcases Decidable.em (survG root (6 * x + 1)) with h7 | h7 <;>
      simp [h5, h7] <;> omega
  · intro a b ha hab hb u hu v hv
    have hu' : u = 6 * a - 1 ∨ u = 6 * a + 1 := by
      rw [List.mem_append] at hu
      rcases hu with hu | hu <;> [skip; skip] <;>
        rcases Decidable.em (survG root (6 * a - 1)) with h | h <;>
        rcases Decidable.em (survG root (6 * a + 1)) with h' | h' <;>
        simp [h, h'] at hu <;> omega
    have hv' : v = 6 * b - 1 ∨ v = 6 * b + 1 := by
      rw [List.mem_append] at hv
      rcases hv with hv | hv <;> [skip; skip] <;>
        rcases Decidable.em (survG root (6 * b - 1)) with h | h <;>
        rcases Decidable.em (survG root (6 * b + 1)) with h' | h' <;>
        simp [h, h'] at hv <;> omega
    omega


theorem clears_def5 (z v : Nat) (hz : z % 6 = 5) :
    clears z v ↔ z ∣ v ∧ z * z ≤ v := by
  unfold clears cmin
  rw [if_neg (by omega)]

theorem clears_def1 (z v : Nat) (hz : z % 6 = 1) :
    clears z v ↔ z ∣ v ∧ z * (z - 2) ≤ v := by
  unfold clears cmin
  rw [if_pos hz]

theorem clears_own5_iff (z v : Nat) (hz : z % 6 = 5) (hz5 : 5 ≤ z) (hv : v % 6 = 5) :
    (z ∣ v ∧ z * (z + 2) ≤ v) ↔ clears z v := by
  rw [clears_def5 z v hz]
  constructor
  · rintro ⟨hd, hb⟩
    have h1 : z * z ≤ z * (z + 2) := Nat.mul_le_mul_left _ (by omega)
    exact ⟨hd, by omega⟩
  · rintro ⟨⟨c, hc⟩, hb⟩
    refine ⟨⟨c, hc⟩, ?_⟩
    have hmod : (z * c) % 6 = 5 * (c % 6) % 6 := by rw [Nat.mul_mod, hz]
    have hc6 : c % 6 = 1 := by omega
    have hb' : z * z ≤ z * c := by omega
    have hcz : z ≤ c := Nat.le_of_mul_le_mul_left hb' (by omega)
    have hcz2 : z + 2 ≤ c := by omega
    have h2 : z * (z + 2) ≤ z * c := Nat.mul_le_mul_left _ hcz2
    omega

theorem clears_own7_iff (z v : Nat) (hz : z % 6 = 1) (hz5 : 5 ≤ z) (hv : v % 6 = 1) :
    (z ∣ v ∧ z * z ≤ v) ↔ clears z v := by
  rw [clears_def1 z v hz]
  constructor
  · rintro ⟨⟨c, hc⟩, hb⟩
    have h1 : z * (z - 2) ≤ z * z := Nat.mul_le_mul_left _ (by omega)
    exact ⟨⟨c, hc⟩, by omega⟩
  · rintro ⟨⟨c, hc⟩, hb⟩
    refine ⟨⟨c, hc⟩, ?_⟩
    have hmod : (z * c) % 6 = 1 * (c % 6) % 6 := by rw [Nat.mul_mod, hz]
    have hc6 : c % 6 = 1 := by omega
    have hb' : z * (z - 2) ≤ z * c := by omega
    have hcz : z - 2 ≤ c := Nat.le_of_mul_le_mul_left hb' (by omega)
    have hcz2 : z ≤ c := by omega
    have h2 : z * z ≤ z * c := Nat.mul_le_mul_left _ hcz2
    omega

theorem clear_own5_data (b : BITMAP) (z x x_n k : Nat) (hx : 1 ≤ x) (hz : z + 1 = 6 * x)
    (hk1 : 1 ≤ k) (hk : k ≤ x_n) :
    ((bitmap_clear_mod_p b z (z * x + x) x_n).data k = true) ↔
      (b.data k = true ∧ ¬ clears z (6 * k - 1)) := by
  have hs1 : 1 ≤ z * x + x := by omega
  have hcond : (z * x + x ≤ k ∧ k ≤ x_n ∧ (k - (z * x + x)) % z = 0) ↔ clears z (6 * k - 1) := by
    constructor
    · rintro ⟨h1, h2, h3⟩
      have hex : ∃ j, k = z * x + x + j * z := (prog_shape z (z * x + x) k hs1).mpr ⟨h1, h3⟩
      have hp := (sieve_prog_own5 z x k hx hz).mp hex
      exact (clears_own5_iff z (6 * k - 1) (by omega) (by omega) (by omega)).mp hp
    · intro hc
      have hp := (clears_own5_iff z (6 * k - 1) (by omega) (by omega) (by omega)).mpr hc
      have hex := (sieve_prog_own5 z x k hx hz).mpr hp
      have hsh := (prog_shape z (z * x + x) k hs1).mp hex
      exact ⟨hsh.1, hk, hsh.2⟩
  show (if z * x + x ≤ k ∧ k ≤ x_n ∧ (k - (z * x + x)) % z = 0 then false else b.data k)
      = true ↔ _
  by_cases hc : clears z (6 * k - 1)
  · rw [if_pos (hcond.mpr hc)]
    simp [hc]
  · rw [if_neg (fun h => hc (hcond.mp h))]
    simp [hc]

theorem clear_other5_data (b : BITMAP) (z x x_n k : Nat) (hx : 1 ≤ x) (hz : z + 1 = 6 * x)
    (hk1 : 1 ≤ k) (hk : k ≤ x_n) :
    ((bitmap_clear_mod_p b z (z * x - x) x_n).data k = true) ↔
      (b.data k = true ∧ ¬ clears z (6 * k + 1)) := by
  have hxz : 5 * x ≤ z * x := Nat.mul_le_mul_right _ (by omega)
  have hs1 : 1 ≤ z * x - x := by omega
  have hcond : (z * x - x ≤ k ∧ k ≤ x_n ∧ (k - (z * x - x)) % z = 0) ↔ clears z (6 * k + 1) := by
    constructor
    · rintro ⟨h1, h2, h3⟩
      have hex : ∃ j, k = z * x - x + j * z := (prog_shape z (z * x - x) k hs1).mpr ⟨h1, h3⟩
      have hp := (sieve_prog_other5 z x k hx hz).mp hex
      exact (clears_def5 z (6 * k + 1) (by omega)).mpr hp
    · intro hc
      have hp := (clears_def5 z (6 * k + 1) (by omega)).mp hc
      have hex := (sieve_prog_other5 z x k hx hz).mpr hp
      have hsh := (prog_shape z (z * x - x) k hs1).mp hex
      exact ⟨hsh.1, hk, hsh.2⟩
  show (if z * x - x ≤ k ∧ k ≤ x_n ∧ (k - (z * x - x)) % z = 0 then false else b.data k)
      = true ↔ _
  by_cases hc : clears z (6 * k + 1)
  · rw [if_pos (hcond.mpr hc)]
    simp [hc]
  · rw [if_neg (fun h => hc (hcond.mp h))]
    simp [hc]

theorem clear_own7_data (b : BITMAP) (z x x_n k : Nat) (hx : 1 ≤ x) (hz : z = 6 * x + 1)
    (hk1 : 1 ≤ k) (hk : k ≤ x_n) :
    ((bitmap_clear_mod_p b z (z * x + x) x_n).data k = true) ↔
      (b.data k = true ∧ ¬ clears z (6 * k + 1)) := by
  have hs1 : 1 ≤ z * x + x := by omega
  have hcond : (z * x + x ≤ k ∧ k ≤ x_n ∧ (k - (z * x + x)) % z = 0) ↔ clears z (6 * k + 1) := by
    constructor
    · rintro ⟨h1, h2, h3⟩
      have hex : ∃ j, k = z * x + x + j * z := (prog_shape z (z * x + x) k hs1).mpr ⟨h1, h3⟩
      have hp := (sieve_prog_own7 z x k hx hz).mp hex
      exact (clears_own7_iff z (6 * k + 1) (by omega) (by omega) (by omega)).mp hp
    · intro hc
      have hp := (clears_own7_iff z (6 * k + 1) (by omega) (by omega) (by omega)).mpr hc
      have hex := (sieve_prog_own7 z x k hx hz).mpr hp
      have hsh := (prog_shape z (z * x + x) k hs1).mp hex
      exact ⟨hsh.1, hk, hsh.2⟩
  show (if z * x + x ≤ k ∧ k ≤ x_n ∧ (k - (z * x + x)) % z = 0 then false else b.data k)
      = true ↔ _
  by_cases hc : clears z (6 * k + 1)
  · rw [if_pos (hcond.mpr hc)]
    simp [hc]
  · rw [if_neg (fun h => hc (hcond.mp h))]
    simp [hc]

theorem clear_other7_data (b : BITMAP) (z x x_n k : Nat) (hx : 1 ≤ x) (hz : z = 6 * x + 1)
    (hk1 : 1 ≤ k) (hk : k ≤ x_n) :
    ((bitmap_clear_mod_p b z (z * x - x) x_n).data k = true) ↔
      (b.data k = true ∧ ¬ clears z (6 * k - 1)) := by
  have hxz : 5 * x ≤ z * x := Nat.mul_le_mul_right _ (by omega)
  have hs1 : 1 ≤ z * x - x := by omega
  have hcond : (z * x - x ≤ k ∧ k ≤ x_n ∧ (k - (z * x - x)) % z = 0) ↔ clears z (6 * k - 1) := by
    constructor
    · rintro ⟨h1, h2, h3⟩
      have hex : ∃ j, k = z * x - x + j * z := (prog_shape z (z * x - x) k hs1).mpr ⟨h1, h3⟩
      have hp := (sieve_prog_other7 z x k hx hz).mp hex
      exact (clears_def1 z (6 * k - 1) (by omega)).mpr hp
    · intro hc
      have hp := (clears_def1 z (6 * k - 1) (by omega)).mp hc
      have hex := (sieve_prog_other7 z x k hx hz).mpr hp
      have hsh := (prog_shape z (z * x - x) k hs1).mp hex
      exact ⟨hsh.1, hk, hsh.2⟩
  show (if z * x - x ≤ k ∧ k ≤ x_n ∧ (k - (z * x - x)) % z = 0 then false else b.data k)
      = true ↔ _
  by_cases hc : clears z (6 * k - 1)
  · rw [if_pos (hcond.mpr hc)]
    simp [hc]
  · rw [if_neg (fun h => hc (hcond.mp h))]
    simp [hc]

theorem aliveG_succ (root : Nat → Prop) (x v : Nat) (hx : 1 ≤ x)
    (hv6 : v % 6 = 5 ∨ v % 6 = 1) :
    aliveG root (x + 1) v ↔ aliveG root x v ∧
      ¬ (Nat.Prime (6 * x - 1) ∧ root (6 * x - 1) ∧ clears (6 * x - 1) v) ∧
      ¬ (Nat.Prime (6 * x + 1) ∧ root (6 * x + 1) ∧ clears (6 * x + 1) v) := by
  unfold aliveG
  constructor
  · intro h
    refine ⟨fun hy => ?_, fun hy => ?_, fun hy => ?_⟩
    · obtain ⟨z, h1, h2, h3, h4⟩ := hy
      exact h ⟨z, h1, h2, by omega, h4⟩
    · obtain ⟨h1, h2, h3⟩ := hy
      exact h ⟨6 * x - 1, h1, h2, by unfold zIdx; omega, h3⟩
    · obtain ⟨h1, h2, h3⟩ := hy
      exact h ⟨6 * x + 1, h1, h2, by unfold zIdx; omega, h3⟩
  · rintro ⟨h0, h5, h7⟩ ⟨z, hzp, hzr, hzx, hzc⟩
    by_cases hzx' : zIdx z < x
    · exact h0 ⟨z, hzp, hzr, hzx', hzc⟩
    · obtain ⟨hzd, hzb⟩ := hzc
      have hz5 : 5 ≤ z := lane_prime_factor v z hv6 hzp hzd
      have hz6 := prime_ge5_mod6 z hzp hz5
      have hzeq : z = 6 * x - 1 ∨ z = 6 * x + 1 := by
        unfold zIdx at hzx hzx'
        omega
      rcases hzeq with rfl | rfl
      · exact h5 ⟨hzp, hzr, ⟨hzd, hzb⟩⟩
      · exact h7 ⟨hzp, hzr, ⟨hzd, hzb⟩⟩

theorem survG_root_prime (root : Nat → Prop) (hmono : ∀ a b, a ≤ b → root b → root a)
    (v : Nat) (h1 : 1 ≤ v) (hs : survG root v) (hr : root v) : Nat.Prime v := by
  rcases hs with h | h
  · exact h
  · exact absurd (hmono _ _ (Nat.minFac_le h1) hr) h


/-- The root-prime test of `sieve_iZ`: `z < n_sqrt`. -/
def rootK (K : Nat) : Nat → Prop := fun z => z < K

instance rootK_dec (K : Nat) : DecidablePred (rootK K) := fun z => Nat.decLt z K

theorem applied_clause (root : Nat → Prop) (hmono : ∀ a b, a ≤ b → root b → root a)
    (z v : Nat) (hz1 : 1 ≤ z) (hs : survG root z) (hr : root z) :
    (¬ (Nat.Prime z ∧ root z ∧ clears z v)) ↔ ¬ clears z v := by
  have hp := survG_root_prime root hmono z hz1 hs hr
  constructor
  · intro h hc
    exact h ⟨hp, hr, hc⟩
  · intro h hc
    exact h hc.2.2

theorem unapplied_clause_root (root : Nat → Prop) (z v : Nat) (hr : ¬ root z) :
    ¬ (Nat.Prime z ∧ root z ∧ clears z v) := fun h => hr h.2.1

theorem unapplied_clause_bit (root : Nat → Prop) (z v : Nat) (hs : ¬ survG root z) :
    ¬ (Nat.Prime z ∧ root z ∧ clears z v) := fun h => hs (Or.inl h.1)

set_option maxHeartbeats 4000000 in
/-- One step of the `sieve_iZ` main loop preserves the bit and list
invariants, advancing the step cutoff from `x` to `x + 1`. -/
theorem sieve_iZ_step_inv (K x_n : Nat) (st : SieveSt) (x : Nat)
    (hx1 : 1 ≤ x) (hxn : x ≤ x_n)
    (hb5 : ∀ k, 1 ≤ k → k ≤ x_n → (st.x5.data k = true ↔ aliveG (rootK K) x (6 * k - 1)))
    (hb7 : ∀ k, 1 ≤ k → k ≤ x_n → (st.x7.data k = true ↔ aliveG (rootK K) x (6 * k + 1)))
    (hpr : st.primes = [2, 3] ++ survBody (rootK K) (x - 1)) :
    (∀ k, 1 ≤ k → k ≤ x_n →
      ((sieve_iZ_step K x_n st x).x5.data k = true ↔ aliveG (rootK K) (x + 1) (6 * k - 1))) ∧
    (∀ k, 1 ≤ k → k ≤ x_n →
      ((sieve_iZ_step K x_n st x).x7.data k = true ↔ aliveG (rootK K) (x + 1) (6 * k + 1))) ∧
    (sieve_iZ_step K x_n st x).primes = [2, 3] ++ survBody (rootK K) x := by
  have hmono : ∀ a b : Nat, a ≤ b → rootK K b → rootK K a :=
    fun a b hab hb => lt_of_le_of_lt hab hb
  have ha5 : st.x5.data x = true ↔ survG (rootK K) (6 * x - 1) :=
    (hb5 x hx1 hxn).trans (aliveG_iff (rootK K) hmono x (6 * x - 1) hx1 (Or.inl (by omega)))
  have ha7 : st.x7.data x = true ↔ survG (rootK K) (6 * x + 1) :=
    (hb7 x hx1 hxn).trans (aliveG_iff (rootK K) hmono x (6 * x + 1) hx1 (Or.inr rfl))
  have hsb : survBody (rootK K) x = survBody (rootK K) (x - 1) ++
      ((if survG (rootK K) (6 * x - 1) then [6 * x - 1] else []) ++
       (if survG (rootK K) (6 * x + 1) then [6 * x + 1] else [])) := by
    have h := survBody_concat (rootK K) (x - 1)
    rw [show x - 1 + 1 = x from by omega] at h
    exact h
  have hx7read : (bitmap_clear_mod_p st.x7 (6 * x - 1) ((6 * x - 1) * x - x) x_n).data x
      = st.x7.data x := by
    show (if _ ∧ _ ∧ _ then false else st.x7.data x) = st.x7.data x
    rw [if_neg]
    rintro ⟨hs, _, _⟩
    have h1 : 5 * x ≤ (6 * x - 1) * x := Nat.mul_le_mul_right _ (by omega)
    omega

  by_cases h5 : st.x5.data x = true
  · by_cases hr5 : 6 * x - 1 < K
    · -- T5
      by_cases h7 : st.x7.data x = true
      · by_cases hr7 : 6 * x + 1 < K
        · -- T, T
          have hstate : sieve_iZ_step K x_n st x = ⟨bitmap_clear_mod_p (bitmap_clear_mod_p st.x5 (6 * x - 1) ((6 * x - 1) * x + x) x_n) (6 * x + 1) ((6 * x + 1) * x - x) x_n, bitmap_clear_mod_p (bitmap_clear_mod_p st.x7 (6 * x - 1) ((6 * x - 1) * x - x) x_n) (6 * x + 1) ((6 * x + 1) * x + x) x_n, st.primes ++ [6 * x - 1] ++ [6 * x + 1]⟩ := by
            simp only [sieve_iZ_step, bitmap_get_bit, iZ_neg_one, iZ_one]
            rw [if_pos h5, if_pos hr5]
            rw [if_pos (hx7read.trans h7)]
            rw [if_pos hr7]
          simp only [hstate]
          refine ⟨?_, ?_, ?_⟩
          · intro k hk1 hkn
            rw [clear_other7_data _ _ x x_n k hx1 rfl hk1 hkn]
            rw [clear_own5_data _ _ x x_n k hx1 (by omega) hk1 hkn]
            rw [hb5 k hk1 hkn, aliveG_succ (rootK K) x (6 * k - 1) hx1 (Or.inl (by omega))]
            have e5 := applied_clause (rootK K) hmono (6 * x - 1) (6 * k - 1) (by omega) (ha5.mp h5) hr5
            have e7 := applied_clause (rootK K) hmono (6 * x + 1) (6 * k - 1) (by omega) (ha7.mp h7) hr7
            exact ⟨fun h => ⟨h.1.1, e5.mpr h.1.2, e7.mpr h.2⟩, fun h => ⟨⟨h.1, e5.mp h.2.1⟩, e7.mp h.2.2⟩⟩
          · intro k hk1 hkn
            rw [clear_own7_data _ _ x x_n k hx1 rfl hk1 hkn]
            rw [clear_other5_data _ _ x x_n k hx1 (by omega) hk1 hkn]
            rw [hb7 k hk1 hkn, aliveG_succ (rootK K) x (6 * k + 1) hx1 (Or.inr (by omega))]
            have e5 := applied_clause (rootK K) hmono (6 * x - 1) (6 * k + 1) (by omega) (ha5.mp h5) hr5
            have e7 := applied_clause (rootK K) hmono (6 * x + 1) (6 * k + 1) (by omega) (ha7.mp h7) hr7
            exact ⟨fun h => ⟨h.1.1, e5.mpr h.1.2, e7.mpr h.2⟩, fun h => ⟨⟨h.1, e5.mp h.2.1⟩, e7.mp h.2.2⟩⟩
          · rw [hpr, hsb]
            rw [if_pos (ha5.mp h5)]
            rw [if_pos (ha7.mp h7)]
            simp only [List.append_assoc, List.append_nil, List.nil_append]
        · -- T, B
          have hstate : sieve_iZ_step K x_n st x = ⟨bitmap_clear_mod_p st.x5 (6 * x - 1) ((6 * x - 1) * x + x) x_n, bitmap_clear_mod_p st.x7 (6 * x - 1) ((6 * x - 1) * x - x) x_n, st.primes ++ [6 * x - 1] ++ [6 * x + 1]⟩ := by
            simp only [sieve_iZ_step, bitmap_get_bit, iZ_neg_one, iZ_one]
            rw [if_pos h5, if_pos hr5]
            rw [if_pos (hx7read.trans h7)]
            rw [if_neg hr7]
          simp only [hstate]
          refine ⟨?_, ?_, ?_⟩
          · intro k hk1 hkn
            rw [clear_own5_data _ _ x x_n k hx1 (by omega) hk1 hkn]
            rw [hb5 k hk1 hkn, aliveG_succ (rootK K) x (6 * k - 1) hx1 (Or.inl (by omega))]
            have e5 := applied_clause (rootK K) hmono (6 * x - 1) (6 * k - 1) (by omega) (ha5.mp h5) hr5
            have e7 := unapplied_clause_root (rootK K) (6 * x + 1) (6 * k - 1) hr7
            exact ⟨fun h => ⟨h.1, e5.mpr h.2, e7⟩, fun h => ⟨h.1, e5.mp h.2.1⟩⟩
          · intro k hk1 hkn
            rw [clear_other5_data _ _ x x_n k hx1 (by omega) hk1 hkn]
            rw [hb7 k hk1 hkn, aliveG_succ (rootK K) x (6 * k + 1) hx1 (Or.inr (by omega))]
            have e5 := applied_clause (rootK K) hmono (6 * x - 1) (6 * k + 1) (by omega) (ha5.mp h5) hr5
            have e7 := unapplied_clause_root (rootK K) (6 * x + 1) (6 * k + 1) hr7
            exact ⟨fun h => ⟨h.1, e5.mpr h.2, e7⟩, fun h => ⟨h.1, e5.mp h.2.1⟩⟩
          · rw [hpr, hsb]
            rw [if_pos (ha5.mp h5)]
            rw [if_pos (ha7.mp h7)]
            simp only [List.append_assoc, List.append_nil, List.nil_append]
      · -- T, N
        have hstate : sieve_iZ_step K x_n st x = ⟨bitmap_clear_mod_p st.x5 (6 * x - 1) ((6 * x - 1) * x + x) x_n, bitmap_clear_mod_p st.x7 (6 * x - 1) ((6 * x - 1) * x - x) x_n, st.primes ++ [6 * x - 1]⟩ := by
          simp only [sieve_iZ_step, bitmap_get_bit, iZ_neg_one, iZ_one]
          rw [if_pos h5, if_pos hr5]
          rw [if_neg (fun hc => h7 (hx7read.symm.trans hc))]
        simp only [hstate]
        refine ⟨?_, ?_, ?_⟩
        · intro k hk1 hkn
          rw [clear_own5_data _ _ x x_n k hx1 (by omega) hk1 hkn]
          rw [hb5 k hk1 hkn, aliveG_succ (rootK K) x (6 * k - 1) hx1 (Or.inl (by omega))]
          have e5 := applied_clause (rootK K) hmono (6 * x - 1) (6 * k - 1) (by omega) (ha5.mp h5) hr5
          have e7 := unapplied_clause_bit (rootK K) (6 * x + 1) (6 * k - 1) (fun hs => h7 (ha7.mpr hs))
          exact ⟨fun h => ⟨h.1, e5.mpr h.2, e7⟩, fun h => ⟨h.1, e5.mp h.2.1⟩⟩
        · intro k hk1 hkn
          rw [clear_other5_data _ _ x x_n k hx1 (by omega) hk1 hkn]
          rw [hb7 k hk1 hkn, aliveG_succ (rootK K) x (6 * k + 1) hx1 (Or.inr (by omega))]
          have e5 := applied_clause (rootK K) hmono (6 * x - 1) (6 * k + 1) (by omega) (ha5.mp h5) hr5
          have e7 := unapplied_clause_bit (rootK K) (6 * x + 1) (6 * k + 1) (fun hs => h7 (ha7.mpr hs))
          exact ⟨fun h => ⟨h.1, e5.mpr h.2, e7⟩, fun h => ⟨h.1, e5.mp h.2.1⟩⟩
        · rw [hpr, hsb]
          rw [if_pos (ha5.mp h5)]
          rw [if_neg (fun hs => h7 (ha7.mpr hs))]
          simp only [List.append_assoc, List.append_nil, List.nil_append]
    · -- B5
      by_cases h7 : st.x7.data x = true
      · by_cases hr7 : 6 * x + 1 < K
        · -- B, T
          have hstate : sieve_iZ_step K x_n st x = ⟨bitmap_clear_mod_p st.x5 (6 * x + 1) ((6 * x + 1) * x - x) x_n, bitmap_clear_mod_p st.x7 (6 * x + 1) ((6 * x + 1) * x + x) x_n, st.primes ++ [6 * x - 1] ++ [6 * x + 1]⟩ := by
            simp only [sieve_iZ_step, bitmap_get_bit, iZ_neg_one, iZ_one]
            rw [if_pos h5, if_neg hr5]
            rw [if_pos h7]
            rw [if_pos hr7]
          simp only [hstate]
          refine ⟨?_, ?_, ?_⟩
          · intro k hk1 hkn
            rw [clear_other7_data _ _ x x_n k hx1 rfl hk1 hkn]
            rw [hb5 k hk1 hkn, aliveG_succ (rootK K) x (6 * k - 1) hx1 (Or.inl (by omega))]
            have e5 := unapplied_clause_root (rootK K) (6 * x - 1) (6 * k - 1) hr5
            have e7 := applied_clause (rootK K) hmono (6 * x + 1) (6 * k - 1) (by omega) (ha7.mp h7) hr7
            exact ⟨fun h => ⟨h.1, e5, e7.mpr h.2⟩, fun h => ⟨h.1, e7.mp h.2.2⟩⟩
          · intro k hk1 hkn
            rw [clear_own7_data _ _ x x_n k hx1 rfl hk1 hkn]
            rw [hb7 k hk1 hkn, aliveG_succ (rootK K) x (6 * k + 1) hx1 (Or.inr (by omega))]
            have e5 := unapplied_clause_root (rootK K) (6 * x - 1) (6 * k + 1) hr5
            have e7 := applied_clause (rootK K) hmono (6 * x + 1) (6 * k + 1) (by omega) (ha7.mp h7) hr7
            exact ⟨fun h => ⟨h.1, e5, e7.mpr h.2⟩, fun h => ⟨h.1, e7.mp h.2.2⟩⟩
          · rw [hpr, hsb]
            rw [if_pos (ha5.mp h5)]
            rw [if_pos (ha7.mp h7)]
            simp only [List.append_assoc, List.append_nil, List.nil_append]
        · -- B, B
          have hstate : sieve_iZ_step K x_n st x = ⟨st.x5, st.x7, st.primes ++ [6 * x - 1] ++ [6 * x + 1]⟩ := by
            simp only [sieve_iZ_step, bitmap_get_bit, iZ_neg_one, iZ_one]
            rw [if_pos h5, if_neg hr5]
            rw [if_pos h7]
            rw [if_neg hr7]
          simp only [hstate]
          refine ⟨?_, ?_, ?_⟩
          · intro k hk1 hkn
            rw [hb5 k hk1 hkn, aliveG_succ (rootK K) x (6 * k - 1) hx1 (Or.inl (by omega))]
            have e5 := unapplied_clause_root (rootK K) (6 * x - 1) (6 * k - 1) hr5
            have e7 := unapplied_clause_root (rootK K) (6 * x + 1) (6 * k - 1) hr7
            exact ⟨fun h => ⟨h, e5, e7⟩, fun h => h.1⟩
          · intro k hk1 hkn
            rw [hb7 k hk1 hkn, aliveG_succ (rootK K) x (6 * k + 1) hx1 (Or.inr (by omega))]
            have e5 := unapplied_clause_root (rootK K) (6 * x - 1) (6 * k + 1) hr5
            have e7 := unapplied_clause_root (rootK K) (6 * x + 1) (6 * k + 1) hr7
            exact ⟨fun h => ⟨h, e5, e7⟩, fun h => h.1⟩
          · rw [hpr, hsb]
            rw [if_pos (ha5.mp h5)]
            rw [if_pos (ha7.mp h7)]
            simp only [List.append_assoc, List.append_nil, List.nil_append]
      · -- B, N
        have hstate : sieve_iZ_step K x_n st x = ⟨st.x5, st.x7, st.primes ++ [6 * x - 1]⟩ := by
          simp only [sieve_iZ_step, bitmap_get_bit, iZ_neg_one, iZ_one]
          rw [if_pos h5, if_neg hr5]
          rw [if_neg h7]
        simp only [hstate]
        refine ⟨?_, ?_, ?_⟩
        · intro k hk1 hkn
          rw [hb5 k hk1 hkn, aliveG_succ (rootK K) x (6 * k - 1) hx1 (Or.inl (by omega))]
          have e5 := unapplied_clause_root (rootK K) (6 * x - 1) (6 * k - 1) hr5
          have e7 := unapplied_clause_bit (rootK K) (6 * x + 1) (6 * k - 1) (fun hs => h7 (ha7.mpr hs))
          exact ⟨fun h => ⟨h, e5, e7⟩, fun h => h.1⟩
        · intro k hk1 hkn
          rw [hb7 k hk1 hkn, aliveG_succ (rootK K) x (6 * k + 1) hx1 (Or.inr (by omega))]
          have e5 := unapplied_clause_root (rootK K) (6 * x - 1) (6 * k + 1) hr5
          have e7 := unapplied_clause_bit (rootK K) (6 * x + 1) (6 * k + 1) (fun hs => h7 (ha7.mpr hs))
          exact ⟨fun h => ⟨h, e5, e7⟩, fun h => h.1⟩
        · rw [hpr, hsb]
          rw [if_pos (ha5.mp h5)]
          rw [if_neg (fun hs => h7 (ha7.mpr hs))]
          simp only [List.append_assoc, List.append_nil, List.nil_append]
  · -- N5
    by_cases h7 : st.x7.data x = true
    · by_cases hr7 : 6 * x + 1 < K
      · -- N, T
        have hstate : sieve_iZ_step K x_n st x = ⟨bitmap_clear_mod_p st.x5 (6 * x + 1) ((6 * x + 1) * x - x) x_n, bitmap_clear_mod_p st.x7 (6 * x + 1) ((6 * x + 1) * x + x) x_n, st.primes ++ [6 * x + 1]⟩ := by
          simp only [sieve_iZ_step, bitmap_get_bit, iZ_neg_one, iZ_one]
          rw [if_neg h5]
          rw [if_pos h7]
          rw [if_pos hr7]
        simp only [hstate]
        refine ⟨?_, ?_, ?_⟩
        · intro k hk1 hkn
          rw [clear_other7_data _ _ x x_n k hx1 rfl hk1 hkn]
          rw [hb5 k hk1 hkn, aliveG_succ (rootK K) x (6 * k - 1) hx1 (Or.inl (by omega))]
          have e5 := unapplied_clause_bit (rootK K) (6 * x - 1) (6 * k - 1) (fun hs => h5 (ha5.mpr hs))
          have e7 := applied_clause (rootK K) hmono (6 * x + 1) (6 * k - 1) (by omega) (ha7.mp h7) hr7
          exact ⟨fun h => ⟨h.1, e5, e7.mpr h.2⟩, fun h => ⟨h.1, e7.mp h.2.2⟩⟩
        · intro k hk1 hkn
          rw [clear_own7_data _ _ x x_n k hx1 rfl hk1 hkn]
          rw [hb7 k hk1 hkn, aliveG_succ (rootK K) x (6 * k + 1) hx1 (Or.inr (by omega))]
          have e5 := unapplied_clause_bit (rootK K) (6 * x - 1) (6 * k + 1) (fun hs => h5 (ha5.mpr hs))
          have e7 := applied_clause (rootK K) hmono (6 * x + 1) (6 * k + 1) (by omega) (ha7.mp h7) hr7
          exact ⟨fun h => ⟨h.1, e5, e7.mpr h.2⟩, fun h => ⟨h.1, e7.mp h.2.2⟩⟩
        · rw [hpr, hsb]
          rw [if_neg (fun hs => h5 (ha5.mpr hs))]
          rw [if_pos (ha7.mp h7)]
          simp only [List.append_assoc, List.append_nil, List.nil_append]
      · -- N, B
        have hstate : sieve_iZ_step K x_n st x = ⟨st.x5, st.x7, st.primes ++ [6 * x + 1]⟩ := by
          simp only [sieve_iZ_step, bitmap_get_bit, iZ_neg_one, iZ_one]
          rw [if_neg h5]
          rw [if_pos h7]
          rw [if_neg hr7]
        simp only [hstate]
        refine ⟨?_, ?_, ?_⟩
        · intro k hk1 hkn
          rw [hb5 k hk1 hkn, aliveG_succ (rootK K) x (6 * k - 1) hx1 (Or.inl (by omega))]
          have e5 := unapplied_clause_bit (rootK K) (6 * x - 1) (6 * k - 1) (fun hs => h5 (ha5.mpr hs))
          have e7 := unapplied_clause_root (rootK K) (6 * x + 1) (6 * k - 1) hr7
          exact ⟨fun h => ⟨h, e5, e7⟩, fun h => h.1⟩
        · intro k hk1 hkn
          rw [hb7 k hk1 hkn, aliveG_succ (rootK K) x (6 * k + 1) hx1 (Or.inr (by omega))]
          have e5 := unapplied_clause_bit (rootK K) (6 * x - 1) (6 * k + 1) (fun hs => h5 (ha5.mpr hs))
          have e7 := unapplied_clause_root (rootK K) (6 * x + 1) (6 * k + 1) hr7
          exact ⟨fun h => ⟨h, e5, e7⟩, fun h => h.1⟩
        · rw [hpr, hsb]
          rw [if_neg (fun hs => h5 (ha5.mpr hs))]
          rw [if_pos (ha7.mp h7)]
          simp only [List.append_assoc, List.append_nil, List.nil_append]
    · -- N, N
      have hstate : sieve_iZ_step K x_n st x = ⟨st.x5, st.x7, st.primes⟩ := by
        simp only [sieve_iZ_step, bitmap_get_bit, iZ_neg_one, iZ_one]
        rw [if_neg h5]
        rw [if_neg h7]
      simp only [hstate]
      refine ⟨?_, ?_, ?_⟩
      · intro k hk1 hkn
        rw [hb5 k hk1 hkn, aliveG_succ (rootK K) x (6 * k - 1) hx1 (Or.inl (by omega))]
        have e5 := unapplied_clause_bit (rootK K) (6 * x - 1) (6 * k - 1) (fun hs => h5 (ha5.mpr hs))
        have e7 := unapplied_clause_bit (rootK K) (6 * x + 1) (6 * k - 1) (fun hs => h7 (ha7.mpr hs))
        exact ⟨fun h => ⟨h, e5, e7⟩, fun h => h.1⟩
      · intro k hk1 hkn
        rw [hb7 k hk1 hkn, aliveG_succ (rootK K) x (6 * k + 1) hx1 (Or.inr (by omega))]
        have e5 := unapplied_clause_bit (rootK K) (6 * x - 1) (6 * k + 1) (fun hs => h5 (ha5.mpr hs))
        have e7 := unapplied_clause_bit (rootK K) (6 * x + 1) (6 * k + 1) (fun hs => h7 (ha7.mpr hs))
        exact ⟨fun h => ⟨h, e5, e7⟩, fun h => h.1⟩
      · rw [hpr, hsb]
        rw [if_neg (fun hs => h5 (ha5.mpr hs))]
        rw [if_neg (fun hs => h7 (ha7.mpr hs))]
        simp only [List.append_assoc, List.append_nil, List.nil_append]


theorem aliveG_one (root : Nat → Prop) (v : Nat) (hv6 : v % 6 = 5 ∨ v % 6 = 1) :
    aliveG root 1 v := by
  intro hex
  obtain ⟨z, hzp, hzr, hzx, hcl⟩ := hex
  obtain ⟨hzd, _⟩ := hcl
  have h5 := lane_prime_factor v z hv6 hzp hzd
  unfold zIdx at hzx
  omega

theorem sieve_iZ_fold (K x_n : Nat) (st0 : SieveSt)
    (hb5 : ∀ k, 1 ≤ k → k ≤ x_n → (st0.x5.data k = true ↔ aliveG (rootK K) 1 (6 * k - 1)))
    (hb7 : ∀ k, 1 ≤ k → k ≤ x_n → (st0.x7.data k = true ↔ aliveG (rootK K) 1 (6 * k + 1)))
    (hpr : st0.primes = [2, 3]) :
    ∀ X, X + 1 ≤ x_n →
      (∀ k, 1 ≤ k → k ≤ x_n →
        (((List.range' 1 X).foldl (sieve_iZ_step K x_n) st0).x5.data k = true ↔
          aliveG (rootK K) (X + 1) (6 * k - 1))) ∧
      (∀ k, 1 ≤ k → k ≤ x_n →
        (((List.range' 1 X).foldl (sieve_iZ_step K x_n) st0).x7.data k = true ↔
          aliveG (rootK K) (X + 1) (6 * k + 1))) ∧
      ((List.range' 1 X).foldl (sieve_iZ_step K x_n) st0).primes
        = [2, 3] ++ survBody (rootK K) X := by
  intro X
  induction X with
  | zero =>
    intro hX
    simp only [List.range'_zero, List.foldl_nil]
    exact ⟨hb5, hb7, by rw [hpr]; rfl⟩
  | succ X ih =>
    intro hX
    obtain ⟨ih5, ih7, ihpr⟩ := ih (by omega)
    have hconcat : List.range' 1 (X + 1) = List.range' 1 X ++ [X + 1] := by
      rw [List.range'_concat]
      simp [Nat.add_comm 1 X]
    rw [hconcat, List.foldl_append, List.foldl_cons, List.foldl_nil]
    have hstep := sieve_iZ_step_inv K x_n ((List.range' 1 X).foldl (sieve_iZ_step K x_n) st0)
      (X + 1) (by omega) (by omega) ih5 ih7
      (by rw [ihpr, show X + 1 - 1 = X from rfl])
    exact ⟨hstep.1, hstep.2.1, hstep.2.2⟩

theorem sieve_iZ_run (n : Nat) (h1 : 1 ≤ n) :
    sieve_iZ n =
      (if n < ([2, 3] ++ survBody (rootK (nat_sqrt n + 1)) ((n + 1) / 6)).getLastD 0
       then ([2, 3] ++ survBody (rootK (nat_sqrt n + 1)) ((n + 1) / 6)).dropLast
       else [2, 3] ++ survBody (rootK (nat_sqrt n + 1)) ((n + 1) / 6)) := by
  have hbase5 : ∀ k, 1 ≤ k → k ≤ (n + 1) / 6 + 1 →
      ((bitmap_set_all (bitmap_create ((n + 1) / 6 + 1 + 1))).data k = true ↔
        aliveG (rootK (nat_sqrt n + 1)) 1 (6 * k - 1)) := by
    intro k hk1 hkn
    have hbit : (bitmap_set_all (bitmap_create ((n + 1) / 6 + 1 + 1))).data k = true := by
      show (if k < 8 * (((n + 1) / 6 + 1 + 1 + 7) / 8) then true
            else (bitmap_create ((n + 1) / 6 + 1 + 1)).data k) = true
      rw [if_pos (by omega)]
    exact ⟨fun _ => aliveG_one _ _ (Or.inl (by omega)), fun _ => hbit⟩
  have hbase7 : ∀ k, 1 ≤ k → k ≤ (n + 1) / 6 + 1 →
      ((bitmap_set_all (bitmap_create ((n + 1) / 6 + 1 + 1))).data k = true ↔
        aliveG (rootK (nat_sqrt n + 1)) 1 (6 * k + 1)) := by
    intro k hk1 hkn
    have hbit : (bitmap_set_all (bitmap_create ((n + 1) / 6 + 1 + 1))).data k = true := by
      show (if k < 8 * (((n + 1) / 6 + 1 + 1 + 7) / 8) then true
            else (bitmap_create ((n + 1) / 6 + 1 + 1)).data k) = true
      rw [if_pos (by omega)]
    exact ⟨fun _ => aliveG_one _ _ (Or.inr (by omega)), fun _ => hbit⟩
  have hfold := sieve_iZ_fold (nat_sqrt n + 1) ((n + 1) / 6 + 1)
    ⟨bitmap_set_all (bitmap_create ((n + 1) / 6 + 1 + 1)),
     bitmap_set_all (bitmap_create ((n + 1) / 6 + 1 + 1)), [2, 3]⟩
    hbase5 hbase7 rfl ((n + 1) / 6) (by omega)
  have hprimes := hfold.2.2
  simp only [sieve_iZ]
  rw [show (n + 1) / 6 + 1 - 1 = (n + 1) / 6 from rfl]
  rw [hprimes]


theorem survL_mem (n K X v : Nat) (h3 : 3 ≤ n) (hKs : K = Nat.sqrt n + 1)
    (hXd : X = (n + 1) / 6) :
    v ∈ [2, 3] ++ survBody (rootK K) X ↔
      (Nat.Prime v ∧ v ≤ n) ∨ (v = 6 * X + 1 ∧ n < v ∧ survG (rootK K) v) := by
  rw [List.mem_append, survBody_mem]
  constructor
  · rintro (hv23 | ⟨x, hx1, hxX, hvx, hs⟩)
    · left
      rcases (by simpa using hv23 : v = 2 ∨ v = 3) with rfl | rfl
      · exact ⟨Nat.prime_two, by omega⟩
      · exact ⟨Nat.prime_three, by omega⟩
    · by_cases hvn : v ≤ n
      · left
        refine ⟨?_, hvn⟩
        rcases hs with hp | hnr
        · exact hp
        · by_contra hnp
          have hv5 : 5 ≤ v := by omega
          have hsq := Nat.minFac_sq_le_self (by omega) hnp
          rw [pow_two] at hsq
          have hle : Nat.minFac v ≤ Nat.sqrt n := Nat.le_sqrt.mpr (le_trans hsq hvn)
          exact hnr (show Nat.minFac v < K by omega)
      · right
        push_neg at hvn
        exact ⟨by omega, hvn, hs⟩
  · rintro (⟨hp, hvn⟩ | ⟨hveq, hnv, hs⟩)
    · by_cases hv4 : v ≤ 4
      · left
        have h2v := hp.two_le
        interval_cases v
        · simp
        · simp
        · exact absurd hp (by norm_num)
      · right
        push_neg at hv4
        have hv6 := prime_ge5_mod6 v hp (by omega)
        exact ⟨(v + 1) / 6, by omega, by omega, by omega, Or.inl hp⟩
    · right
      refine ⟨X, by omega, le_refl X, Or.inr hveq, hs⟩

theorem survL_sorted (K X : Nat) :
    List.Sorted (· < ·) ([2, 3] ++ survBody (rootK K) X) := by
  show List.Pairwise _ _
  rw [List.pairwise_append]
  refine ⟨by decide, survBody_sorted _ _, ?_⟩
  intro a ha b hb
  rw [survBody_mem] at hb
  obtain ⟨x, hx1, _, hvx, _⟩ := hb
  have ha23 : a = 2 ∨ a = 3 := by simpa using ha
  omega

theorem sieve_iZ_assemble (n K X : Nat) (h3 : 3 ≤ n) (hKs : K = Nat.sqrt n + 1)
    (hXd : X = (n + 1) / 6) :
    (if n < ([2, 3] ++ survBody (rootK K) X).getLastD 0
     then ([2, 3] ++ survBody (rootK K) X).dropLast
     else [2, 3] ++ survBody (rootK K) X) = primesUpTo n := by
  have h2P : 2 ∈ primesUpTo n := (primesUpTo_mem n 2).mpr ⟨Nat.prime_two, by omega⟩
  have hPne : primesUpTo n ≠ [] := List.ne_nil_of_mem h2P
  have hPle : ∀ a ∈ primesUpTo n, a ≤ n := fun a ha => ((primesUpTo_mem n a).mp ha).2
  by_cases hj : n < 6 * X + 1 ∧ survG (rootK K) (6 * X + 1)
  · have hLP : [2, 3] ++ survBody (rootK K) X = primesUpTo n ++ [6 * X + 1] := by
      apply sorted_mem_eq _ _ (survL_sorted K X)
      · show List.Pairwise _ _
        rw [List.pairwise_append]
        refine ⟨primesUpTo_sorted n, by simp, ?_⟩
        intro a ha b hb
        rw [List.mem_singleton] at hb
        have := hPle a ha
        omega
      · intro a
        rw [survL_mem n K X a h3 hKs hXd, List.mem_append, List.mem_singleton]
        constructor
        · rintro (hP | ⟨hveq, _, _⟩)
          · exact Or.inl ((primesUpTo_mem n a).mpr hP)
          · exact Or.inr hveq
        · rintro (hP | rfl)
          · exact Or.inl ((primesUpTo_mem n a).mp hP)
          · exact Or.inr ⟨rfl, hj.1, hj.2⟩
    rw [hLP, List.getLastD_concat, if_pos hj.1, List.dropLast_concat]
  · have hLP : [2, 3] ++ survBody (rootK K) X = primesUpTo n := by
      apply sorted_mem_eq _ _ (survL_sorted K X) (primesUpTo_sorted n)
      intro a
      rw [survL_mem n K X a h3 hKs hXd]
      constructor
      · rintro (hP | ⟨rfl, hna, hsa⟩)
        · exact (primesUpTo_mem n a).mpr hP
        · exact absurd ⟨hna, hsa⟩ hj
      · intro hP
        exact Or.inl ((primesUpTo_mem n a).mp hP)
    rw [hLP, if_neg]
    have := hPle _ (getLastD_mem _ hPne)
    omega

/-- `sieve_iZ` returns exactly the primes up to `n`, for every `n ≥ 2`. -/
theorem sieve_iZ_eq (n : Nat) (hn : 2 ≤ n) : sieve_iZ n = primesUpTo n := by
  rcases eq_or_lt_of_le hn with h2 | h3
  · rw [← h2]
    decide
  · rw [sieve_iZ_run n (by omega)]
    exact sieve_iZ_assemble n (nat_sqrt n + 1) ((n + 1) / 6) h3
      (by rw [nat_sqrt_eq]) rfl


theorem prime_dvd_take_prod (m q : Nat) (hq : Nat.Prime q) :
    q ∣ (s_primes.take m).prod ↔ q ∈ s_primes.take m := by
  constructor
  · intro hd
    obtain ⟨a, haM, hqa⟩ := (Prime.dvd_prod_iff hq.prime).mp hd
    have hap : Nat.Prime a :=
      (isPrimeB_iff a).mp (s_primes_all_prime a (List.mem_of_mem_take haM))
    rw [(Nat.prime_dvd_prime_iff_eq hq hap).mp hqa]
    exact haM
  · exact List.dvd_prod

/-- The root-prime test of the first segment of `sieve_iZm`: the code checks
`p*p/6 < vx`; a prime of the wheel (`p ∣ vx`) is never read alive, so it
never acts as a root prime. -/
def rootV (vx : Nat) : Nat → Prop := fun p => p * p / 6 < vx ∧ ¬ p ∣ vx

instance rootV_dec (vx : Nat) : DecidablePred (rootV vx) := fun p => instDecidableAnd

/-- The wheel-coprimality of a value: no pre-sieved prime divides it. -/
def WQ (m : Nat) (v : Nat) : Prop := ∀ q ∈ s_primes.take m, ¬ q ∣ v

instance WQ_dec (m v : Nat) : Decidable (WQ m v) := List.decidableBAll _ _

/-- Combined first-segment survival: wheel-coprime and surviving the root
primes of the segment. -/
def survM (m vx v : Nat) : Prop := WQ m v ∧ survG (rootV vx) v

instance survM_dec (m vx v : Nat) : Decidable (survM m vx v) := instDecidableAnd

theorem s_primes_take_57 : ∀ m < 24, 2 ≤ m →
    (5 ∈ s_primes.take m ∧ 7 ∈ s_primes.take m) := by decide

theorem aliveM_iff (m vx x v : Nat) (hvx : vx = (s_primes.take m).prod)
    (hx : 1 ≤ x) (hv : v + 1 = 6 * x ∨ v = 6 * x + 1) (hW : WQ m v) :
    aliveG (rootV vx) x v ↔ survG (rootV vx) v := by
  have hv6 : v % 6 = 5 ∨ v % 6 = 1 := by omega
  have hvIdx : zIdx v = x := by unfold zIdx; omega
  have hv5 : 5 ≤ v := by omega
  constructor
  · intro halive
    by_contra hns
    rw [survG] at hns
    push_neg at hns
    obtain ⟨hnp, hroot⟩ := hns
    have hqp : Nat.Prime (Nat.minFac v) := Nat.minFac_prime (by omega)
    have hqd : Nat.minFac v ∣ v := Nat.minFac_dvd v
    have hq5 : 5 ≤ Nat.minFac v := lane_prime_factor v _ hv6 hqp hqd
    have hqsq : Nat.minFac v * Nat.minFac v ≤ v := by
      have h := Nat.minFac_sq_le_self (by omega) hnp
      rw [pow_two] at h
      exact h
    have hclears : clears (Nat.minFac v) v := by
      refine ⟨hqd, ?_⟩
      have h1 : Nat.minFac v * cmin (Nat.minFac v) ≤ Nat.minFac v * Nat.minFac v :=
        Nat.mul_le_mul_left _ (by unfold cmin; split <;> omega)
      omega
    have hqx : zIdx (Nat.minFac v) < x := by
      unfold zIdx
      have h5q : 5 * Nat.minFac v ≤ Nat.minFac v * Nat.minFac v :=
        Nat.mul_le_mul_right _ hq5
      omega
    exact halive ⟨Nat.minFac v, hqp, hroot, hqx, hclears⟩
  · intro hs hex
    obtain ⟨z, hzp, hzr, hzx, hcl⟩ := hex
    obtain ⟨hzd, hzb⟩ := hcl
    rcases hs with hvp | hnr
    · have hzv : z = v := (Nat.prime_dvd_prime_iff_eq hzp hvp).mp hzd
      rw [hzv, hvIdx] at hzx
      omega
    · apply hnr
      have hle : Nat.minFac v ≤ z := Nat.minFac_le_of_dvd hzp.two_le hzd
      refine ⟨?_, ?_⟩
      · have h2 : Nat.minFac v * Nat.minFac v ≤ z * z := Nat.mul_le_mul hle hle
        have := hzr.1
        omega
      · intro hdd
        have hqp : Nat.Prime (Nat.minFac v) := Nat.minFac_prime (by omega)
        have hmem := (prime_dvd_take_prod m _ hqp).mp (hvx ▸ hdd)
        exact hW _ hmem (Nat.minFac_dvd v)

theorem aliveM_two (m vx v : Nat) (hvx : vx = (s_primes.take m).prod) (hm2 : 2 ≤ m)
    (hm : m ≤ 23) (hv6 : v % 6 = 5 ∨ v % 6 = 1) : aliveG (rootV vx) 2 v := by
  intro hex
  obtain ⟨z, hzp, hzr, hzx, hcl⟩ := hex
  obtain ⟨hzd, _⟩ := hcl
  have h5 := lane_prime_factor v z hv6 hzp hzd
  unfold zIdx at hzx
  have hz2 : z = 5 ∨ z = 7 := by
    have := prime_ge5_mod6 z hzp h5
    omega
  have h57 := s_primes_take_57 m (by omega) hm2
  have hzin : z ∈ s_primes.take m := by
    rcases hz2 with rfl | rfl
    · exact h57.1
    · exact h57.2
  exact hzr.2 (hvx ▸ List.dvd_prod hzin)

theorem survM_char (m vx x v : Nat) (hvx : vx = (s_primes.take m).prod) (hm2 : 2 ≤ m)
    (hm : m ≤ 22) (hx : 2 ≤ x) (hxv : x ≤ vx) (hv : v + 1 = 6 * x ∨ v = 6 * x + 1)
    (hnsq : Nat.sqrt (6 * vx + 1) * Nat.sqrt (6 * vx + 1) ≠ 6 * vx + 1) :
    survM m vx v ↔ (Nat.Prime v ∧ ¬ v ∣ vx) := by
  have h35 : 35 ≤ vx := hvx ▸ s_primes_take_35 m (by omega) hm2
  have hv11 : 11 ≤ v := by omega
  have hv6 : v % 6 = 5 ∨ v % 6 = 1 := by omega
  constructor
  · rintro ⟨hW, hs⟩
    by_cases hp : Nat.Prime v
    · refine ⟨hp, fun hdvd => ?_⟩
      have := (prime_dvd_take_prod m v hp).mp (hvx ▸ hdvd)
      exact hW v this (dvd_refl v)
    · exfalso
      have hnr : ¬ rootV vx (Nat.minFac v) := hs.resolve_left hp
      have hqp : Nat.Prime (Nat.minFac v) := Nat.minFac_prime (by omega)
      have hqd : Nat.minFac v ∣ v := Nat.minFac_dvd v
      have hqnd : ¬ Nat.minFac v ∣ vx := by
        intro hd
        have := (prime_dvd_take_prod m _ hqp).mp (hvx ▸ hd)
        exact hW _ this hqd
      have hcode : ¬ Nat.minFac v * Nat.minFac v / 6 < vx := by
        intro hc
        exact hnr ⟨hc, hqnd⟩
      have hqsq : Nat.minFac v * Nat.minFac v ≤ v := by
        have h := Nat.minFac_sq_le_self (by omega) hp
        rw [pow_two] at h
        exact h
      have hq5 : 5 ≤ Nat.minFac v := lane_prime_factor v _ hv6 hqp hqd
      have hq6 := prime_ge5_mod6 _ hqp hq5
      have hqsqmod : Nat.minFac v * Nat.minFac v % 6 = 1 := by
        have hmm := Nat.mul_mod (Nat.minFac v) (Nat.minFac v) 6
        rcases hq6 with h | h <;> rw [h] at hmm <;> omega
      have hveq : v = Nat.minFac v * Nat.minFac v := by omega
      have hsq : Nat.sqrt (6 * vx + 1) = Nat.minFac v := by
        have hv61 : 6 * vx + 1 = Nat.minFac v * Nat.minFac v := by omega
        rw [hv61, ← pow_two]
        exact Nat.sqrt_eq' _
      apply hnsq
      rw [hsq]
      omega
  · rintro ⟨hp, hnd⟩
    refine ⟨?_, Or.inl hp⟩
    intro q hqmem hqd
    have hqp : Nat.Prime q :=
      (isPrimeB_iff q).mp (s_primes_all_prime q (List.mem_of_mem_take hqmem))
    have heq := (Nat.prime_dvd_prime_iff_eq hqp hp).mp hqd
    exact hnd (hvx ▸ List.dvd_prod (heq ▸ hqmem))

theorem applied_clause' (root : Nat → Prop) (z v : Nat) (hp : Nat.Prime z) (hr : root z) :
    (¬ (Nat.Prime z ∧ root z ∧ clears z v)) ↔ ¬ clears z v :=
  ⟨fun h hc => h ⟨hp, hr, hc⟩, fun h hc => h hc.2.2⟩

theorem seg0_applied (m vx z : Nat) (hvx : vx = (s_primes.take m).prod)
    (hz2 : 2 ≤ z) (hW : WQ m z) (hs : survG (rootV vx) z) (hcode : z * z / 6 < vx) :
    Nat.Prime z ∧ rootV vx z := by
  have hnd : ¬ z ∣ vx := by
    intro hd
    have hq : Nat.minFac z ∣ vx := dvd_trans (Nat.minFac_dvd z) hd
    have hqp : Nat.Prime (Nat.minFac z) := Nat.minFac_prime (by omega)
    have := (prime_dvd_take_prod m _ hqp).mp (hvx ▸ hq)
    exact hW _ this (Nat.minFac_dvd z)
  refine ⟨?_, hcode, hnd⟩
  rcases hs with hp | hnr
  · exact hp
  · exfalso
    apply hnr
    refine ⟨?_, ?_⟩
    · have h1 : Nat.minFac z ≤ z := Nat.minFac_le (by omega)
      have h2 : Nat.minFac z * Nat.minFac z ≤ z * z := Nat.mul_le_mul h1 h1
      omega
    · intro hd
      have hqp : Nat.Prime (Nat.minFac z) := Nat.minFac_prime (by omega)
      have := (prime_dvd_take_prod m _ hqp).mp (hvx ▸ hd)
      exact hW _ this (Nat.minFac_dvd z)

theorem seg0_unapplied_bit (m vx z v : Nat) (hvx : vx = (s_primes.take m).prod)
    (hz2 : 2 ≤ z) (hnb : ¬ (WQ m z ∧ survG (rootV vx) z)) :
    ¬ (Nat.Prime z ∧ rootV vx z ∧ clears z v) := by
  rintro ⟨hp, hr, _⟩
  apply hnb
  refine ⟨?_, Or.inl hp⟩
  intro q hqmem hqd
  have hqp : Nat.Prime q :=
    (isPrimeB_iff q).mp (s_primes_all_prime q (List.mem_of_mem_take hqmem))
  have heq := (Nat.prime_dvd_prime_iff_eq hqp hp).mp hqd
  exact hr.2 (hvx ▸ List.dvd_prod (heq ▸ hqmem))

theorem seg0_unapplied_root (vx z v : Nat) (hnr : ¬ z * z / 6 < vx) :
    ¬ (Nat.Prime z ∧ rootV vx z ∧ clears z v) := fun h => hnr h.2.1.1

end IZ

namespace IZ

/-- The list collected by the first-segment loop of `sieve_iZm` after the
steps `x ∈ [2, X]`. -/
def survBodyM (m vx X : Nat) : List Nat :=
  (List.range' 2 (X - 1)).flatMap fun x =>
    (if survM m vx (6 * x - 1) then [6 * x - 1] else []) ++
    (if survM m vx (6 * x + 1) then [6 * x + 1] else [])

theorem survBodyM_concat (m vx X : Nat) (hX : 1 ≤ X) :
    survBodyM m vx (X + 1) = survBodyM m vx X ++
      ((if survM m vx (6 * (X + 1) - 1) then [6 * (X + 1) - 1] else []) ++
       (if survM m vx (6 * (X + 1) + 1) then [6 * (X + 1) + 1] else [])) := by
  unfold survBodyM
  rw [show X + 1 - 1 = (X - 1) + 1 from by omega, List.range'_concat, List.flatMap_append]
  rw [show 2 + 1 * (X - 1) = X + 1 from by omega]
  simp

theorem survBodyM_mem (m vx X v : Nat) :
    v ∈ survBodyM m vx X ↔
      ∃ x, 2 ≤ x ∧ x ≤ X ∧ (v + 1 = 6 * x ∨ v = 6 * x + 1) ∧ survM m vx v := by
  unfold survBodyM
  rw [List.mem_flatMap]
  constructor
  · rintro ⟨x, hx, hv⟩
    rw [List.mem_range'] at hx
    obtain ⟨i, hi, rfl⟩ := hx
    rw [List.mem_append] at hv
    rcases hv with hv | hv <;> rcases Decidable.em (survM m vx (6 * (2 + i) - 1)) with h5 | h5 <;>
      rcases Decidable.em (survM m vx (6 * (2 + i) + 1)) with h7 | h7 <;>
      simp [h5, h7] at hv <;>
      · subst hv
        exact ⟨2 + i, by omega, by omega, by omega, by assumption⟩
  · rintro ⟨x, hx1, hxX, hv, hs⟩
    refine ⟨x, by rw [List.mem_range']; exact ⟨x - 2, by omega, by omega⟩, ?_⟩
    rw [List.mem_append]
    rcases hv with hv | hv
    · left
      have hveq : v = 6 * x - 1 := by omega
      rw [if_pos (hveq ▸ hs), hveq]
      simp
    · right
      have hveq : v = 6 * x + 1 := by omega
      rw [if_pos (hveq ▸ hs), hveq]
      simp

theorem survBodyM_sorted (m vx X : Nat) :
    List.Sorted (· < ·) (survBodyM m vx X) := by
  unfold survBodyM
  apply sorted_flatMap
  · intro x
    rcases Decidable.em (survM m vx (6 * x - 1)) with h5 | h5 <;>
      rcases Decidable.em (survM m vx (6 * x + 1)) with h7 | h7 <;>
      simp [h5, h7] <;> omega
  · intro a b ha hab hb u hu v hv
    have hu2 : u = 6 * a - 1 ∨ u = 6 * a + 1 := by
      rw [List.mem_append] at hu
      rcases hu with hu | hu <;> [skip; skip] <;>
        rcases Decidable.em (survM m vx (6 * a - 1)) with h | h <;>
        rcases Decidable.em (survM m vx (6 * a + 1)) with h' | h' <;>
        simp [h, h'] at hu <;> omega
    have hv2 : v = 6 * b - 1 ∨ v = 6 * b + 1 := by
      rw [List.mem_append] at hv
      rcases hv with hv | hv <;> [skip; skip] <;>
        rcases Decidable.em (survM m vx (6 * b - 1)) with h | h <;>
        rcases Decidable.em (survM m vx (6 * b + 1)) with h' | h' <;>
        simp [h, h'] at hv <;> omega
    omega

set_option maxHeartbeats 4000000 in
/-- One step of the first-segment loop of `sieve_iZm` preserves the bit and
list invariants, advancing the step cutoff from `x` to `x + 1`. -/
theorem seg0_step_inv (m vx : Nat) (pre : List Nat) (st : SieveSt) (x : Nat)
    (hvx : vx = (s_primes.take m).prod)
    (hx2 : 2 ≤ x) (hxn : x ≤ vx)
    (hb5 : ∀ k, 1 ≤ k → k ≤ vx →
      (st.x5.data k = true ↔ WQ m (6 * k - 1) ∧ aliveG (rootV vx) x (6 * k - 1)))
    (hb7 : ∀ k, 1 ≤ k → k ≤ vx →
      (st.x7.data k = true ↔ WQ m (6 * k + 1) ∧ aliveG (rootV vx) x (6 * k + 1)))
    (hpr : st.primes = pre ++ survBodyM m vx (x - 1)) :
    (∀ k, 1 ≤ k → k ≤ vx →
      ((sieve_iZm_seg0_step vx st x).x5.data k = true ↔
        WQ m (6 * k - 1) ∧ aliveG (rootV vx) (x + 1) (6 * k - 1))) ∧
    (∀ k, 1 ≤ k → k ≤ vx →
      ((sieve_iZm_seg0_step vx st x).x7.data k = true ↔
        WQ m (6 * k + 1) ∧ aliveG (rootV vx) (x + 1) (6 * k + 1))) ∧
    (sieve_iZm_seg0_step vx st x).primes = pre ++ survBodyM m vx x := by
  have hx1 : 1 ≤ x := by omega
  have ha5 : st.x5.data x = true ↔ survM m vx (6 * x - 1) := by
    rw [hb5 x hx1 hxn]
    exact and_congr_right fun hW =>
      aliveM_iff m vx x (6 * x - 1) hvx hx1 (Or.inl (by omega)) hW
  have ha7 : st.x7.data x = true ↔ survM m vx (6 * x + 1) := by
    rw [hb7 x hx1 hxn]
    exact and_congr_right fun hW =>
      aliveM_iff m vx x (6 * x + 1) hvx hx1 (Or.inr rfl) hW
  have hsb : survBodyM m vx x = survBodyM m vx (x - 1) ++
      ((if survM m vx (6 * x - 1) then [6 * x - 1] else []) ++
       (if survM m vx (6 * x + 1) then [6 * x + 1] else [])) := by
    have h := survBodyM_concat m vx (x - 1) (by omega)
    rw [show x - 1 + 1 = x from by omega] at h
    exact h
  have hx7read : (bitmap_clear_mod_p st.x7 (6 * x - 1) ((6 * x - 1) * x - x) vx).data x
      = st.x7.data x := by
    show (if _ ∧ _ ∧ _ then false else st.x7.data x) = st.x7.data x
    rw [if_neg]
    rintro ⟨hs, _, _⟩
    have h1 : 5 * x ≤ (6 * x - 1) * x := Nat.mul_le_mul_right _ (by omega)
    omega

  by_cases h5 : st.x5.data x = true
  · by_cases hr5 : (6 * x - 1) * (6 * x - 1) / 6 < vx
    · -- T5
      by_cases h7 : st.x7.data x = true
      · by_cases hr7 : (6 * x + 1) * (6 * x + 1) / 6 < vx
        · -- T, T
          have hstate : sieve_iZm_seg0_step vx st x = ⟨bitmap_clear_mod_p (bitmap_clear_mod_p st.x5 (6 * x - 1) ((6 * x - 1) * x + x) vx) (6 * x + 1) ((6 * x + 1) * x - x) vx, bitmap_clear_mod_p (bitmap_clear_mod_p st.x7 (6 * x - 1) ((6 * x - 1) * x - x) vx) (6 * x + 1) ((6 * x + 1) * x + x) vx, st.primes ++ [6 * x - 1] ++ [6 * x + 1]⟩ := by
            simp only [sieve_iZm_seg0_step, bitmap_get_bit, iZ_neg_one, iZ_one]
            rw [if_pos h5, if_pos hr5]
            rw [if_pos (hx7read.trans h7)]
            rw [if_pos hr7]
          have hpr5 := seg0_applied m vx (6 * x - 1) hvx (by omega) (ha5.mp h5).1 (ha5.mp h5).2 hr5
          have hpr7 := seg0_applied m vx (6 * x + 1) hvx (by omega) (ha7.mp h7).1 (ha7.mp h7).2 hr7
          simp only [hstate]
          refine ⟨?_, ?_, ?_⟩
          · intro k hk1 hkn
            rw [clear_other7_data _ _ x vx k hx1 rfl hk1 hkn]
            rw [clear_own5_data _ _ x vx k hx1 (by omega) hk1 hkn]
            rw [hb5 k hk1 hkn, aliveG_succ (rootV vx) x (6 * k - 1) hx1 (Or.inl (by omega))]
            have e5 := applied_clause' (rootV vx) (6 * x - 1) (6 * k - 1) hpr5.1 hpr5.2
            have e7 := applied_clause' (rootV vx) (6 * x + 1) (6 * k - 1) hpr7.1 hpr7.2
            exact ⟨fun h => ⟨h.1.1.1, h.1.1.2, e5.mpr h.1.2, e7.mpr h.2⟩, fun h => ⟨⟨⟨h.1, h.2.1⟩, e5.mp h.2.2.1⟩, e7.mp h.2.2.2⟩⟩
          · intro k hk1 hkn
            rw [clear_own7_data _ _ x vx k hx1 rfl hk1 hkn]
            rw [clear_other5_data _ _ x vx k hx1 (by omega) hk1 hkn]
            rw [hb7 k hk1 hkn, aliveG_succ (rootV vx) x (6 * k + 1) hx1 (Or.inr (by omega))]
            have e5 := applied_clause' (rootV vx) (6 * x - 1) (6 * k + 1) hpr5.1 hpr5.2
            have e7 := applied_clause' (rootV vx) (6 * x + 1) (6 * k + 1) hpr7.1 hpr7.2
            exact ⟨fun h => ⟨h.1.1.1, h.1.1.2, e5.mpr h.1.2, e7.mpr h.2⟩, fun h => ⟨⟨⟨h.1, h.2.1⟩, e5.mp h.2.2.1⟩, e7.mp h.2.2.2⟩⟩
          · rw [hpr, hsb]
            rw [if_pos (ha5.mp h5)]
            rw [if_pos (ha7.mp h7)]
            simp only [List.append_assoc, List.append_nil, List.nil_append]
        · -- T, B
          have hstate : sieve_iZm_seg0_step vx st x = ⟨bitmap_clear_mod_p st.x5 (6 * x - 1) ((6 * x - 1) * x + x) vx, bitmap_clear_mod_p st.x7 (6 * x - 1) ((6 * x - 1) * x - x) vx, st.primes ++ [6 * x - 1] ++ [6 * x + 1]⟩ := by
            simp only [sieve_iZm_seg0_step, bitmap_get_bit, iZ_neg_one, iZ_one]
            rw [if_pos h5, if_pos hr5]
            rw [if_pos (hx7read.trans h7)]
            rw [if_neg hr7]
          have hpr5 := seg0_applied m vx (6 * x - 1) hvx (by omega) (ha5.mp h5).1 (ha5.mp h5).2 hr5
          simp only [hstate]
          refine ⟨?_, ?_, ?_⟩
          · intro k hk1 hkn
            rw [clear_own5_data _ _ x vx k hx1 (by omega) hk1 hkn]
            rw [hb5 k hk1 hkn, aliveG_succ (rootV vx) x (6 * k - 1) hx1 (Or.inl (by omega))]
            have e5 := applied_clause' (rootV vx) (6 * x - 1) (6 * k - 1) hpr5.1 hpr5.2
            have e7 := seg0_unapplied_root vx (6 * x + 1) (6 * k - 1) hr7
            exact ⟨fun h => ⟨h.1.1, h.1.2, e5.mpr h.2, e7⟩, fun h => ⟨⟨h.1, h.2.1⟩, e5.mp h.2.2.1⟩⟩
          · intro k hk1 hkn
            rw [clear_other5_data _ _ x vx k hx1 (by omega) hk1 hkn]
            rw [hb7 k hk1 hkn, aliveG_succ (rootV vx) x (6 * k + 1) hx1 (Or.inr (by omega))]
            have e5 := applied_clause' (rootV vx) (6 * x - 1) (6 * k + 1) hpr5.1 hpr5.2
            have e7 := seg0_unapplied_root vx (6 * x + 1) (6 * k + 1) hr7
            exact ⟨fun h => ⟨h.1.1, h.1.2, e5.mpr h.2, e7⟩, fun h => ⟨⟨h.1, h.2.1⟩, e5.mp h.2.2.1⟩⟩
          · rw [hpr, hsb]
            rw [if_pos (ha5.mp h5)]
            rw [if_pos (ha7.mp h7)]
            simp only [List.append_assoc, List.append_nil, List.nil_append]
      · -- T, N
        have hstate : sieve_iZm_seg0_step vx st x = ⟨bitmap_clear_mod_p st.x5 (6 * x - 1) ((6 * x - 1) * x + x) vx, bitmap_clear_mod_p st.x7 (6 * x - 1) ((6 * x - 1) * x - x) vx, st.primes ++ [6 * x - 1]⟩ := by
          simp only [sieve_iZm_seg0_step, bitmap_get_bit, iZ_neg_one, iZ_one]
          rw [if_pos h5, if_pos hr5]
          rw [if_neg (fun hc => h7 (hx7read.symm.trans hc))]
        have hpr5 := seg0_applied m vx (6 * x - 1) hvx (by omega) (ha5.mp h5).1 (ha5.mp h5).2 hr5
        simp only [hstate]
        refine ⟨?_, ?_, ?_⟩
        · intro k hk1 hkn
          rw [clear_own5_data _ _ x vx k hx1 (by omega) hk1 hkn]
          rw [hb5 k hk1 hkn, aliveG_succ (rootV vx) x (6 * k - 1) hx1 (Or.inl (by omega))]
          have e5 := applied_clause' (rootV vx) (6 * x - 1) (6 * k - 1) hpr5.1 hpr5.2
          have e7 := seg0_unapplied_bit m vx (6 * x + 1) (6 * k - 1) hvx (by omega) (fun hws => h7 (ha7.mpr hws))
          exact ⟨fun h => ⟨h.1.1, h.1.2, e5.mpr h.2, e7⟩, fun h => ⟨⟨h.1, h.2.1⟩, e5.mp h.2.2.1⟩⟩
        · intro k hk1 hkn
          rw [clear_other5_data _ _ x vx k hx1 (by omega) hk1 hkn]
          rw [hb7 k hk1 hkn, aliveG_succ (rootV vx) x (6 * k + 1) hx1 (Or.inr (by omega))]
          have e5 := applied_clause' (rootV vx) (6 * x - 1) (6 * k + 1) hpr5.1 hpr5.2
          have e7 := seg0_unapplied_bit m vx (6 * x + 1) (6 * k + 1) hvx (by omega) (fun hws => h7 (ha7.mpr hws))
          exact ⟨fun h => ⟨h.1.1, h.1.2, e5.mpr h.2, e7⟩, fun h => ⟨⟨h.1, h.2.1⟩, e5.mp h.2.2.1⟩⟩
        · rw [hpr, hsb]
          rw [if_pos (ha5.mp h5)]
          rw [if_neg (fun hs => h7 (ha7.mpr hs))]
          simp only [List.append_assoc, List.append_nil, List.nil_append]
    · -- B5
      by_cases h7 : st.x7.data x = true
      · by_cases hr7 : (6 * x + 1) * (6 * x + 1) / 6 < vx
        · -- B, T
          have hstate : sieve_iZm_seg0_step vx st x = ⟨bitmap_clear_mod_p st.x5 (6 * x + 1) ((6 * x + 1) * x - x) vx, bitmap_clear_mod_p st.x7 (6 * x + 1) ((6 * x + 1) * x + x) vx, st.primes ++ [6 * x - 1] ++ [6 * x + 1]⟩ := by
            simp only [sieve_iZm_seg0_step, bitmap_get_bit, iZ_neg_one, iZ_one]
            rw [if_pos h5, if_neg hr5]
            rw [if_pos h7]
            rw [if_pos hr7]
          have hpr7 := seg0_applied m vx (6 * x + 1) hvx (by omega) (ha7.mp h7).1 (ha7.mp h7).2 hr7
          simp only [hstate]
          refine ⟨?_, ?_, ?_⟩
          · intro k hk1 hkn
            rw [clear_other7_data _ _ x vx k hx1 rfl hk1 hkn]
            rw [hb5 k hk1 hkn, aliveG_succ (rootV vx) x (6 * k - 1) hx1 (Or.inl (by omega))]
            have e5 := seg0_unapplied_root vx (6 * x - 1) (6 * k - 1) hr5
            have e7 := applied_clause' (rootV vx) (6 * x + 1) (6 * k - 1) hpr7.1 hpr7.2
            exact ⟨fun h => ⟨h.1.1, h.1.2, e5, e7.mpr h.2⟩, fun h => ⟨⟨h.1, h.2.1⟩, e7.mp h.2.2.2⟩⟩
          · intro k hk1 hkn
            rw [clear_own7_data _ _ x vx k hx1 rfl hk1 hkn]
            rw [hb7 k hk1 hkn, aliveG_succ (rootV vx) x (6 * k + 1) hx1 (Or.inr (by omega))]
            have e5 := seg0_unapplied_root vx (6 * x - 1) (6 * k + 1) hr5
            have e7 := applied_clause' (rootV vx) (6 * x + 1) (6 * k + 1) hpr7.1 hpr7.2
            exact ⟨fun h => ⟨h.1.1, h.1.2, e5, e7.mpr h.2⟩, fun h => ⟨⟨h.1, h.2.1⟩, e7.mp h.2.2.2⟩⟩
          · rw [hpr, hsb]
            rw [if_pos (ha5.mp h5)]
            rw [if_pos (ha7.mp h7)]
            simp only [List.append_assoc, List.append_nil, List.nil_append]
        · -- B, B
          have hstate : sieve_iZm_seg0_step vx st x = ⟨st.x5, st.x7, st.primes ++ [6 * x - 1] ++ [6 * x + 1]⟩ := by
            simp only [sieve_iZm_seg0_step, bitmap_get_bit, iZ_neg_one, iZ_one]
            rw [if_pos h5, if_neg hr5]
            rw [if_pos h7]
            rw [if_neg hr7]
          simp only [hstate]
          refine ⟨?_, ?_, ?_⟩
          · intro k hk1 hkn
            rw [hb5 k hk1 hkn, aliveG_succ (rootV vx) x (6 * k - 1) hx1 (Or.inl (by omega))]
            have e5 := seg0_unapplied_root vx (6 * x - 1) (6 * k - 1) hr5
            have e7 := seg0_unapplied_root vx (6 * x + 1) (6 * k - 1) hr7
            exact ⟨fun h => ⟨h.1, h.2, e5, e7⟩, fun h => ⟨h.1, h.2.1⟩⟩
          · intro k hk1 hkn
            rw [hb7 k hk1 hkn, aliveG_succ (rootV vx) x (6 * k + 1) hx1 (Or.inr (by omega))]
            have e5 := seg0_unapplied_root vx (6 * x - 1) (6 * k + 1) hr5
            have e7 := seg0_unapplied_root vx (6 * x + 1) (6 * k + 1) hr7
            exact ⟨fun h => ⟨h.1, h.2, e5, e7⟩, fun h => ⟨h.1, h.2.1⟩⟩
          · rw [hpr, hsb]
            rw [if_pos (ha5.mp h5)]
            rw [if_pos (ha7.mp h7)]
            simp only [List.append_assoc, List.append_nil, List.nil_append]
      · -- B, N
        have hstate : sieve_iZm_seg0_step vx st x = ⟨st.x5, st.x7, st.primes ++ [6 * x - 1]⟩ := by
          simp only [sieve_iZm_seg0_step, bitmap_get_bit, iZ_neg_one, iZ_one]
          rw [if_pos h5, if_neg hr5]
          rw [if_neg h7]
        simp only [hstate]
        refine ⟨?_, ?_, ?_⟩
        · intro k hk1 hkn
          rw [hb5 k hk1 hkn, aliveG_succ (rootV vx) x (6 * k - 1) hx1 (Or.inl (by omega))]
          have e5 := seg0_unapplied_root vx (6 * x - 1) (6 * k - 1) hr5
          have e7 := seg0_unapplied_bit m vx (6 * x + 1) (6 * k - 1) hvx (by omega) (fun hws => h7 (ha7.mpr hws))
          exact ⟨fun h => ⟨h.1, h.2, e5, e7⟩, fun h => ⟨h.1, h.2.1⟩⟩
        · intro k hk1 hkn
          rw [hb7 k hk1 hkn, aliveG_succ (rootV vx) x (6 * k + 1) hx1 (Or.inr (by omega))]
          have e5 := seg0_unapplied_root vx (6 * x - 1) (6 * k + 1) hr5
          have e7 := seg0_unapplied_bit m vx (6 * x + 1) (6 * k + 1) hvx (by omega) (fun hws => h7 (ha7.mpr hws))
          exact ⟨fun h => ⟨h.1, h.2, e5, e7⟩, fun h => ⟨h.1, h.2.1⟩⟩
        · rw [hpr, hsb]
          rw [if_pos (ha5.mp h5)]
          rw [if_neg (fun hs => h7 (ha7.mpr hs))]
          simp only [List.append_assoc, List.append_nil, List.nil_append]
  · -- N5
    by_cases h7 : st.x7.data x = true
    · by_cases hr7 : (6 * x + 1) * (6 * x + 1) / 6 < vx
      · -- N, T
        have hstate : sieve_iZm_seg0_step vx st x = ⟨bitmap_clear_mod_p st.x5 (6 * x + 1) ((6 * x + 1) * x - x) vx, bitmap_clear_mod_p st.x7 (6 * x + 1) ((6 * x + 1) * x + x) vx, st.primes ++ [6 * x + 1]⟩ := by
          simp only [sieve_iZm_seg0_step, bitmap_get_bit, iZ_neg_one, iZ_one]
          rw [if_neg h5]
          rw [if_pos h7]
          rw [if_pos hr7]
        have hpr7 := seg0_applied m vx (6 * x + 1) hvx (by omega) (ha7.mp h7).1 (ha7.mp h7).2 hr7
        simp only [hstate]
        refine ⟨?_, ?_, ?_⟩
        · intro k hk1 hkn
          rw [clear_other7_data _ _ x vx k hx1 rfl hk1 hkn]
          rw [hb5 k hk1 hkn, aliveG_succ (rootV vx) x (6 * k - 1) hx1 (Or.inl (by omega))]
          have e5 := seg0_unapplied_bit m vx (6 * x - 1) (6 * k - 1) hvx (by omega) (fun hws => h5 (ha5.mpr hws))
          have e7 := applied_clause' (rootV vx) (6 * x + 1) (6 * k - 1) hpr7.1 hpr7.2
          exact ⟨fun h => ⟨h.1.1, h.1.2, e5, e7.mpr h.2⟩, fun h => ⟨⟨h.1, h.2.1⟩, e7.mp h.2.2.2⟩⟩
        · intro k hk1 hkn
          rw [clear_own7_data _ _ x vx k hx1 rfl hk1 hkn]
          rw [hb7 k hk1 hkn, aliveG_succ (rootV vx) x (6 * k + 1) hx1 (Or.inr (by omega))]
          have e5 := seg0_unapplied_bit m vx (6 * x - 1) (6 * k + 1) hvx (by omega) (fun hws => h5 (ha5.mpr hws))
          have e7 := applied_clause' (rootV vx) (6 * x + 1) (6 * k + 1) hpr7.1 hpr7.2
          exact ⟨fun h => ⟨h.1.1, h.1.2, e5, e7.mpr h.2⟩, fun h => ⟨⟨h.1, h.2.1⟩, e7.mp h.2.2.2⟩⟩
        · rw [hpr, hsb]
          rw [if_neg (fun hs => h5 (ha5.mpr hs))]
          rw [if_pos (ha7.mp h7)]
          simp only [List.append_assoc, List.append_nil, List.nil_append]
      · -- N, B
        have hstate : sieve_iZm_seg0_step vx st x = ⟨st.x5, st.x7, st.primes ++ [6 * x + 1]⟩ := by
          simp only [sieve_iZm_seg0_step, bitmap_get_bit, iZ_neg_one, iZ_one]
          rw [if_neg h5]
          rw [if_pos h7]
          rw [if_neg hr7]
        simp only [hstate]
        refine ⟨?_, ?_, ?_⟩
        · intro k hk1 hkn
          rw [hb5 k hk1 hkn, aliveG_succ (rootV vx) x (6 * k - 1) hx1 (Or.inl (by omega))]
          have e5 := seg0_unapplied_bit m vx (6 * x - 1) (6 * k - 1) hvx (by omega) (fun hws => h5 (ha5.mpr hws))
          have e7 := seg0_unapplied_root vx (6 * x + 1) (6 * k - 1) hr7
          exact ⟨fun h => ⟨h.1, h.2, e5, e7⟩, fun h => ⟨h.1, h.2.1⟩⟩
        · intro k hk1 hkn
          rw [hb7 k hk1 hkn, aliveG_succ (rootV vx) x (6 * k + 1) hx1 (Or.inr (by omega))]
          have e5 := seg0_unapplied_bit m vx (6 * x - 1) (6 * k + 1) hvx (by omega) (fun hws => h5 (ha5.mpr hws))
          have e7 := seg0_unapplied_root vx (6 * x + 1) (6 * k + 1) hr7
          exact ⟨fun h => ⟨h.1, h.2, e5, e7⟩, fun h => ⟨h.1, h.2.1⟩⟩
        · rw [hpr, hsb]
          rw [if_neg (fun hs => h5 (ha5.mpr hs))]
          rw [if_pos (ha7.mp h7)]
          simp only [List.append_assoc, List.append_nil, List.nil_append]
    · -- N, N
      have hstate : sieve_iZm_seg0_step vx st x = ⟨st.x5, st.x7, st.primes⟩ := by
        simp only [sieve_iZm_seg0_step, bitmap_get_bit, iZ_neg_one, iZ_one]
        rw [if_neg h5]
        rw [if_neg h7]
      simp only [hstate]
      refine ⟨?_, ?_, ?_⟩
      · intro k hk1 hkn
        rw [hb5 k hk1 hkn, aliveG_succ (rootV vx) x (6 * k - 1) hx1 (Or.inl (by omega))]
        have e5 := seg0_unapplied_bit m vx (6 * x - 1) (6 * k - 1) hvx (by omega) (fun hws => h5 (ha5.mpr hws))
        have e7 := seg0_unapplied_bit m vx (6 * x + 1) (6 * k - 1) hvx (by omega) (fun hws => h7 (ha7.mpr hws))
        exact ⟨fun h => ⟨h.1, h.2, e5, e7⟩, fun h => ⟨h.1, h.2.1⟩⟩
      · intro k hk1 hkn
        rw [hb7 k hk1 hkn, aliveG_succ (rootV vx) x (6 * k + 1) hx1 (Or.inr (by omega))]
        have e5 := seg0_unapplied_bit m vx (6 * x - 1) (6 * k + 1) hvx (by omega) (fun hws => h5 (ha5.mpr hws))
        have e7 := seg0_unapplied_bit m vx (6 * x + 1) (6 * k + 1) hvx (by omega) (fun hws => h7 (ha7.mpr hws))
        exact ⟨fun h => ⟨h.1, h.2, e5, e7⟩, fun h => ⟨h.1, h.2.1⟩⟩
      · rw [hpr, hsb]
        rw [if_neg (fun hs => h5 (ha5.mpr hs))]
        rw [if_neg (fun hs => h7 (ha7.mpr hs))]
        simp only [List.append_assoc, List.append_nil, List.nil_append]

end IZ
